import Mathlib

/-!
# AI-Dialogue-Map: the conversation-tree engine

A shallow embedding of the tree engine of the application
(`internal/ui/dialog_canvas.go`, `internal/ui/node_widget.go`,
`internal/service/service.go`) together with the properties of it that the
specification states.

Conventions of the embedding.

* Go strings are Lean `String`s (sequences of Unicode characters).
* A `float32` value is a rational number, and every arithmetic operation on
  coordinates and sizes is followed by the rounding `float32` (to nearest,
  ties to even, 24 significant bits); infinities and NaN have no counterpart.
* The goroutine that `handleSend` starts is represented by its arguments
  (`SendTask`); sending a question and receiving its node are separate steps
  (`App.startSend`, `App.handleUIUpdates`), and `App.handleSend` is the two
  taken as one step.
* A `*NodeData` shared between `App.nodes` and the widgets of the canvas is
  represented by its value in both lists; an operation that mutates the data
  through the pointer updates both lists.
* A loop that the source does not bound takes a fuel argument and answers
  `none` when the fuel is used up before the loop has ended.
-/

namespace DialogueMap

/-! ## Data model -/

/-- Counterpart of `fyne.Position`. -/
structure fyne.Position where
  X : ℚ
  Y : ℚ
deriving DecidableEq

/-- Counterpart of `fyne.Size`. -/
structure fyne.Size where
  Width : ℚ
  Height : ℚ
deriving DecidableEq

/-- Counterpart of `fyne.NewPos`. -/
def fyne.NewPos (x y : ℚ) : fyne.Position := ⟨x, y⟩

/-- Counterpart of `ui.NodeData` (node_widget.go). -/
structure NodeData where
  ID : String
  Title : String
  Question : String
  Answer : String
  Position : fyne.Position
  Expanded : Bool
  ParentID : String
  IsBranchSource : Bool
deriving DecidableEq

/-- Counterpart of `ui.DialogCanvas`: `nodes` holds the data of the widgets of
`dc.nodes`, in order. The map `nodeMap` is not stored: every operation keeps
`nodeMap[id]` equal to the last widget of `dc.nodes` with that id, which is
what `DialogCanvas.nodeMap` computes. -/
structure DialogCanvas where
  nodes : List NodeData
  selectedBranchSourceID : String
deriving DecidableEq

/-- A map from ids to node data filled by one pass over `nodes`
(`m[n.ID] = n` for each node in order), as `getConversationHistory` builds its
`nodeDataMap`: a later node of the same id overwrites an earlier one. -/
def nodeDataMap (nodes : List NodeData) : String → Option NodeData :=
  nodes.foldl (fun m n => fun k => if k = n.ID then some n else m k) (fun _ => none)

/-- The lookup `dc.nodeMap[id]`: `AddNode` overwrites the entry of an id, and
`RemoveNodeAndDescendants` deletes the entry together with every widget of that
id, so the entry is the last widget with the id. -/
def DialogCanvas.nodeMap (dc : DialogCanvas) (id : String) : Option NodeData :=
  nodeDataMap dc.nodes id

/-- Counterpart of `NewDialogCanvas`. -/
def NewDialogCanvas : DialogCanvas := ⟨[], ""⟩

/-! ## Cascading deletion (dialog_canvas.go) -/

/-- The closure `collectDescendants` of `RemoveNodeAndDescendants`; `visited`
is the map `nodesToDeleteIDs`. One unit of fuel is used per nested call. -/
def collectDescendants (nodes : List NodeData) :
    Nat → List String → String → Option (List String)
  | 0, _, _ => none
  | fuel + 1, nodesToDeleteIDs, currentID =>
    if currentID ∈ nodesToDeleteIDs then some nodesToDeleteIDs
    else
      nodes.foldlM
        (fun visited nWidget =>
          if nWidget.ParentID = currentID then
            collectDescendants nodes fuel visited nWidget.ID
          else some visited)
        (currentID :: nodesToDeleteIDs)

/-- The second loop of `RemoveNodeAndDescendants`: splits the widgets into
`newNodes` and the ids `actuallyDeletedIDs`. -/
def removeLoop (nodesToDeleteIDs : List String) (nodes : List NodeData) :
    List NodeData × List String :=
  nodes.foldl
    (fun acc nw =>
      if ¬ nw.ID ∈ nodesToDeleteIDs then (acc.1 ++ [nw], acc.2)
      else (acc.1, acc.2 ++ [nw.ID]))
    ([], [])

/-- Counterpart of `DialogCanvas.RemoveNodeAndDescendants`: the ids removed and
the canvas afterwards. The traversal is given `len(dc.nodes) + 2` units of
fuel. -/
def DialogCanvas.RemoveNodeAndDescendants (dc : DialogCanvas) (nodeID : String) :
    Option (List String × DialogCanvas) :=
  match collectDescendants dc.nodes (dc.nodes.length + 2) [] nodeID with
  | none => none
  | some nodesToDeleteIDs =>
    if nodesToDeleteIDs.length = 0 then some ([], dc)
    else
      let r := removeLoop nodesToDeleteIDs dc.nodes
      some (r.2, { dc with nodes := r.1 })

/-! ## Node sizes and automatic placement (node_widget.go, dialog_canvas.go) -/

/-- Constant `nodeSpacing`. -/
def nodeSpacing : ℚ := 40

/-- Constant `nodeWidthCollapsed`. -/
def nodeWidthCollapsed : ℚ := 220

/-- Constant `nodeHeightCollapsed`. -/
def nodeHeightCollapsed : ℚ := 110

/-- Constant `nodeWidthExpanded`. -/
def nodeWidthExpanded : ℚ := 380

/-- Constant `maxNodeHeightExpanded` of package `ui`. -/
def maxNodeHeightExpanded : ℚ := 1200

/-- Constant `maxAnswerLinesCollapsed` of package `ui`. -/
def maxAnswerLinesCollapsed : Nat := 20

/-- Constant `nodeTitleMaxLength`. -/
def nodeTitleMaxLength : Nat := 25

/-- The values that `NodeWidget.MinSize` reads from the toolkit: the theme
sizes, the measured height of the text "Title", and the minimum height of the
title label of a widget whose renderer exists (`none` while `titleLabel` is
nil). -/
structure Metrics where
  padding : ℚ
  textSize : ℚ
  inlineIcon : ℚ
  measuredTitleHeight : ℚ
  titleLabelHeight : NodeData → Option ℚ

/-- The sizes of the theme of theme.go (`myTheme.Size`), with a title height of
20 for every label. -/
def myTheme : Metrics := ⟨8, 14, 20, 20, fun _ => none⟩

/-- The integer nearest to `x`, the even one of the two when `x` lies half-way
between them: the rounding of IEEE 754 arithmetic. -/
def roundHalfEven (x : ℚ) : ℤ :=
  let f := ⌊x⌋
  let d := x - f
  if d < 1 / 2 then f else if 1 / 2 < d then f + 1 else if f % 2 = 0 then f else f + 1

/-- The `float32` value that Go's arithmetic delivers for the exact result
`q` of an operation: `q` rounded to 24 significant bits, to nearest, ties to
even, with the spacing 2^-149 below 2^-126. A `float32` number is a rational
`q` with `float32 q = q`. Results of magnitude 2^128 and above, for which
`float32` has the infinities, have no counterpart here. In the definitions
below every operation is rounded on its own; a compiler that fuses a
multiplication with the addition that follows rounds the two once. -/
def float32 (q : ℚ) : ℚ :=
  if q = 0 then 0
  else
    let e := max (Int.log 2 |q|) (-126)
    let ulp : ℚ := 2 ^ (e - 23)
    (roundHalfEven (q / ulp) : ℚ) * ulp

/-- Counterpart of `NodeWidget.MinSize` for a widget with a non-nil `data`;
`titleLabel` is the minimum height of its title label, if it has one. -/
def MinSize (th : Metrics) (titleLabel : Option ℚ) (data : NodeData) : fyne.Size :=
  let padding := th.padding
  let defaultTextSize := th.textSize
  let defaultIconSize := th.inlineIcon
  let titleTextHeight0 :=
    match titleLabel with
    | some h => h
    | none =>
      if th.measuredTitleHeight = 0 then float32 (defaultTextSize * (3 / 2))
      else th.measuredTitleHeight
  let titleTextHeight := if titleTextHeight0 < 20 then 20 else titleTextHeight0
  let expandButtonHeight := float32 (defaultIconSize + float32 (padding * 2))
  let branchButtonWidth := float32 (defaultIconSize + float32 (padding * 2))
  let deleteButtonWidth := float32 (defaultIconSize + float32 (padding * 2))
  if data.Expanded then
    let answerContentHeight0 := float32 (defaultTextSize * 6)
    let answerContentHeight1 :=
      if answerContentHeight0 <
          float32 (defaultTextSize * float32 ((maxAnswerLinesCollapsed + 1 : Nat) : ℚ)) then
        float32 (float32 (defaultTextSize * float32 ((maxAnswerLinesCollapsed + 1 : Nat) : ℚ)) +
          padding)
      else answerContentHeight0
    let maxAnswerAreaHeight0 :=
      float32 (float32 (float32 (maxNodeHeightExpanded - titleTextHeight) - expandButtonHeight) -
        float32 (padding * 4))
    let maxAnswerAreaHeight :=
      if maxAnswerAreaHeight0 < float32 (defaultTextSize * 2) then float32 (defaultTextSize * 2)
      else maxAnswerAreaHeight0
    let answerContentHeight :=
      if answerContentHeight1 > maxAnswerAreaHeight then maxAnswerAreaHeight
      else answerContentHeight1
    let targetWidth :=
      float32 (float32 (float32 (nodeWidthExpanded + branchButtonWidth) + deleteButtonWidth) +
        float32 (padding * 2))
    let targetHeight0 :=
      float32 (float32 (float32 (titleTextHeight + answerContentHeight) + expandButtonHeight) +
        float32 (padding * 4))
    let targetHeight1 :=
      if maxNodeHeightExpanded > 0 ∧ targetHeight0 > maxNodeHeightExpanded then
        maxNodeHeightExpanded
      else targetHeight0
    let targetHeight := if targetHeight1 < nodeHeightCollapsed then nodeHeightCollapsed else targetHeight1
    ⟨targetWidth, targetHeight⟩
  else
    ⟨float32 (float32 (float32 (nodeWidthCollapsed + branchButtonWidth) + deleteButtonWidth) +
        float32 (padding * 2)),
      nodeHeightCollapsed⟩

/-- The grid position that `AddNode` gives a node without a parent on the
canvas, `l` being `len(dc.nodes)`: `int(nodeWidthCollapsed+20)` is 240 and
`int(nodeHeightCollapsed+20)` is 130. -/
def gridPosition (l : Nat) : fyne.Position :=
  fyne.NewPos (((l % 5 * 240 + 50 : Nat) : ℚ)) (((l / 5 * 130 + 200 : Nat) : ℚ))

/-- The overlap loop of `AddNode`: the first existing node of another id whose
box overlaps the candidate, by the test in `float32` arithmetic, moves the
candidate by `nodeSpacing` on both axes and ends the loop. -/
def overlapLoop (th : Metrics) (data : NodeData) (newNodeModelSize : fyne.Size) :
    List NodeData → fyne.Position → fyne.Position
  | [], calculatedPosition => calculatedPosition
  | existingNode :: rest, calculatedPosition =>
    if existingNode.ID ≠ data.ID then
      let existingPos := existingNode.Position
      let existingSize := MinSize th (th.titleLabelHeight existingNode) existingNode
      let overlapX : Bool :=
        decide (calculatedPosition.X < float32 (existingPos.X + existingSize.Width)) &&
          decide (float32 (calculatedPosition.X + newNodeModelSize.Width) > existingPos.X)
      let overlapY : Bool :=
        decide (calculatedPosition.Y < float32 (existingPos.Y + existingSize.Height)) &&
          decide (float32 (calculatedPosition.Y + newNodeModelSize.Height) > existingPos.Y)
      if overlapX && overlapY then
        ⟨float32 (calculatedPosition.X + nodeSpacing), float32 (calculatedPosition.Y + nodeSpacing)⟩
      else overlapLoop th data newNodeModelSize rest calculatedPosition
    else overlapLoop th data newNodeModelSize rest calculatedPosition

/-- The candidate position (`calculatedPosition` before the overlap loop) that
`AddNode` computes for a node whose parent is on the canvas, in `float32`
arithmetic; `nodeSpacing/2` is a constant expression. The size of the new
widget is measured before it has a title label. -/
def candidatePosition (th : Metrics) (dc : DialogCanvas) (data parent : NodeData) :
    fyne.Position :=
  let parentModelPos := parent.Position
  let parentModelSize := MinSize th (th.titleLabelHeight parent) parent
  let newNodeModelSize := MinSize th none data
  let childrenCount := (dc.nodes.filter (fun n => n.ParentID = data.ParentID)).length
  let newX := float32 (float32 (parentModelPos.X + parentModelSize.Width) + nodeSpacing)
  let newY :=
    float32 (float32 (float32 (parentModelPos.Y +
        float32 (float32 (childrenCount : ℚ) *
          float32 (newNodeModelSize.Height + nodeSpacing / 2))) -
      float32 (parentModelSize.Height / 2)) +
      float32 (newNodeModelSize.Height / 2))
  fyne.NewPos newX newY

/-- The position that `AddNode` assigns to `data` on the canvas `dc`. -/
def placement (th : Metrics) (dc : DialogCanvas) (data : NodeData) : fyne.Position :=
  if data.ParentID ≠ "" then
    match dc.nodeMap data.ParentID with
    | some parent =>
      overlapLoop th data (MinSize th none data) dc.nodes (candidatePosition th dc data parent)
    | none => gridPosition dc.nodes.length
  else gridPosition dc.nodes.length

/-- Counterpart of `DialogCanvas.AddNode`: the canvas afterwards and the data
as the call leaves it (`data.Position` is assigned through the pointer). -/
def DialogCanvas.AddNode (th : Metrics) (dc : DialogCanvas) (data : NodeData) :
    DialogCanvas × NodeData :=
  let data1 := { data with Position := placement th dc data }
  ({ dc with nodes := dc.nodes ++ [data1] }, data1)

/-- The assignment that `SetBranchSource` makes to one widget's data. -/
def markBranchSource (previousSourceID nodeID : String) (d : NodeData) : NodeData :=
  let isNowSource : Bool := decide (d.ID = nodeID)
  if d.IsBranchSource ≠ isNowSource ∨ (d.ID = previousSourceID ∧ previousSourceID ≠ nodeID) then
    { d with IsBranchSource := isNowSource }
  else d

/-- Counterpart of `DialogCanvas.SetBranchSource`. -/
def DialogCanvas.SetBranchSource (dc : DialogCanvas) (nodeID : String) : DialogCanvas :=
  let previousSourceID := dc.selectedBranchSourceID
  { nodes := dc.nodes.map (markBranchSource previousSourceID nodeID),
    selectedBranchSourceID := nodeID }

/-- Counterpart of `DialogCanvas.GetBranchSource`. -/
def DialogCanvas.GetBranchSource (dc : DialogCanvas) : String :=
  dc.selectedBranchSourceID

/-- Counterpart of `DialogCanvas.Clear`: the widgets and the map are emptied;
the selected branch source is not assigned. -/
def DialogCanvas.Clear (dc : DialogCanvas) : DialogCanvas :=
  { dc with nodes := [] }

/-- Counterpart of `DialogCanvas.GetNodesData`. -/
def DialogCanvas.GetNodesData (dc : DialogCanvas) : List NodeData :=
  dc.nodes

/-- Counterpart of `NodeWidget.Dragged` for the widget at index `i` of the
canvas, with the drag delta already divided by the zoom factor. -/
def DialogCanvas.Dragged (dc : DialogCanvas) (i : Nat) (modelDelta : fyne.Position) :
    DialogCanvas :=
  let move : NodeData → NodeData := fun d =>
    { d with
      Position :=
        ⟨float32 (d.Position.X + modelDelta.X), float32 (d.Position.Y + modelDelta.Y)⟩ }
  { dc with nodes := List.modify move i dc.nodes }

/-! ## Helpers of the Go standard library used by the service -/

/-- Counterpart of `strings.HasPrefix`. -/
def strings.HasPrefix (s pre : String) : Bool :=
  pre.data.isPrefixOf s.data

/-- Counterpart of `strings.TrimPrefix`. -/
def strings.TrimPrefix (s pre : String) : String :=
  if strings.HasPrefix s pre then ⟨s.data.drop pre.data.length⟩ else s

/-- Counterpart of `unicode.IsSpace`: the Latin-1 spaces and the code points of
the Unicode property White_Space. -/
def unicode.IsSpace (r : Char) : Bool :=
  let c := r.toNat
  (9 ≤ c && c ≤ 13) || c = 0x20 || c = 0x85 || c = 0xA0 || c = 0x1680 ||
    (0x2000 ≤ c && c ≤ 0x200a) || c = 0x2028 || c = 0x2029 || c = 0x202f ||
    c = 0x205f || c = 0x3000

/-- Counterpart of `strings.TrimSpace`. -/
def strings.TrimSpace (s : String) : String :=
  ⟨(s.data.dropWhile unicode.IsSpace).rdropWhile unicode.IsSpace⟩

/-- Counterpart of `strings.Join`. -/
def strings.Join : List String → String → String
  | [], _ => ""
  | [a], _ => a
  | a :: b :: rest, sep => a ++ sep ++ strings.Join (b :: rest) sep

/-- The pieces of `s` between the occurrences of the character `sep`, at most
`n` of them, the last one unsplit: `strings.SplitN(s, sep, n)` for a
one-character separator and `n ≥ 0`. -/
def splitNChars (sep : Char) : Nat → List Char → List (List Char)
  | 0, _ => []
  | 1, s => [s]
  | n + 2, s =>
    if sep ∈ s then
      s.takeWhile (fun c => c ≠ sep) ::
        splitNChars sep (n + 1) ((s.dropWhile (fun c => c ≠ sep)).drop 1)
    else [s]

/-- Counterpart of `strings.SplitN(s, "\n", n)`. -/
def strings.SplitNLines (s : String) (n : Nat) : List String :=
  (splitNChars '\n' n s.data).map String.mk

/-- Counterpart of `utils.TruncateText` for `maxLen ≥ 0`. -/
def TruncateText (s : String) (maxLen : Nat) : String :=
  let runes := s.data
  if runes.length > maxLen then
    if maxLen > 3 then ⟨runes.take (maxLen - 3)⟩ ++ "..."
    else ⟨runes.take maxLen⟩
  else s

/-- The raw lines that `bufio.ScanLines` finds: the text between line feeds;
text after the last line feed is a line only when it is not empty. -/
def rawLines : List Char → List (List Char)
  | [] => []
  | c :: cs =>
    if c = '\n' then [] :: rawLines cs
    else
      match rawLines cs with
      | [] => [[c]]
      | l :: ls => (c :: l) :: ls

/-- Counterpart of `dropCR` of package `bufio`. -/
def dropCR (data : List Char) : List Char :=
  if data.getLast? = some '\r' then data.dropLast else data

/-- Constant `bufio.MaxScanTokenSize`. -/
def MaxScanTokenSize : Nat := 64 * 1024

/-- The length of a line in bytes of its UTF-8 encoding. -/
def byteLength (line : List Char) : Nat :=
  (String.mk line).utf8ByteSize

/-- The tokens that a `bufio.Scanner` with the default buffer delivers for the
given raw lines, and whether it stopped with `ErrTooLong`: a line reaches the
caller when it fits the buffer of `MaxScanTokenSize` bytes together with its
line feed, or without one when it ends the input, that is when it is shorter
than `MaxScanTokenSize`. -/
def scanTokens : List (List Char) → List String × Bool
  | [] => ([], false)
  | raw :: rest =>
    if byteLength raw < MaxScanTokenSize then
      let r := scanTokens rest
      (String.mk (dropCR raw) :: r.1, r.2)
    else ([], true)

/-! ## The application state and its operations (service.go) -/

/-- Counterpart of `service.TreeData`, the content of the structural index.
`Nodes` is a slice of pointers in the source; every entry here is a node: an
index whose list holds a null entry is unmarshalled with a nil pointer, on
which the first loop of `loadProjectData` panics, and has no counterpart. -/
structure TreeData where
  Nodes : List NodeData
  ProjectName : String
deriving DecidableEq

/-- Counterpart of `service.App`, restricted to the project state. -/
structure App where
  dialogCanvas : DialogCanvas
  nodes : List NodeData
  currentProjectID : String
  currentProjectName : String
deriving DecidableEq

/-- The project state of `NewMainApp`. -/
def NewMainApp : App := ⟨NewDialogCanvas, [], "", ""⟩

/-- The ancestor loop of `getConversationHistory` (`for currentNodeID != ""`);
one unit of fuel is used per evaluation of the loop condition. -/
def historyLoop (nodeDataMap : String → Option NodeData) :
    Nat → String → List String → Option (List String)
  | 0, _, _ => none
  | fuel + 1, currentNodeID, historyParts =>
    if currentNodeID ≠ "" then
      match nodeDataMap currentNodeID with
      | none => some historyParts
      | some currentNodeData =>
        historyLoop nodeDataMap fuel currentNodeData.ParentID
          (historyParts ++
            ["AI: " ++ currentNodeData.Answer ++ "\n", "User: " ++ currentNodeData.Question ++ "\n"])
    else some historyParts

/-- What the descending loop of `getConversationHistory` writes for the parts
of index 1 and above: each part followed by a line feed, the last part first. -/
def writeUpperParts : List String → String
  | [] => ""
  | part :: rest => writeUpperParts rest ++ part ++ "\n"

/-- The string that the descending loop of `getConversationHistory` builds:
the parts from the last to the first, with a line feed after each but the
part of index 0. -/
def buildHistory : List String → String
  | [] => ""
  | part0 :: rest => writeUpperParts rest ++ part0

/-- Counterpart of `App.getConversationHistory`; `none` when the ancestor loop
is still running after `fuel` evaluations of its condition. -/
def getConversationHistory (fuel : Nat) (nodes : List NodeData) (targetNodeID : String) :
    Option String :=
  (historyLoop (nodeDataMap nodes) fuel targetNodeID []).map buildHistory

/-- Counterpart of `App.addNode`. The pointer appended to `a.nodes` is the one
given to the canvas, so the list sees the position that `AddNode` assigns and
the marks that `SetBranchSource` sets. -/
def App.addNode (th : Metrics) (a : App) (data : NodeData) : App :=
  let r := a.dialogCanvas.AddNode th data
  let previousSourceID := r.1.selectedBranchSourceID
  { a with
    nodes := (a.nodes ++ [r.2]).map (markBranchSource previousSourceID data.ID),
    dialogCanvas := r.1.SetBranchSource data.ID }

/-- The assignment of `updateAppDataAfterDeletion` to a node that is kept. -/
def clearDeletedParent (deletedIDs : List String) (n : NodeData) : NodeData :=
  if n.ParentID ≠ "" ∧ n.ParentID ∈ deletedIDs then { n with ParentID := "" } else n

/-- Counterpart of `App.updateAppDataAfterDeletion` on the list `a.nodes`. -/
def updateAppDataAfterDeletion (nodes : List NodeData) (deletedIDs : List String) :
    List NodeData :=
  if deletedIDs.length = 0 then nodes
  else
    nodes.foldl
      (fun newNodesData n =>
        if ¬ n.ID ∈ deletedIDs then newNodesData ++ [clearDeletedParent deletedIDs n]
        else newNodesData)
      []

/-- Counterpart of `App.requestNodeDeletion`. The data of the widgets left on
the canvas are the pointers kept in `a.nodes`, so they see the parent ids that
`updateAppDataAfterDeletion` clears. -/
def App.requestNodeDeletion (a : App) (nodeID : String) : Option App :=
  match a.dialogCanvas.RemoveNodeAndDescendants nodeID with
  | none => none
  | some (deletedIDs, dc) =>
    some { a with
      nodes := updateAppDataAfterDeletion a.nodes deletedIDs,
      dialogCanvas := { dc with nodes := dc.nodes.map (clearDeletedParent deletedIDs) } }

/-- Counterpart of `App.clearCurrentProjectState`. -/
def App.clearCurrentProjectState (a : App) : App :=
  { nodes := [],
    dialogCanvas := a.dialogCanvas.Clear,
    currentProjectID := "",
    currentProjectName := "" }

/-- Counterpart of `App.newProject`. -/
def App.newProject (a : App) : App :=
  a.clearCurrentProjectState

/-! ## Persistence (service.go) -/

/-- The content document that `saveData` writes for a node:
`fmt.Sprintf("# Question\n\n%s\n\n---\n\n# Answer\n\n%s", ...)`. -/
def mdContent (question answer : String) : String :=
  "# Question\n\n" ++ question ++ "\n\n---\n\n# Answer\n\n" ++ answer

/-- The variables of the scanning loop of `parseMarkdown`. -/
structure ParseState where
  questionLines : List String
  answerLines : List String
  readingQuestion : Bool
  readingAnswer : Bool
deriving DecidableEq

/-- One iteration of the scanning loop of `parseMarkdown`. -/
def parseLine (st : ParseState) (line : String) : ParseState :=
  if strings.HasPrefix line "# Question" then
    { st with
      readingQuestion := true,
      readingAnswer := false,
      questionLines := if st.questionLines.length > 0 then [] else st.questionLines }
  else if strings.HasPrefix line "# Answer" then
    { st with
      readingQuestion := false,
      readingAnswer := true,
      answerLines := if st.answerLines.length > 0 then [] else st.answerLines }
  else if strings.HasPrefix line "---" then
    if st.readingQuestion then { st with readingQuestion := false } else st
  else if st.readingQuestion then { st with questionLines := st.questionLines ++ [line] }
  else if st.readingAnswer then { st with answerLines := st.answerLines ++ [line] }
  else st

/-- The text of `bufio.ErrTooLong`. -/
def ErrTooLong : String := "bufio.Scanner: token too long"

/-- Counterpart of `parseMarkdown`; `file` is the outcome of opening and
reading the file at `filePath`: its content, or the text of the error. -/
def parseMarkdown (file : Except String String) : Except String (String × String) :=
  match file with
  | .error err => .error err
  | .ok content =>
    let scanned := scanTokens (rawLines content.data)
    let st := scanned.1.foldl parseLine ⟨[], [], false, false⟩
    if scanned.2 then .error ErrTooLong
    else
      let qStr := strings.TrimSpace (strings.Join st.questionLines "\n")
      let aStr := strings.TrimSpace (strings.Join st.answerLines "\n")
      .ok (qStr, aStr)

/-- The path of the content document of a node,
`filepath.Join(projectsBaseDir, projectID, mdNodesDirName, id + ".md")`, for
names that `filepath.Join` leaves as they are. -/
def mdPath (projectID nodeID : String) : String :=
  "projects/" ++ projectID ++ "/nodes/" ++ nodeID ++ ".md"

/-- What the structural index keeps of a node: the fields tagged `yaml:"-"`
(question, answer, branch-source mark) are not written and read back as zero
values. -/
def indexRecord (n : NodeData) : NodeData :=
  { n with Question := "", Answer := "", IsBranchSource := false }

/-- The two artifacts that a successful `saveData` writes for the nodes of
the application: the structural index and, per node, the path and the text of
its content document. -/
def saveData (a : App) (projectID projectName : String) : TreeData × List (String × String) :=
  let nodesToSave := a.nodes
  (⟨nodesToSave.map indexRecord, projectName⟩,
    nodesToSave.map (fun node => (mdPath projectID node.ID, mdContent node.Question node.Answer)))

/-- The outcome of reading and unmarshalling the structural index of a
project. -/
inductive IndexFile where
  | notExist
  | unreadable (err : String)
  | malformed (err : String)
  | parsed (tree : TreeData)

/-- The first loop of `loadProjectData`: the question and answer of every
listed node are read from its content document, with placeholders when
`parseMarkdown` fails. -/
def loadNodeTexts (projectID : String) (readFile : String → Except String String)
    (nodes : List NodeData) : List NodeData :=
  nodes.foldl
    (fun loadedNodes node =>
      let path := mdPath projectID node.ID
      match parseMarkdown (readFile path) with
      | .ok (q, ans) => loadedNodes ++ [{ node with Question := q, Answer := ans }]
      | .error errMd =>
        loadedNodes ++ [{ node with
          Question := "(質問読み込みエラー)",
          Answer := "Markdownファイル '" ++ path ++ "' の読み込みに失敗しました: " ++ errMd }])
    []

/-- The last loop of `loadProjectData`: every loaded node is added to the
canvas. The second component collects the data as `AddNode` leaves them, which
is what `appInstance.nodes` then holds, the pointers being shared. -/
def installNodes (th : Metrics) (dc : DialogCanvas) (loadedNodes : List NodeData) :
    DialogCanvas × List NodeData :=
  loadedNodes.foldl
    (fun acc nodeData =>
      let r := acc.1.AddNode th nodeData
      (r.1, acc.2 ++ [r.2]))
    (dc, [])

/-- Counterpart of `loadProjectData`; `index` is the outcome of reading the
structural index of the project and `readFile` the outcome of reading a
content document by path. -/
def loadProjectData (th : Metrics) (appInstance : App) (projectID : String)
    (index : IndexFile) (readFile : String → Except String String) : App :=
  if projectID = "" then appInstance.clearCurrentProjectState
  else
    match index with
    | .notExist => appInstance.clearCurrentProjectState
    | .unreadable _ => appInstance.clearCurrentProjectState
    | .malformed _ => appInstance.clearCurrentProjectState
    | .parsed tree =>
      let a1 := { appInstance with
        currentProjectID := projectID,
        currentProjectName := tree.ProjectName }
      let loadedNodes := loadNodeTexts projectID readFile tree.Nodes
      let a2 := a1.clearCurrentProjectState
      let r := installNodes th a2.dialogCanvas loadedNodes
      { a2 with nodes := r.2, dialogCanvas := r.1 }

/-! ## Sending a question (service.go) -/

/-- The generation backend held by the application: `a.geminiClient`, nil or a
client whose `Generate` answers a prompt with a text or with an error. -/
inductive GeminiClient where
  | absent
  | client (Generate : String → Except String String)

/-- The text `answerText` that the task of `handleSend` obtains. -/
def answerTextOf (geminiClient : GeminiClient) (promptToSend originalQuestion : String) : String :=
  match geminiClient with
  | .client generate =>
    match generate promptToSend with
    | .ok answerText => answerText
    | .error err => "API Error: " ++ err
  | .absent => "「" ++ originalQuestion ++ "」に対するAIの応答です。(APIキー未設定)"

/-- The title and the answer content that `handleSend` derives from the
response text. -/
def titleAndContent (answerText : String) : String × String :=
  let r : String × String :=
    if strings.HasPrefix answerText "Title: " then
      let parts := strings.SplitNLines answerText 3
      match parts with
      | [] => ("", answerText)
      | [p0] => (strings.TrimSpace (strings.TrimPrefix p0 "Title: "), "")
      | [p0, p1] =>
        (strings.TrimSpace (strings.TrimPrefix p0 "Title: "),
          if strings.TrimSpace p1 = "" then "" else p1)
      | p0 :: _ :: p2 :: _ => (strings.TrimSpace (strings.TrimPrefix p0 "Title: "), p2)
    else ("", answerText)
  let nodeTitle1 :=
    if r.1 = "" then
      if '\n' ∈ answerText.data then String.mk (answerText.data.takeWhile (fun c => c ≠ '\n'))
      else answerText
    else r.1
  let nodeTitle2 := TruncateText nodeTitle1 (nodeTitleMaxLength * 2)
  (if nodeTitle2 = "" then "無題のノード" else nodeTitle2, r.2)

/-- The prompt that `handleSend` sends: the conversation history of the branch
source, if any, and the instructed question. -/
def fullPrompt (conversationHistory currentQuestion : String) : String :=
  let history := if conversationHistory ≠ "" then conversationHistory ++ "\n\n" else conversationHistory
  history ++ "User: " ++
    ("応答の最初の行に「Title: 」に続けてタイトルを記述し、改行を2つ入れてから本文を記述してください。\n\n質問： "
      ++ currentQuestion)

/-- Counterpart of `App.handleSend` followed by the application of its node by
`handleUIUpdates`, taken as one step, that is, for the run in which nothing
else happens between the sending of the question and the arrival of the
answer (`startSend`, `SendTask.assignProject` and `App.handleUIUpdates` below
are the separate steps): the question is `currentQuestion`, the identifiers
`newProjectID` and `nodeID` are the ones `uuid.NewString` returns and `now` is
the formatted time. `none` when the ancestor loop of the history is still
running after `fuel` steps. -/
def App.handleSend (th : Metrics) (fuel : Nat) (a : App) (geminiClient : GeminiClient)
    (currentQuestion newProjectID nodeID now : String) : Option App :=
  if currentQuestion = "" then some a
  else
    let isNewProject : Bool := decide (a.currentProjectID = "")
    let parentID := a.dialogCanvas.GetBranchSource
    let history : Option String :=
      if parentID ≠ "" then getConversationHistory fuel a.nodes parentID else some ""
    match history with
    | none => none
    | some conversationHistory =>
      let answerText := answerTextOf geminiClient (fullPrompt conversationHistory currentQuestion)
        currentQuestion
      let tc := titleAndContent answerText
      let a1 :=
        if isNewProject then
          { a with
            currentProjectID := newProjectID,
            currentProjectName := if tc.1 = "" then "New Project - " ++ now else tc.1 }
        else a
      let newNodeData : NodeData :=
        { ID := nodeID, Title := tc.1, Question := currentQuestion, Answer := tc.2,
          Position := ⟨0, 0⟩, Expanded := false, ParentID := parentID, IsBranchSource := false }
      some (a1.addNode th newNodeData)

/-- The arguments `promptToSend`, `originalQuestion`, `pID` and
`isFirstNodeInProject` of the goroutine that `handleSend` starts. They are
evaluated when the question is sent: `pID` is the branch source of that
moment. -/
structure SendTask where
  promptToSend : String
  originalQuestion : String
  pID : String
  isFirstNodeInProject : Bool
deriving DecidableEq

/-- The node `newNodeData` that the goroutine of `handleSend` builds from its
arguments and sends on `uiUpdateChan`; `nodeID` is what `uuid.NewString`
returns. -/
def SendTask.newNodeData (t : SendTask) (geminiClient : GeminiClient) (nodeID : String) :
    NodeData :=
  let tc := titleAndContent (answerTextOf geminiClient t.promptToSend t.originalQuestion)
  { ID := nodeID, Title := tc.1, Question := t.originalQuestion, Answer := tc.2,
    Position := ⟨0, 0⟩, Expanded := false, ParentID := t.pID, IsBranchSource := false }

/-- Holds when some node of id `child` names `parent` as its parent. -/
def ParentLink (nodes : List NodeData) (child parent : String) : Prop :=
  ∃ n ∈ nodes, n.ID = child ∧ n.ParentID = parent

/-- Holds when `y` is `x` or a transitive descendant of `x`: a chain of parent
links of nodes of the collection leads from `y` up to `x`. -/
def DescendantOrSelf (nodes : List NodeData) (x y : String) : Prop :=
  Relation.ReflTransGen (ParentLink nodes) y x

/-- Holds when a node of the collection has the id. -/
def Present (nodes : List NodeData) (id : String) : Prop :=
  ∃ n ∈ nodes, n.ID = id

/-- Holds when no two nodes of the collection share an id. -/
def UniqueIDs (nodes : List NodeData) : Prop :=
  (nodes.map (fun n => n.ID)).Nodup

/-- Holds when every non-empty parent id names a node of the collection. -/
def ParentsPresent (nodes : List NodeData) : Prop :=
  ∀ n ∈ nodes, n.ParentID ≠ "" → Present nodes n.ParentID

/-- The parent relation restricted to the ids present in the collection: the
node `child` names the present node `parent` as its parent. -/
def PresentParentLink (nodes : List NodeData) (child parent : String) : Prop :=
  parent ≠ "" ∧ ParentLink nodes child parent ∧ Present nodes parent

/-- Holds when the parent relation restricted to the present ids has no
cycle. -/
def Acyclic (nodes : List NodeData) : Prop :=
  ∀ x, ¬ Relation.TransGen (PresentParentLink nodes) x x

/-- A valid forest: unique ids, every non-empty parent id names a present
node, and no cycle. -/
def ValidForest (nodes : List NodeData) : Prop :=
  UniqueIDs nodes ∧ ParentsPresent nodes ∧ Acyclic nodes

/-! ## Auxiliary notions of the proofs and the scenarios of the specification -/

/-- Holds when every id of `v` outside `S` has all its children in `v`. -/
def ClosedExcept (nodes : List NodeData) (v S : List String) : Prop :=
  ∀ p ∈ v, p ∉ S → ∀ n ∈ nodes, n.ParentID = p → n.ID ∈ v

/-- The number of entries of `U` that are not in `visited`. -/
def unvisited (U visited : List String) : Nat :=
  (U.filter (fun u => decide (u ∉ visited))).length

/-- The postcondition of one call of `collectDescendants`. -/
structure CollectPost (nodes : List NodeData) (v : List String) (cur : String)
    (w : List String) : Prop where
  sub : v ⊆ w
  mem : cur ∈ w
  sound : ∀ y ∈ w, y ∈ v ∨ DescendantOrSelf nodes cur y
  closed : ∀ S : List String, ClosedExcept nodes v S → ClosedExcept nodes w S

/-- A node with the given id and parent id, and no other content. -/
def node (id parentID : String) : NodeData :=
  { ID := id, Title := "", Question := "", Answer := "", Position := ⟨0, 0⟩,
    Expanded := false, ParentID := parentID, IsBranchSource := false }

/-- The canvas of the scenario "root A with children B and C". -/
def canvasABC : DialogCanvas :=
  ⟨[node "A" "", node "B" "A", node "C" "A"], ""⟩

/-- The nodes of the scenario "root A, B child of A, C child of B". -/
def chainABC : List NodeData :=
  [node "A" "", node "B" "A", node "C" "B"]

/-- An application whose store and canvas hold the given nodes. -/
def appWith (nodes : List NodeData) : App :=
  ⟨⟨nodes, ""⟩, nodes, "", ""⟩

/-- The ancestor chain of a node: `AncestorChain nodes n d chain` holds when
`chain` lists, root first, the nodes on the way from a root of the store down
to `n`: it starts at a node without parent, each next node names the one
before as its parent, and it ends with `n`; all its nodes are in the store and
`d` is the depth of `n`, the number of parent links between `n` and the
root. -/
inductive AncestorChain (nodes : List NodeData) : NodeData → Nat → List NodeData → Prop
  | root {n : NodeData} : n ∈ nodes → n.ParentID = "" → AncestorChain nodes n 0 [n]
  | child {n p : NodeData} {d : Nat} {chain : List NodeData} :
      n ∈ nodes → n.ParentID ≠ "" → p.ID = n.ParentID → AncestorChain nodes p d chain →
      AncestorChain nodes n (d + 1) (chain ++ [n])

/-- The text of one exchange in a conversation history: the "User:" part, then
the "AI:" part, a blank line between them. -/
def exchangeText (d : NodeData) : String :=
  "User: " ++ d.Question ++ "\n" ++ "\n" ++ ("AI: " ++ d.Answer ++ "\n")

/-- The conversation history of a list of exchanges, oldest first: the texts
of the exchanges separated by a blank line. -/
def renderExchanges (chain : List NodeData) : String :=
  strings.Join (chain.map exchangeText) "\n"

/-- The parts that one iteration of the ancestor loop appends for a node. -/
def historyPartsOf (d : NodeData) : List String :=
  ["AI: " ++ d.Answer ++ "\n", "User: " ++ d.Question ++ "\n"]

/-- The concatenation of a list of strings. -/
def concatAll : List String → String
  | [] => ""
  | a :: rest => a ++ concatAll rest

/-- The nodes of the scenario A → B → C with their texts. -/
def talkABC : List NodeData :=
  [{ node "A" "" with Question := "qa", Answer := "aa" },
   { node "B" "A" with Question := "qb", Answer := "ab" },
   { node "C" "B" with Question := "qc", Answer := "ac" }]

/-- The structural index of a saved project whose only node, B, was recorded
at the position (290, 200): what `saveData` writes after the roots A and B
were created and A was deleted. -/
def indexOfB : TreeData :=
  ⟨[{ node "B" "" with Position := ⟨290, 200⟩ }], "My project"⟩

/-- A reader of content documents that finds, for every path, the document of
the question "q" and the answer "a". -/
def readQA : String → Except String String :=
  fun _ => .ok (mdContent "q" "a")

/-- Holds when the box at `p` of size `s` and the box at `q` of size `t`
overlap on both axes, the test of the overlap loop of `AddNode`. -/
def BoxesOverlap (p : fyne.Position) (s : fyne.Size) (q : fyne.Position) (t : fyne.Size) : Prop :=
  (p.X < q.X + t.Width ∧ p.X + s.Width > q.X) ∧ (p.Y < q.Y + t.Height ∧ p.Y + s.Height > q.Y)

/-- The canvas after the given nodes were added in order with `AddNode`. -/
def addAll (th : Metrics) (dc : DialogCanvas) (l : List NodeData) : DialogCanvas :=
  l.foldl (fun d n => (d.AddNode th n).1) dc

/-- The canvas of the scenario "roots A and B are added": A is in the first
cell of the grid and B in the second. -/
def canvasRootsAB : DialogCanvas :=
  addAll myTheme NewDialogCanvas [node "A" "", node "B" ""]

/-- The canvas of a scenario without removal: A with four children B1 to B4,
the root R5, its child Q, and the child cQ of Q. -/
def canvasNudge : DialogCanvas :=
  addAll myTheme NewDialogCanvas
    [node "A" "", node "B1" "A", node "B2" "A", node "B3" "A", node "B4" "A", node "R5" "",
      node "Q" "R5", node "cQ" "Q"]

/-- The branch button of a node widget at the level of the application:
`SetBranchSource` on the canvas; the marks it sets are seen through the
pointers kept in `a.nodes`. -/
def App.SetBranchSource (a : App) (nodeID : String) : App :=
  { a with
    nodes := a.nodes.map (markBranchSource a.dialogCanvas.selectedBranchSourceID nodeID),
    dialogCanvas := a.dialogCanvas.SetBranchSource nodeID }

/-- The pairs (id, parent id) of a list of nodes. -/
def linksOf (nodes : List NodeData) : List (String × String) :=
  nodes.map (fun n => (n.ID, n.ParentID))

/-- The states of the application reachable from the empty store by `addNode`
calls whose only requirement is that the id of the node is not already
present, and by deletions of a subtree. -/
inductive ReachableByAdd (th : Metrics) : App → Prop
  | init : ReachableByAdd th NewMainApp
  | add {a : App} (data : NodeData) :
      ReachableByAdd th a → ¬ Present a.nodes data.ID → ReachableByAdd th (a.addNode th data)
  | delete {a b : App} (x : String) :
      ReachableByAdd th a → a.requestNodeDeletion x = some b → ReachableByAdd th b

/-- The states of the application reachable from the empty store by `addNode`
calls for a node whose id is not already present, is not yet named as parent
id by a node of the store and is not the parent id of the node itself, and by
deletions of a subtree. The parent id is not validated otherwise: it may name
no node of the store. -/
inductive ReachableByUnnamedAdd (th : Metrics) : App → Prop
  | init : ReachableByUnnamedAdd th NewMainApp
  | add {a : App} (data : NodeData) :
      ReachableByUnnamedAdd th a → ¬ Present a.nodes data.ID →
      (∀ m ∈ a.nodes, m.ParentID ≠ data.ID) → data.ParentID ≠ data.ID →
      ReachableByUnnamedAdd th (a.addNode th data)
  | delete {a b : App} (x : String) :
      ReachableByUnnamedAdd th a → a.requestNodeDeletion x = some b →
      ReachableByUnnamedAdd th b

/-- The state after the nodes A, with parent id "B", and B, with parent id
"A", were added to the empty store. -/
def cyclicApp : App :=
  (NewMainApp.addNode myTheme (node "A" "B")).addNode myTheme (node "B" "A")

/-- The state after a first question was sent in an empty project. -/
def afterFirstSend : App :=
  (NewMainApp.handleSend myTheme 1 .absent "q1" "p1" "n1" "120000").getD NewMainApp

/-- The state after the root A and its child B were added to the empty
store. -/
def appAB : App :=
  (NewMainApp.addNode myTheme (node "A" "")).addNode myTheme (node "B" "A")

/-- The lines of a text: the pieces between its line feeds; a text that ends
with a line feed, and the empty text, have an empty last line. -/
def textLines : List Char → List (List Char)
  | [] => [[]]
  | c :: cs =>
    if c = '\n' then [] :: textLines cs
    else
      match textLines cs with
      | [] => [[c]]
      | l :: ls => (c :: l) :: ls

/-- The lines joined by line feeds, on lists of characters. -/
def joinLines : List (List Char) → List Char
  | [] => []
  | [l] => l
  | l :: m :: rest => l ++ '\n' :: joinLines (m :: rest)

/-- A line that the scanner delivers unchanged and that `parseMarkdown` takes
as content: shorter than the scanner's limit, without carriage return, and not
beginning with one of the markers "# Question", "# Answer" and "---". -/
def PlainLine (l : List Char) : Prop :=
  byteLength l < MaxScanTokenSize ∧ '\r' ∉ l ∧
    strings.HasPrefix ⟨l⟩ "# Question" = false ∧
    strings.HasPrefix ⟨l⟩ "# Answer" = false ∧
    strings.HasPrefix ⟨l⟩ "---" = false

/-- A text all of whose lines are plain. -/
def PlainText (s : String) : Prop :=
  ∀ l ∈ textLines s.data, PlainLine l

/-- The canvas of the scenario "root A and its child B are placed". -/
def canvasParentChild : DialogCanvas :=
  addAll myTheme NewDialogCanvas [node "A" "", node "B" "A"]

/-- The reset state of the project: no node in the store nor on the canvas,
and an empty project id and name. -/
def ResetToEmpty (a : App) : Prop :=
  a.nodes = [] ∧ a.dialogCanvas.nodes = [] ∧ a.currentProjectID = "" ∧ a.currentProjectName = ""

/-- A structural index that lists the root A and its child B. -/
def indexOfAB : TreeData :=
  ⟨[node "A" "", node "B" "A"], "My project"⟩

/-- A reader of content documents that finds no document for the node A of
the project p1 and, for every other path, the document of the question "q" and
the answer "a". -/
def readWithoutA : String → Except String String :=
  fun path =>
    if path = "projects/p1/nodes/A.md" then
      .error "open projects/p1/nodes/A.md: no such file or directory"
    else .ok (mdContent "q" "a")

/-- A reader of content documents that finds, for every path, a document
holding the single line "hello" and no section marker. -/
def readHello : String → Except String String :=
  fun _ => .ok "hello"

/-- The nodes that the ancestor walk from the id `id` covers, oldest first:
`WalkChain nodes id chain` holds when `chain` lists the nodes met on the way
from `id` up the parent links, in reverse order of meeting. The walk ends, and
the chain is empty, at the empty id and at an id that names no node of the
store; otherwise the chain of the parent of the node named `id` is followed by
that node. -/
inductive WalkChain (nodes : List NodeData) : String → List NodeData → Prop
  | stop {id : String} : id = "" ∨ ¬ Present nodes id → WalkChain nodes id []
  | step {id : String} {n : NodeData} {chain : List NodeData} :
      id ≠ "" → n ∈ nodes → n.ID = id → WalkChain nodes n.ParentID chain →
      WalkChain nodes id (chain ++ [n])

/-- A store with a dangling parent pointer: B names the parent Z, which is not
in the store, and C is the child of B. -/
def talkDangling : List NodeData :=
  [{ node "B" "Z" with Question := "qb", Answer := "ab" },
   { node "C" "B" with Question := "qc", Answer := "ac" }]

/-- Counterpart of `strings.HasSuffix`. -/
def strings.HasSuffix (s suffix : String) : Bool :=
  suffix.data.isSuffixOf s.data

/-- The variables of the rune loop of `TruncateTextWithEllipsis`. -/
structure TruncateState where
  resultLines : List String
  lineCount : Int
  charCount : Int
  currentLine : String

/-- The statement of `TruncateTextWithEllipsis` that marks the last line:
`resultLines[lastIdx] += "..."` when there is a line and it does not already
end with "...". -/
def markLastLine (resultLines : List String) : List String :=
  if resultLines.length > 0 then
    let lastIdx := resultLines.length - 1
    if ¬ strings.HasSuffix (resultLines.getD lastIdx "") "..." then
      resultLines.set lastIdx (resultLines.getD lastIdx "" ++ "...")
    else resultLines
  else resultLines

/-- The rune loop of `TruncateTextWithEllipsis` together with the statement
after it: the value of `resultLines` when control reaches the label `endLoop`,
by one of the two `goto` or by the end of the runes. The tests `len(s) > 0` on
strings are written as `s ≠ ""`. -/
def truncateLoop (maxChars maxLines : Int) : List Char → TruncateState → List String
  | [], st =>
    if st.currentLine ≠ "" then st.resultLines ++ [st.currentLine] else st.resultLines
  | r :: rest, st =>
    if maxChars > 0 ∧ st.charCount ≥ maxChars - 3 then
      if st.currentLine ≠ "" ∨ (st.resultLines.length : Int) < maxLines then
        let currentLine := st.currentLine ++ "..."
        if currentLine ≠ "" then st.resultLines ++ [currentLine] else st.resultLines
      else st.resultLines
    else if r = '\n' then
      let resultLines := st.resultLines ++ [st.currentLine]
      let lineCount := st.lineCount + 1
      if maxLines > 0 ∧ lineCount ≥ maxLines then markLastLine resultLines
      else truncateLoop maxChars maxLines rest ⟨resultLines, lineCount, st.charCount, ""⟩
    else
      truncateLoop maxChars maxLines rest
        { st with
          currentLine := st.currentLine ++ String.singleton r,
          charCount := st.charCount + 1 }

/-- The part of `TruncateTextWithEllipsis` after the label `endLoop`, up to the
final join; `none` when the slice expression `runesLastLine[:maxChars-3]`
panics, its bound being negative. -/
def truncateFinish (maxChars maxLines : Int) (resultLines : List String) :
    Option (List String) :=
  if maxLines > 0 ∧ (resultLines.length : Int) > maxLines then
    let resultLines := resultLines.take maxLines.toNat
    if resultLines.length > 0 then
      let lastIdx := resultLines.length - 1
      let last := resultLines.getD lastIdx ""
      if ¬ strings.HasSuffix last "..." then
        if (last.length : Int) ≤ maxChars - 3 ∨ maxChars = 0 then
          some (resultLines.set lastIdx (last ++ "..."))
        else if maxChars > 0 then
          if (last.length : Int) > maxChars - 3 then
            if maxChars - 3 < 0 then none
            else
              some (resultLines.set lastIdx
                (⟨last.data.take (maxChars - 3).toNat⟩ ++ "..."))
          else some resultLines
        else some resultLines
      else some resultLines
    else some resultLines
  else some resultLines

/-- Counterpart of `utils.TruncateTextWithEllipsis`; `none` when the call
panics. -/
def TruncateTextWithEllipsis (s : String) (maxChars maxLines : Int) : Option String :=
  (truncateFinish maxChars maxLines (truncateLoop maxChars maxLines s.data ⟨[], 0, 0, ""⟩)).map
    (fun resultLines => strings.Join resultLines "\n")

/-- The number of runes of a list of lines, line feeds between them not
counted. -/
def totalRunes (lines : List String) : Nat :=
  (lines.map String.length).sum

/-- A canvas with arbitrary parent links: A and B name each other as parent,
C names the absent parent Z, and D is the child of C. -/
def canvasTangled : DialogCanvas :=
  ⟨[node "A" "B", node "B" "A", node "C" "Z", node "D" "C"], ""⟩

/-- A text without leading or trailing white space: its first and its last
rune, if any, are not spaces in the sense of `unicode.IsSpace`. -/
def NoOuterSpace (s : String) : Prop :=
  (∀ c, s.data.head? = some c → unicode.IsSpace c = false) ∧
    (∀ c, s.data.getLast? = some c → unicode.IsSpace c = false)

/-- A structural index whose only node S names itself as parent. -/
def indexOfSelfParent : TreeData :=
  ⟨[node "S" "S"], "My project"⟩

/-- The overlap test of the loop of `AddNode` as it is evaluated, with the
sums rounded to `float32`, between the candidate at `p` of size `s` and an
existing node at `q` of size `t`. -/
def OverlapTest (p : fyne.Position) (s : fyne.Size) (q : fyne.Position) (t : fyne.Size) : Prop :=
  (p.X < float32 (q.X + t.Width) ∧ float32 (p.X + s.Width) > q.X) ∧
    (p.Y < float32 (q.Y + t.Height) ∧ float32 (p.Y + s.Height) > q.Y)

/-- The canvas on which the root A, placed at (50, 200), was dragged to the
right by one pixel at the zoom factor 1.1, the value of `zoomFactor` after one
step of the wheel: the delta of `Dragged` is `DX/zoomFactor`, in `float32`. -/
def canvasZoomDragA : DialogCanvas :=
  (addAll myTheme NewDialogCanvas [node "A" ""]).Dragged 0 ⟨float32 (1 / float32 (11 / 10)), 0⟩

/-- The canvas on which the root A, placed at (50, 200), was dragged to the
right by 2^30. -/
def canvasFarA : DialogCanvas :=
  (addAll myTheme NewDialogCanvas [node "A" ""]).Dragged 0 ⟨1073741824, 0⟩

/-- A reader of content documents that finds, for the node A of the project
p1, a document holding one line of 65536 letters x and, for every other path,
the document of the question "q" and the answer "a". -/
def readLongLineA : String → Except String String :=
  fun path =>
    if path = "projects/p1/nodes/A.md" then .ok ⟨List.replicate 65536 'x'⟩
    else .ok (mdContent "q" "a")

/-- The state after the root n1 was added to the empty store and deleted,
and the node n2, whose parent id "n1" names no node, was added. -/
def appDangling : App :=
  (((NewMainApp.addNode myTheme (node "n1" "")).requestNodeDeletion "n1").getD
    NewMainApp).addNode myTheme (node "n2" "n1")

theorem unvisited_cons (u : String) (U v : List String) :
    unvisited (u :: U) v = (if u ∈ v then 0 else 1) + unvisited U v := by
  unfold unvisited
  by_cases h : u ∈ v
  · simp [List.filter_cons, h]
  · simp [List.filter_cons, h, Nat.add_comm]

theorem unvisited_mono (U : List String) {v w : List String} (h : v ⊆ w) :
    unvisited U w ≤ unvisited U v := by
  induction U with
  | nil => simp [unvisited]
  | cons u U ih =>
    rw [unvisited_cons, unvisited_cons]
    by_cases hv : u ∈ v
    · have hw : u ∈ w := h hv
      simpa [hv, hw] using ih
    · by_cases hw : u ∈ w
      · simp only [hv, hw, if_true, if_false]; omega
      · simpa [hv, hw] using ih

theorem unvisited_lt (U : List String) {v : List String} {c : String} (hc : c ∈ U)
    (hv : c ∉ v) : unvisited U (c :: v) < unvisited U v := by
  induction U with
  | nil => simp at hc
  | cons u U ih =>
    have hmono : unvisited U (c :: v) ≤ unvisited U v :=
      unvisited_mono U (List.subset_cons_self c v)
    rw [unvisited_cons, unvisited_cons]
    by_cases huc : u = c
    · subst huc
      simp only [List.mem_cons, true_or, if_true, hv, if_false]
      omega
    · have hc' : c ∈ U := by
        rcases List.mem_cons.1 hc with h | h
        · exact absurd h.symm huc
        · exact h
      have := ih hc'
      by_cases huv : u ∈ v
      · simp only [List.mem_cons, huc, huv, or_true, if_true]; omega
      · simp only [List.mem_cons, huc, huv, or_self, if_false]; omega

theorem foldlM_option_cons {α β : Type} (f : β → α → Option β) (a : α) (l : List α) (b : β) :
    (a :: l).foldlM f b = (f b a).bind (fun b1 => l.foldlM f b1) := by
  simp [List.foldlM_cons]

theorem collect_spec (nodes : List NodeData) (U : List String)
    (hU : ∀ n ∈ nodes, n.ID ∈ U) :
    ∀ (fuel : Nat) (v : List String) (cur : String), cur ∈ U → unvisited U v < fuel →
      ∃ w, collectDescendants nodes fuel v cur = some w ∧ CollectPost nodes v cur w := by
  intro fuel
  induction fuel with
  | zero => intro v cur _ h; omega
  | succ fuel ih =>
    intro v cur hcur hfuel
    by_cases hmem : cur ∈ v
    · refine ⟨v, by simp [collectDescendants, hmem], ?_⟩
      exact ⟨fun _ h => h, hmem, fun y hy => Or.inl hy, fun S h => h⟩
    · have hlt : unvisited U (cur :: v) < unvisited U v := unvisited_lt U hcur hmem
      -- the loop over the widgets
      have loop : ∀ (l : List NodeData), (∀ n ∈ l, n ∈ nodes) → ∀ (w : List String),
          cur :: v ⊆ w →
          ∃ w1, l.foldlM
              (fun visited nWidget =>
                if nWidget.ParentID = cur then collectDescendants nodes fuel visited nWidget.ID
                else some visited) w = some w1 ∧
            w ⊆ w1 ∧
            (∀ y ∈ w1, y ∈ w ∨ ∃ n ∈ l, n.ParentID = cur ∧ DescendantOrSelf nodes n.ID y) ∧
            (∀ S : List String, ClosedExcept nodes w S → ClosedExcept nodes w1 S) ∧
            (∀ n ∈ l, n.ParentID = cur → n.ID ∈ w1) := by
        intro l
        induction l with
        | nil =>
          intro _ w _
          exact ⟨w, rfl, fun _ h => h, fun y hy => Or.inl hy, fun S h => h, by simp⟩
        | cons n l ihl =>
          intro hl w hw
          have hn : n ∈ nodes := hl n (List.mem_cons_self _ _)
          have hl1 : ∀ m ∈ l, m ∈ nodes := fun m hm => hl m (List.mem_cons_of_mem _ hm)
          rw [foldlM_option_cons]
          by_cases hp : n.ParentID = cur
          · have hfw : unvisited U w < fuel := by
              have := unvisited_mono U hw
              omega
            obtain ⟨w0, hw0, post⟩ := ih w n.ID (hU n hn) hfw
            obtain ⟨w1, hw1, hsub, hsound, hclosed, hchild⟩ :=
              ihl hl1 w0 (fun x hx => post.sub (hw hx))
            refine ⟨w1, by simp [hp, hw0, hw1], fun x hx => hsub (post.sub hx), ?_, ?_, ?_⟩
            · intro y hy
              rcases hsound y hy with h | ⟨m, hm, hmp, hmd⟩
              · rcases post.sound y h with h1 | h1
                · exact Or.inl h1
                · exact Or.inr ⟨n, List.mem_cons_self _ _, hp, h1⟩
              · exact Or.inr ⟨m, List.mem_cons_of_mem _ hm, hmp, hmd⟩
            · intro S hS
              exact hclosed S (post.closed S hS)
            · intro m hm hmp
              rcases List.mem_cons.1 hm with h | h
              · subst h; exact hsub post.mem
              · exact hchild m h hmp
          · obtain ⟨w1, hw1, hsub, hsound, hclosed, hchild⟩ := ihl hl1 w hw
            refine ⟨w1, by simp [hp, hw1], hsub, ?_, hclosed, ?_⟩
            · intro y hy
              rcases hsound y hy with h | ⟨m, hm, hmp, hmd⟩
              · exact Or.inl h
              · exact Or.inr ⟨m, List.mem_cons_of_mem _ hm, hmp, hmd⟩
            · intro m hm hmp
              rcases List.mem_cons.1 hm with h | h
              · subst h; exact absurd hmp hp
              · exact hchild m h hmp
      obtain ⟨w1, hw1, hsub, hsound, hclosed, hchild⟩ :=
        loop nodes (fun _ h => h) (cur :: v) (fun _ h => h)
      refine ⟨w1, by simp [collectDescendants, hmem, hw1], ?_⟩
      refine ⟨fun x hx => hsub (List.mem_cons_of_mem _ hx), hsub (List.mem_cons_self _ _), ?_, ?_⟩
      · intro y hy
        rcases hsound y hy with h | ⟨m, hm, hmp, hmd⟩
        · rcases List.mem_cons.1 h with h1 | h1
          · subst h1; exact Or.inr Relation.ReflTransGen.refl
          · exact Or.inl h1
        · exact Or.inr (Relation.ReflTransGen.tail hmd ⟨m, hm, rfl, hmp⟩)
      · intro S hS
        have h1 : ClosedExcept nodes (cur :: v) (cur :: S) := by
          intro p hp hpS n hn hnp
          rcases List.mem_cons.1 hp with h | h
          · subst h; exact absurd (List.mem_cons_self _ _) hpS
          · exact List.mem_cons_of_mem _
              (hS p h (fun hps => hpS (List.mem_cons_of_mem _ hps)) n hn hnp)
        have h2 := hclosed (cur :: S) h1
        intro p hp hpS n hn hnp
        by_cases hpc : p = cur
        · subst hpc; exact hchild n hn hnp
        · exact h2 p hp (by simpa [hpc] using hpS) n hn hnp

theorem collect_top (nodes : List NodeData) (x : String) :
    ∃ w, collectDescendants nodes (nodes.length + 2) [] x = some w ∧
      ∀ y, y ∈ w ↔ DescendantOrSelf nodes x y := by
  have hU : ∀ n ∈ nodes, n.ID ∈ x :: nodes.map (fun n => n.ID) := fun n hn =>
    List.mem_cons_of_mem _ (List.mem_map_of_mem _ hn)
  have hlen : unvisited (x :: nodes.map (fun n => n.ID)) [] < nodes.length + 2 := by
    have := List.length_filter_le (fun u => decide (u ∉ ([] : List String)))
      (x :: nodes.map (fun n => n.ID))
    simp only [List.length_cons, List.length_map] at this
    unfold unvisited
    omega
  obtain ⟨w, hw, post⟩ := collect_spec nodes _ hU (nodes.length + 2) [] x
    (List.mem_cons_self _ _) hlen
  refine ⟨w, hw, fun y => ⟨fun hy => ?_, fun hy => ?_⟩⟩
  · rcases post.sound y hy with h | h
    · simp at h
    · exact h
  · have hclosed : ClosedExcept nodes w [] := post.closed [] (by intro p hp; simp at hp)
    induction hy using Relation.ReflTransGen.head_induction_on with
    | refl => exact post.mem
    | head hstep _ ih =>
      obtain ⟨n, hn, hid, hpar⟩ := hstep
      have := hclosed _ ih (by simp) n hn hpar
      rwa [hid] at this

theorem removeLoop_eq (del : List String) (nodes : List NodeData) :
    removeLoop del nodes =
      (nodes.filter (fun n => decide (n.ID ∉ del)),
        (nodes.filter (fun n => decide (n.ID ∈ del))).map (fun n => n.ID)) := by
  have gen : ∀ (l : List NodeData) (acc : List NodeData × List String),
      l.foldl
        (fun acc nw =>
          if ¬ nw.ID ∈ del then (acc.1 ++ [nw], acc.2)
          else (acc.1, acc.2 ++ [nw.ID])) acc =
      (acc.1 ++ l.filter (fun n => decide (n.ID ∉ del)),
        acc.2 ++ (l.filter (fun n => decide (n.ID ∈ del))).map (fun n => n.ID)) := by
    intro l
    induction l with
    | nil => intro acc; simp
    | cons n l ih =>
      intro acc
      rw [List.foldl_cons, ih]
      by_cases h : n.ID ∈ del
      · simp [h, List.filter_cons]
      · simp [h, List.filter_cons]
  simpa [removeLoop] using gen nodes ([], [])

theorem remove_spec (dc : DialogCanvas) (x : String) :
    ∃ w : List String, (∀ y, y ∈ w ↔ DescendantOrSelf dc.nodes x y) ∧
      dc.RemoveNodeAndDescendants x =
        some ((dc.nodes.filter (fun n => decide (n.ID ∈ w))).map (fun n => n.ID),
          { dc with nodes := dc.nodes.filter (fun n => decide (n.ID ∉ w)) }) := by
  obtain ⟨w, hw, hspec⟩ := collect_top dc.nodes x
  refine ⟨w, hspec, ?_⟩
  have hx : x ∈ w := (hspec x).2 Relation.ReflTransGen.refl
  have hne : w.length ≠ 0 := by
    intro h
    rw [List.length_eq_zero] at h
    rw [h] at hx
    simp at hx
  simp [DialogCanvas.RemoveNodeAndDescendants, hw, hne, removeLoop_eq]

theorem acyclic_of_rank {nodes : List NodeData} (rank : String → Nat)
    (h : ∀ c p, PresentParentLink nodes c p → rank p < rank c) : Acyclic nodes := by
  have key : ∀ c p, Relation.TransGen (PresentParentLink nodes) c p → rank p < rank c := by
    intro c p hcp
    induction hcp with
    | single hs => exact h _ _ hs
    | tail _ hs ih => exact lt_trans (h _ _ hs) ih
  intro x hx
  exact lt_irrefl _ (key x x hx)

theorem validForest_canvasABC : ValidForest canvasABC.nodes := by
  refine ⟨by unfold UniqueIDs; decide, ?_, ?_⟩
  · intro n hn hp
    simp only [canvasABC, List.mem_cons, List.mem_singleton, List.not_mem_nil, or_false] at hn
    rcases hn with rfl | rfl | rfl
    · exact absurd rfl hp
    · exact ⟨node "A" "", by simp [canvasABC], rfl⟩
    · exact ⟨node "A" "", by simp [canvasABC], rfl⟩
  · apply acyclic_of_rank (fun s => if s = "A" then 0 else 1)
    rintro c p ⟨hp, ⟨n, hn, rfl, rfl⟩, _⟩
    simp only [canvasABC, List.mem_cons, List.mem_singleton, List.not_mem_nil, or_false] at hn
    rcases hn with rfl | rfl | rfl
    · exact absurd rfl hp
    · decide
    · decide

/-- C1: on a valid forest, `RemoveNodeAndDescendants x` for a present id `x`
returns ids that are exactly `x` and its transitive descendants, each once, and
leaves on the canvas exactly the other nodes, in their order. -/
theorem C1_remove_exactly_subtree (dc : DialogCanvas) (x : String)
    (hforest : ValidForest dc.nodes) (hx : Present dc.nodes x) :
    ∃ removed dc1, dc.RemoveNodeAndDescendants x = some (removed, dc1) ∧
      (∀ y, y ∈ removed ↔ DescendantOrSelf dc.nodes x y) ∧
      removed.Nodup ∧
      (∀ n, n ∈ dc1.nodes ↔ n ∈ dc.nodes ∧ ¬ DescendantOrSelf dc.nodes x n.ID) ∧
      dc1.nodes = dc.nodes.filter (fun n => decide (n.ID ∉ removed)) := by
  obtain ⟨w, hw, heq⟩ := remove_spec dc x
  have hmem : ∀ y, y ∈ (dc.nodes.filter (fun n => decide (n.ID ∈ w))).map (fun n => n.ID) ↔
      DescendantOrSelf dc.nodes x y := by
    intro y
    constructor
    · intro hy
      obtain ⟨n, hn, rfl⟩ := List.mem_map.1 hy
      have := (List.mem_filter.1 hn).2
      exact (hw _).1 (by simpa using this)
    · intro hy
      have hpres : Present dc.nodes y := by
        rcases Relation.ReflTransGen.cases_head hy with h | ⟨c, ⟨n, hn, hid, _⟩, _⟩
        · rw [h]; exact hx
        · exact ⟨n, hn, hid⟩
      obtain ⟨n, hn, rfl⟩ := hpres
      exact List.mem_map.2 ⟨n, List.mem_filter.2 ⟨hn, by simpa using (hw _).2 hy⟩, rfl⟩
  refine ⟨_, _, heq, hmem, ?_, ?_, ?_⟩
  · exact List.Nodup.sublist (List.Sublist.map _ (List.filter_sublist _)) hforest.1
  · intro n
    simp only [List.mem_filter, decide_eq_true_eq, hw]
  · apply List.filter_congr
    intro n hn
    have : n.ID ∈ (dc.nodes.filter (fun n => decide (n.ID ∈ w))).map (fun n => n.ID) ↔ n.ID ∈ w := by
      rw [hmem, hw]
    simp [this]

/-- C1, the scenario: removing the root A of the forest A, B (child of A), C
(child of A) returns A, B, C and leaves the canvas empty. -/
theorem C1_remove_exactly_subtree_witness :
    ValidForest canvasABC.nodes ∧ Present canvasABC.nodes "A" ∧
      canvasABC.RemoveNodeAndDescendants "A" = some (["A", "B", "C"], ⟨[], ""⟩) ∧
      ∃ removed dc1, canvasABC.RemoveNodeAndDescendants "A" = some (removed, dc1) ∧
        (∀ y, y ∈ removed ↔ DescendantOrSelf canvasABC.nodes "A" y) ∧
        removed.Nodup ∧
        (∀ n, n ∈ dc1.nodes ↔ n ∈ canvasABC.nodes ∧ ¬ DescendantOrSelf canvasABC.nodes "A" n.ID) ∧
        dc1.nodes = canvasABC.nodes.filter (fun n => decide (n.ID ∉ removed)) :=
  ⟨validForest_canvasABC, ⟨node "A" "", by simp [canvasABC], rfl⟩, by decide,
    C1_remove_exactly_subtree canvasABC "A" validForest_canvasABC
      ⟨node "A" "", by simp [canvasABC], rfl⟩⟩

/-! ## Repair of the application data after a deletion -/

theorem updateLoop_eq (deletedIDs : List String) (nodes : List NodeData) :
    nodes.foldl
        (fun newNodesData n =>
          if ¬ n.ID ∈ deletedIDs then newNodesData ++ [clearDeletedParent deletedIDs n]
          else newNodesData)
        [] =
      (nodes.filter (fun n => decide (n.ID ∉ deletedIDs))).map (clearDeletedParent deletedIDs) := by
  have gen : ∀ (l acc : List NodeData),
      l.foldl
        (fun newNodesData n =>
          if ¬ n.ID ∈ deletedIDs then newNodesData ++ [clearDeletedParent deletedIDs n]
          else newNodesData)
        acc =
      acc ++ (l.filter (fun n => decide (n.ID ∉ deletedIDs))).map
        (clearDeletedParent deletedIDs) := by
    intro l
    induction l with
    | nil => intro acc; simp
    | cons n l ih =>
      intro acc
      rw [List.foldl_cons, ih]
      by_cases h : n.ID ∈ deletedIDs
      · simp [h, List.filter_cons]
      · simp [h, List.filter_cons]
  simpa using gen nodes []

theorem clearDeletedParent_eq (deletedIDs : List String) (n : NodeData) :
    clearDeletedParent deletedIDs n =
      if n.ParentID ∈ deletedIDs then { n with ParentID := "" } else n := by
  unfold clearDeletedParent
  by_cases h : n.ParentID ∈ deletedIDs
  · by_cases h0 : n.ParentID = ""
    · have : ({ n with ParentID := "" } : NodeData) = n := by
        cases n
        simp only [NodeData.mk.injEq, true_and, and_true] at h0 ⊢
        simp_all
      simp [h, h0, this]
    · simp [h, h0]
  · simp [h]

theorem clearDeletedParent_nil (n : NodeData) : clearDeletedParent [] n = n := by
  simp [clearDeletedParent]

theorem updateAppDataAfterDeletion_nil (nodes : List NodeData) :
    updateAppDataAfterDeletion nodes [] = nodes := by
  simp [updateAppDataAfterDeletion]

/-- C7: `updateAppDataAfterDeletion` keeps exactly the nodes whose id is not
among the removed ids, in their order; a kept node is never dropped because of
its parent: its parent id becomes empty when it names a removed id, and the
node is otherwise unchanged. In the scenario A, B (child of A), C (child of
B), the removal of the subtree of B leaves A alone, with an empty parent id. -/
theorem C7_update_keeps_and_repairs (nodes : List NodeData) (deletedIDs : List String) :
    updateAppDataAfterDeletion nodes deletedIDs =
        (nodes.filter (fun n => decide (n.ID ∉ deletedIDs))).map
          (fun n => if n.ParentID ∈ deletedIDs then { n with ParentID := "" } else n) ∧
      (updateAppDataAfterDeletion nodes deletedIDs).map (fun n => n.ID) =
        (nodes.map (fun n => n.ID)).filter (fun i => decide (i ∉ deletedIDs)) ∧
      updateAppDataAfterDeletion chainABC ["B", "C"] = [node "A" ""] := by
  have h1 : updateAppDataAfterDeletion nodes deletedIDs =
      (nodes.filter (fun n => decide (n.ID ∉ deletedIDs))).map
        (fun n => if n.ParentID ∈ deletedIDs then { n with ParentID := "" } else n) := by
    unfold updateAppDataAfterDeletion
    by_cases h : deletedIDs.length = 0
    · have hnil : deletedIDs = [] := List.length_eq_zero.1 h
      subst hnil
      simp
    · rw [if_neg h, updateLoop_eq]
      apply List.map_congr_left
      intro n _
      exact clearDeletedParent_eq deletedIDs n
  refine ⟨h1, ?_, by decide⟩
  rw [h1, List.map_map, List.filter_map]
  apply congrArg₂ _ _ rfl
  · funext n
    by_cases h : n.ParentID ∈ deletedIDs <;> simp [h]

/-! ## Deleting an id that is not present -/

theorem descendantOrSelf_of_no_child {nodes : List NodeData} {x : String}
    (hno : ∀ n ∈ nodes, n.ParentID ≠ x) (y : String) :
    DescendantOrSelf nodes x y ↔ y = x := by
  constructor
  · intro h
    rcases Relation.ReflTransGen.cases_tail h with h1 | ⟨c, _, ⟨n, hn, _, hp⟩⟩
    · exact h1.symm
    · exact absurd hp (hno n hn)
  · rintro rfl
    exact Relation.ReflTransGen.refl

/-- C6 (as amended): when `x` is not the id of a present node and no present
node names `x` as its parent, deleting `x` returns an empty list of removed
ids and changes nothing, neither on the canvas nor in the application. -/
theorem C6_delete_absent_changes_nothing (a : App) (x : String)
    (habsent : ¬ Present a.dialogCanvas.nodes x)
    (hnochild : ∀ n ∈ a.dialogCanvas.nodes, n.ParentID ≠ x) :
    a.dialogCanvas.RemoveNodeAndDescendants x = some ([], a.dialogCanvas) ∧
      a.requestNodeDeletion x = some a := by
  obtain ⟨w, hw, heq⟩ := remove_spec a.dialogCanvas x
  have hnone : ∀ n ∈ a.dialogCanvas.nodes, n.ID ∉ w := by
    intro n hn hmem
    have := (descendantOrSelf_of_no_child hnochild n.ID).1 ((hw _).1 hmem)
    exact habsent ⟨n, hn, this⟩
  have hf1 : a.dialogCanvas.nodes.filter (fun n => decide (n.ID ∈ w)) = [] := by
    rw [List.filter_eq_nil_iff]
    intro n hn
    simpa using hnone n hn
  have hf2 : a.dialogCanvas.nodes.filter (fun n => decide (n.ID ∉ w)) = a.dialogCanvas.nodes := by
    rw [List.filter_eq_self]
    intro n hn
    simpa using hnone n hn
  rw [hf1, hf2] at heq
  have heq1 : a.dialogCanvas.RemoveNodeAndDescendants x = some ([], a.dialogCanvas) := by
    simpa using heq
  refine ⟨heq1, ?_⟩
  unfold App.requestNodeDeletion
  rw [heq1]
  have hmap : List.map (clearDeletedParent []) a.dialogCanvas.nodes = a.dialogCanvas.nodes := by
    rw [List.map_congr_left (fun n _ => clearDeletedParent_nil n), List.map_id']
  simp only [updateAppDataAfterDeletion_nil, hmap]

/-- C6, an instance: on the forest A, B, C the id "Z" is absent and nobody's
parent, and deleting it changes nothing. -/
theorem C6_delete_absent_changes_nothing_witness :
    ¬ Present (appWith canvasABC.nodes).dialogCanvas.nodes "Z" ∧
      (appWith canvasABC.nodes).dialogCanvas.RemoveNodeAndDescendants "Z" =
        some ([], (appWith canvasABC.nodes).dialogCanvas) ∧
      (appWith canvasABC.nodes).requestNodeDeletion "Z" = some (appWith canvasABC.nodes) :=
  ⟨by unfold Present; decide,
    C6_delete_absent_changes_nothing (appWith canvasABC.nodes) "Z"
      (by unfold Present; decide) (by decide)⟩

/-- C6, the claim as stated fails: "Z" is not the id of a present node, yet
deleting it removes the node B that names "Z" as its parent. -/
theorem C6_counterexample :
    ¬ Present (appWith [node "B" "Z"]).dialogCanvas.nodes "Z" ∧
      (appWith [node "B" "Z"]).dialogCanvas.RemoveNodeAndDescendants "Z" =
        some (["B"], ⟨[], ""⟩) ∧
      (appWith [node "B" "Z"]).requestNodeDeletion "Z" = some (appWith []) :=
  ⟨by unfold Present; decide, by decide, by decide⟩

/-! ## The conversation history -/

theorem nodeDataMap_append (l : List NodeData) (n : NodeData) (k : String) :
    nodeDataMap (l ++ [n]) k = if k = n.ID then some n else nodeDataMap l k := by
  simp [nodeDataMap, List.foldl_append]

theorem nodeDataMap_nil (k : String) : nodeDataMap [] k = none := rfl

theorem nodeDataMap_of_mem {nodes : List NodeData} (huniq : UniqueIDs nodes) {n : NodeData}
    (hn : n ∈ nodes) : nodeDataMap nodes n.ID = some n := by
  induction nodes using List.reverseRecOn with
  | nil => simp at hn
  | append_singleton l x ih =>
    rw [nodeDataMap_append]
    have hnodup : (l.map (fun n => n.ID) ++ [x.ID]).Nodup := by
      simpa [UniqueIDs] using huniq
    rcases List.mem_append.1 hn with h | h
    · have hne : n.ID ≠ x.ID := by
        intro heq
        have h1 : n.ID ∈ l.map (fun n => n.ID) := List.mem_map_of_mem _ h
        have := (List.nodup_append.1 hnodup).2.2 h1 (by simp [heq])
        exact this
      rw [if_neg hne]
      exact ih (List.Nodup.sublist (by simp) hnodup) h
    · have : n = x := by simpa using h
      subst this
      simp

theorem concatAll_append (l1 l2 : List String) :
    concatAll (l1 ++ l2) = concatAll l1 ++ concatAll l2 := by
  induction l1 with
  | nil => simp [concatAll]
  | cons a l ih => simp [concatAll, ih, String.append_assoc]

theorem join_snoc (l : List String) (z sep : String) :
    strings.Join (l ++ [z]) sep = concatAll (l.map (fun s => s ++ sep)) ++ z := by
  induction l with
  | nil => simp [strings.Join, concatAll]
  | cons a l ih =>
    cases l with
    | nil => simp [strings.Join, concatAll]
    | cons b l =>
      have : strings.Join (a :: b :: l ++ [z]) sep =
          a ++ sep ++ strings.Join (b :: l ++ [z]) sep := by
        simp [strings.Join]
      rw [this, ih]
      simp [concatAll, String.append_assoc]

theorem writeUpperParts_append (l1 l2 : List String) :
    writeUpperParts (l1 ++ l2) = writeUpperParts l2 ++ writeUpperParts l1 := by
  induction l1 with
  | nil => simp [writeUpperParts]
  | cons a l ih => simp [writeUpperParts, ih, String.append_assoc]

theorem writeUpperParts_chain (c : List NodeData) :
    writeUpperParts (c.reverse.flatMap historyPartsOf) =
      concatAll (c.map (fun x => exchangeText x ++ "\n")) := by
  induction c using List.reverseRecOn with
  | nil => simp [writeUpperParts, concatAll]
  | append_singleton c x ih =>
    rw [List.reverse_append, List.flatMap_append, writeUpperParts_append, ih, List.map_append,
      concatAll_append]
    simp [historyPartsOf, writeUpperParts, concatAll, exchangeText, String.append_assoc]

theorem buildHistory_chain (c : List NodeData) (n : NodeData) :
    buildHistory ((c ++ [n]).reverse.flatMap historyPartsOf) = renderExchanges (c ++ [n]) := by
  rw [renderExchanges, List.map_append, List.map_singleton, join_snoc, List.map_map,
    List.reverse_append, List.flatMap_append]
  simp only [List.reverse_singleton, List.flatMap_cons, List.flatMap_nil, List.append_nil,
    historyPartsOf, List.cons_append, List.nil_append, buildHistory, writeUpperParts]
  have := writeUpperParts_chain c
  simp only [historyPartsOf] at this
  rw [this]
  simp [exchangeText, String.append_assoc, Function.comp_def]

theorem ancestorChain_props {nodes : List NodeData} {n : NodeData} {d : Nat}
    {chain : List NodeData} (h : AncestorChain nodes n d chain) :
    chain.length = d + 1 ∧ chain.getLast? = some n ∧
      (∃ r, chain.head? = some r ∧ r.ParentID = "") ∧
      List.Chain' (fun a b => b.ParentID = a.ID ∧ b.ParentID ≠ "") chain ∧
      ∀ x ∈ chain, x ∈ nodes := by
  induction h with
  | root hn hp =>
    exact ⟨rfl, rfl, ⟨_, rfl, hp⟩, List.chain'_singleton _, by simpa using hn⟩
  | @child n p d chain hn hp hid hc ih =>
    obtain ⟨hlen, hlast, ⟨r, hr, hrp⟩, hch, hmem⟩ := ih
    refine ⟨by simp [hlen], by simp, ?_, ?_, ?_⟩
    · refine ⟨r, ?_, hrp⟩
      cases chain with
      | nil => simp at hlen
      | cons a t => simpa using hr
    · rw [List.chain'_append]
      refine ⟨hch, List.chain'_singleton _, ?_⟩
      intro x hx y hy
      have hxp : x = p := by
        rw [hlast] at hx
        simpa using hx.symm
      have hyn : y = n := by simpa using hy.symm
      subst hxp hyn
      exact ⟨hid.symm, hp⟩
    · intro x hx
      rcases List.mem_append.1 hx with h | h
      · exact hmem x h
      · have : x = n := by simpa using h
        subst this
        exact hn

theorem historyLoop_chain {nodes : List NodeData} (huniq : UniqueIDs nodes) {n : NodeData}
    {d : Nat} {chain : List NodeData} (h : AncestorChain nodes n d chain) :
    n.ID ≠ "" → ∀ (fuel : Nat) (parts : List String), d + 2 ≤ fuel →
      historyLoop (nodeDataMap nodes) fuel n.ID parts =
        some (parts ++ chain.reverse.flatMap historyPartsOf) := by
  induction h with
  | @root n hn hp =>
    intro hid fuel parts hfuel
    obtain ⟨f, rfl⟩ : ∃ f, fuel = f + 2 := ⟨fuel - 2, by omega⟩
    rw [historyLoop]
    simp only [ne_eq, hid, not_false_eq_true, if_true, nodeDataMap_of_mem huniq hn, hp]
    rw [historyLoop]
    simp [historyPartsOf]
  | @child n p d chain hn hp hpid hc ih =>
    intro hid fuel parts hfuel
    obtain ⟨f, rfl⟩ : ∃ f, fuel = f + 1 := ⟨fuel - 1, by omega⟩
    rw [historyLoop]
    simp only [ne_eq, hid, not_false_eq_true, if_true, nodeDataMap_of_mem huniq hn]
    have hpne : p.ID ≠ "" := by rw [hpid]; exact hp
    rw [← hpid, ih hpne f _ (by omega)]
    simp [historyPartsOf]

theorem transGen_of_chain {α : Type} {R : α → α → Prop} :
    ∀ (t : List α) (a b : α), List.Chain R a t → b ∈ t → Relation.TransGen R a b := by
  intro t
  induction t with
  | nil => intro a b _ hb; simp at hb
  | cons c t ih =>
    intro a b hch hb
    rw [List.chain_cons] at hch
    rcases List.mem_cons.1 hb with h | h
    · subst h; exact Relation.TransGen.single hch.1
    · exact Relation.TransGen.head hch.1 (ih c b hch.2 h)

theorem cycle_of_chain_not_nodup {α : Type} {R : α → α → Prop} :
    ∀ (l : List α), List.Chain' R l → ¬ l.Nodup → ∃ x, Relation.TransGen R x x := by
  intro l
  induction l with
  | nil => intro _ h; exact absurd List.nodup_nil h
  | cons a t ih =>
    intro hch hnd
    by_cases ha : a ∈ t
    · exact ⟨a, transGen_of_chain t a a hch ha⟩
    · have : ¬ t.Nodup := fun h => hnd (List.nodup_cons.2 ⟨ha, h⟩)
      exact ih (List.Chain'.tail hch) this

theorem chain_or_path {nodes : List NodeData} (hpar : ParentsPresent nodes) :
    ∀ (k : Nat) (n : NodeData), n ∈ nodes →
      (∃ d chain, AncestorChain nodes n d chain) ∨
      (∃ path : List String, path.length = k ∧
        List.Chain (PresentParentLink nodes) n.ID path ∧ ∀ s ∈ path, Present nodes s) := by
  intro k
  induction k with
  | zero =>
    intro n _
    exact Or.inr ⟨[], rfl, List.Chain.nil, by simp⟩
  | succ k ih =>
    intro n hn
    by_cases hp : n.ParentID = ""
    · exact Or.inl ⟨0, [n], AncestorChain.root hn hp⟩
    · obtain ⟨p, hpn, hpid⟩ := hpar n hn hp
      rcases ih p hpn with ⟨d, chain, hc⟩ | ⟨path, hlen, hch, hpres⟩
      · exact Or.inl ⟨d + 1, chain ++ [n], AncestorChain.child hn hp hpid hc⟩
      · refine Or.inr ⟨p.ID :: path, by simp [hlen], ?_, ?_⟩
        · refine List.Chain.cons ⟨?_, ⟨n, hn, rfl, hpid.symm⟩, ⟨p, hpn, rfl⟩⟩ hch
          rw [hpid]; exact hp
        · intro s hs
          rcases List.mem_cons.1 hs with h | h
          · subst h; exact ⟨p, hpn, rfl⟩
          · exact hpres s h

theorem exists_ancestorChain {nodes : List NodeData} (hforest : ValidForest nodes)
    {n : NodeData} (hn : n ∈ nodes) : ∃ d chain, AncestorChain nodes n d chain := by
  rcases chain_or_path hforest.2.1 (nodes.length + 1) n hn with h | ⟨path, hlen, hch, hpres⟩
  · exact h
  · exfalso
    have hsub : path ⊆ nodes.map (fun n => n.ID) := by
      intro s hs
      obtain ⟨m, hm, rfl⟩ := hpres s hs
      exact List.mem_map_of_mem _ hm
    have hnd : ¬ path.Nodup := by
      intro h
      have := List.Subperm.length_le (List.Nodup.subperm h hsub)
      simp only [List.length_map] at this
      omega
    have hch1 : List.Chain' (PresentParentLink nodes) path := by
      cases path with
      | nil => exact List.chain'_nil
      | cons a t => exact (List.chain_cons.1 hch).2
    obtain ⟨x, hx⟩ := cycle_of_chain_not_nodup path hch1 hnd
    exact hforest.2.2 x hx

theorem validForest_talkABC : ValidForest talkABC := by
  refine ⟨by unfold UniqueIDs; decide, ?_, ?_⟩
  · intro n hn hp
    simp only [talkABC, List.mem_cons, List.mem_singleton, List.not_mem_nil, or_false] at hn
    rcases hn with rfl | rfl | rfl
    · exact absurd rfl hp
    · exact ⟨_, List.mem_cons_self _ _, rfl⟩
    · exact ⟨_, List.mem_cons_of_mem _ (List.mem_cons_self _ _), rfl⟩
  · apply acyclic_of_rank (fun s => if s = "A" then 0 else if s = "B" then 1 else 2)
    rintro c p ⟨hp, ⟨n, hn, rfl, rfl⟩, _⟩
    simp only [talkABC, List.mem_cons, List.mem_singleton, List.not_mem_nil, or_false] at hn
    rcases hn with rfl | rfl | rfl
    · exact absurd rfl hp
    · decide
    · decide

/-- C2: in a valid forest, a present node `n` has an ancestor chain (root
first, every ancestor present, ending with `n`, and of length `d + 1` for the
depth `d` of `n`), and `getConversationHistory` returns, as soon as the fuel
covers the chain, the text of the exchanges of that chain in root-first order,
each as its "User:" part followed by its "AI:" part, the last one being the
exchange of `n`. -/
theorem C2_history_is_ancestor_chain (nodes : List NodeData) (n : NodeData)
    (hforest : ValidForest nodes) (hn : n ∈ nodes) (hid : n.ID ≠ "") :
    ∃ d chain, AncestorChain nodes n d chain ∧
      chain.length = d + 1 ∧ chain.getLast? = some n ∧
      (∃ r, chain.head? = some r ∧ r.ParentID = "") ∧
      List.Chain' (fun a b => b.ParentID = a.ID ∧ b.ParentID ≠ "") chain ∧
      ∀ fuel, d + 2 ≤ fuel →
        getConversationHistory fuel nodes n.ID = some (renderExchanges chain) := by
  obtain ⟨d, chain, hchain⟩ := exists_ancestorChain hforest hn
  obtain ⟨hlen, hlast, hroot, hch, _⟩ := ancestorChain_props hchain
  refine ⟨d, chain, hchain, hlen, hlast, hroot, hch, ?_⟩
  intro fuel hfuel
  unfold getConversationHistory
  rw [historyLoop_chain hforest.1 hchain hid fuel [] hfuel]
  have hsplit : ∃ c, chain = c ++ [n] := by
    cases hchain with
    | root _ _ => exact ⟨[], rfl⟩
    | child _ _ _ _ => exact ⟨_, rfl⟩
  obtain ⟨c, rfl⟩ := hsplit
  simp only [List.nil_append, Option.map_some']
  rw [buildHistory_chain]

/-- C2, the scenario A → B → C: the history of C lists the exchange of A, then
that of B, then that of C. -/
theorem C2_history_is_ancestor_chain_witness :
    ValidForest talkABC ∧
      getConversationHistory 4 talkABC "C" =
        some "User: qa\n\nAI: aa\n\nUser: qb\n\nAI: ab\n\nUser: qc\n\nAI: ac\n" ∧
      ∃ d chain,
        AncestorChain talkABC { node "C" "B" with Question := "qc", Answer := "ac" } d chain ∧
        chain.length = d + 1 ∧
        chain.getLast? = some { node "C" "B" with Question := "qc", Answer := "ac" } ∧
        (∃ r, chain.head? = some r ∧ r.ParentID = "") ∧
        List.Chain' (fun a b => b.ParentID = a.ID ∧ b.ParentID ≠ "") chain ∧
        ∀ fuel, d + 2 ≤ fuel →
          getConversationHistory fuel talkABC
            ({ node "C" "B" with Question := "qc", Answer := "ac" } : NodeData).ID =
            some (renderExchanges chain) :=
  ⟨validForest_talkABC, by decide,
    C2_history_is_ancestor_chain talkABC { node "C" "B" with Question := "qc", Answer := "ac" }
      validForest_talkABC (by simp [talkABC]) (by decide)⟩

/-! ## Loading a project -/

/-- C4 (the code at the failing input): the index records the node B at the
position (290, 200); after `loadProjectData` the node is at (50, 200), the
first cell of the grid, because `AddNode` assigns a computed position to
every node it is given. -/
theorem C4_load_recomputes_positions :
    (loadProjectData myTheme NewMainApp "p1" (.parsed indexOfB) readQA).nodes.map
        (fun n => (n.ID, n.Position)) = [("B", ⟨50, 200⟩)] ∧
      indexOfB.Nodes.map (fun n => (n.ID, n.Position)) = [("B", ⟨290, 200⟩)] := by
  constructor
  · simp [loadProjectData, loadNodeTexts, installNodes, App.clearCurrentProjectState,
      DialogCanvas.Clear, DialogCanvas.AddNode, placement, gridPosition, fyne.NewPos,
      indexOfB, node, NewMainApp, NewDialogCanvas]
    split <;> simp
  · simp [indexOfB, node]

/-- C5 (the code on every input): after `loadProjectData`, also when the
index was read and parsed, the current project identifier and the current
project name are empty: `clearCurrentProjectState`, called before the loaded
nodes are installed, resets the two fields that were just assigned. -/
theorem C5_load_resets_project_identity (th : Metrics) (a : App) (projectID : String)
    (index : IndexFile) (readFile : String → Except String String) :
    (loadProjectData th a projectID index readFile).currentProjectID = "" ∧
      (loadProjectData th a projectID index readFile).currentProjectName = "" ∧
      (loadProjectData myTheme NewMainApp "p1" (.parsed indexOfB) readQA).currentProjectID ≠ "p1" ∧
      (loadProjectData myTheme NewMainApp "p1" (.parsed indexOfB) readQA).currentProjectName ≠
        indexOfB.ProjectName := by
  have h : ∀ (th : Metrics) (a : App) (projectID : String) (index : IndexFile)
      (readFile : String → Except String String),
      (loadProjectData th a projectID index readFile).currentProjectID = "" ∧
      (loadProjectData th a projectID index readFile).currentProjectName = "" := by
    intro th a projectID index readFile
    unfold loadProjectData
    by_cases hp : projectID = ""
    · simp [hp, App.clearCurrentProjectState]
    · cases index <;> simp [hp, App.clearCurrentProjectState]
  refine ⟨(h th a projectID index readFile).1, (h th a projectID index readFile).2, ?_, ?_⟩
  · rw [(h _ _ _ _ _).1]; decide
  · rw [(h _ _ _ _ _).2]; decide

/-! ## Rounding to float32 -/

theorem roundHalfEven_intCast (z : ℤ) : roundHalfEven (z : ℚ) = z := by
  simp [roundHalfEven]

theorem roundHalfEven_near (x : ℚ) (z : ℤ) (h : |x - z| < 1 / 2) : roundHalfEven x = z := by
  rw [abs_lt] at h
  unfold roundHalfEven
  by_cases hx : (z : ℚ) ≤ x
  · have hf : ⌊x⌋ = z := Int.floor_eq_iff.2 ⟨hx, by linarith⟩
    simp only [hf]
    rw [if_pos (by linarith)]
  · have hf : ⌊x⌋ = z - 1 := Int.floor_eq_iff.2 ⟨by push_cast; linarith, by push_cast; linarith⟩
    simp only [hf]
    push_cast
    rw [if_neg (by linarith), if_pos (by linarith)]
    ring

theorem log_eq_of_bounds (q : ℚ) (e : ℤ) (hq : 0 < q) (h1 : (2 : ℚ) ^ e ≤ q)
    (h2 : q < (2 : ℚ) ^ (e + 1)) : Int.log 2 q = e := by
  have ha : e ≤ Int.log 2 q := (Int.zpow_le_iff_le_log (by norm_num) hq).1 (by exact_mod_cast h1)
  have hb : Int.log 2 q < e + 1 := (Int.lt_zpow_iff_log_lt (by norm_num) hq).1 (by exact_mod_cast h2)
  omega

theorem float32_near (q : ℚ) (e z : ℤ) (hq : 0 < q) (he : -126 ≤ e) (h1 : (2 : ℚ) ^ e ≤ q)
    (h2 : q < (2 : ℚ) ^ (e + 1)) (h : |q / 2 ^ (e - 23) - z| < 1 / 2) :
    float32 q = z * 2 ^ (e - 23) := by
  unfold float32
  rw [if_neg (ne_of_gt hq), abs_of_pos hq, log_eq_of_bounds q e hq h1 h2, max_eq_left he]
  simp only
  rw [roundHalfEven_near _ z h]

theorem float32_repr (m k : ℤ) (hm : |m| < 2 ^ 24) (hk : -149 ≤ k) :
    float32 (m * 2 ^ k) = m * 2 ^ k := by
  unfold float32
  by_cases h0 : (m : ℚ) * 2 ^ k = 0
  · rw [if_pos h0, h0]
  · rw [if_neg h0]
    simp only
    have hpos : (0 : ℚ) < |(m : ℚ) * 2 ^ k| := abs_pos.2 h0
    have hmq : |(m : ℚ)| < 2 ^ 24 := by
      have : ((|m| : ℤ) : ℚ) < ((2 ^ 24 : ℤ) : ℚ) := Int.cast_lt.2 hm
      rw [Int.cast_abs] at this
      norm_num at this ⊢
      exact this
    have hlt : |(m : ℚ) * 2 ^ k| < ((2 : ℕ) : ℚ) ^ (24 + k) := by
      rw [abs_mul, abs_of_pos (zpow_pos (by norm_num : (0 : ℚ) < 2) k)]
      have h24 : (((2 : ℕ) : ℚ)) ^ (24 + k) = 2 ^ 24 * 2 ^ k := by
        rw [zpow_add₀ (by norm_num)]
        norm_num
      rw [h24]
      exact mul_lt_mul_of_pos_right hmq (zpow_pos (by norm_num) k)
    have hlog : Int.log 2 |(m : ℚ) * 2 ^ k| < 24 + k :=
      (Int.lt_zpow_iff_log_lt (by norm_num) hpos).1 hlt
    generalize Int.log 2 |(m : ℚ) * 2 ^ k| = l at hlog
    have hek : max l (-126) ≤ k + 23 := by
      apply max_le <;> omega
    generalize max l (-126) = e at hek
    obtain ⟨j, hj⟩ : ∃ j : ℕ, k = (e - 23) + (j : ℤ) := ⟨(k + 23 - e).toNat, by omega⟩
    have h2 : (2 : ℚ) ^ k = 2 ^ (e - 23) * 2 ^ j := by
      rw [hj, zpow_add₀ (by norm_num), zpow_natCast]
    have hu : (2 : ℚ) ^ (e - 23) ≠ 0 := zpow_ne_zero _ (by norm_num)
    have hdiv : (m : ℚ) * 2 ^ k / 2 ^ (e - 23) = ((m * 2 ^ j : ℤ) : ℚ) := by
      rw [h2]
      push_cast
      field_simp
      ring
    rw [hdiv, roundHalfEven_intCast, h2]
    push_cast
    ring

theorem float32_intCast (n : ℤ) (h : |n| < 2 ^ 24) : float32 n = n := by
  have := float32_repr n 0 h (by norm_num)
  simpa using this

theorem float32_ofNat (n : ℕ) [n.AtLeastTwo] (h : n < 16777216) :
    float32 (no_index (OfNat.ofNat n : ℚ)) = OfNat.ofNat n := by
  have := float32_intCast (n : ℤ) (by rw [abs_of_nonneg (by positivity)]; exact_mod_cast h)
  simpa using this

theorem roundHalfEven_sub_le (x : ℚ) : |x - roundHalfEven x| ≤ 1 / 2 := by
  have h1 := Int.floor_le x
  have h2 := Int.lt_floor_add_one x
  unfold roundHalfEven
  simp only
  rw [abs_le]
  by_cases ha : x - ⌊x⌋ < 1 / 2
  · rw [if_pos ha]
    constructor <;> linarith
  · rw [if_neg ha]
    by_cases hb : 1 / 2 < x - ⌊x⌋
    · rw [if_pos hb]
      push_cast
      constructor <;> linarith
    · rw [if_neg hb]
      have hd : x - ⌊x⌋ = 1 / 2 := le_antisymm (not_lt.1 hb) (not_lt.1 ha)
      by_cases he : ⌊x⌋ % 2 = 0
      · rw [if_pos he]
        constructor <;> linarith
      · rw [if_neg he]
        push_cast
        constructor <;> linarith

theorem roundHalfEven_mono {x y : ℚ} (h : x ≤ y) : roundHalfEven x ≤ roundHalfEven y := by
  by_contra hlt
  have hlt1 : roundHalfEven y + 1 ≤ roundHalfEven x := by omega
  have hq : ((roundHalfEven y : ℤ) : ℚ) + 1 ≤ (roundHalfEven x : ℚ) := by exact_mod_cast hlt1
  have hx := abs_le.1 (roundHalfEven_sub_le x)
  have hy := abs_le.1 (roundHalfEven_sub_le y)
  have hxy : x = y := by linarith
  rw [hxy] at hlt
  exact hlt (le_refl _)

theorem float32_zero : float32 0 = 0 := by simp [float32]

theorem float32_of_ne {q : ℚ} (h : q ≠ 0) :
    float32 q =
      (roundHalfEven (q / 2 ^ (max (Int.log 2 |q|) (-126) - 23)) : ℚ) *
        2 ^ (max (Int.log 2 |q|) (-126) - 23) := by
  simp [float32, h]

theorem abs_lt_zpow_fexp (q : ℚ) :
    |q| < 2 ^ (max (Int.log 2 |q|) (-126) + 1) := by
  have h1 : |q| < ((2 : ℕ) : ℚ) ^ (Int.log 2 |q| + 1) := Int.lt_zpow_succ_log_self (by norm_num) _
  have h2 : ((2 : ℕ) : ℚ) ^ (Int.log 2 |q| + 1) ≤ ((2 : ℕ) : ℚ) ^ (max (Int.log 2 |q|) (-126) + 1) :=
    zpow_le_zpow_right₀ (by norm_num) (by have := le_max_left (Int.log 2 |q|) (-126); omega)
  have := lt_of_lt_of_le h1 h2
  simpa using this

theorem zpow_fexp_le_abs {q : ℚ} (h : q ≠ 0) (he : -126 < max (Int.log 2 |q|) (-126)) :
    2 ^ (max (Int.log 2 |q|) (-126)) ≤ |q| := by
  have hmax : max (Int.log 2 |q|) (-126) = Int.log 2 |q| := by
    rcases le_total (Int.log 2 |q|) (-126) with h1 | h1
    · rw [max_eq_right h1] at he; omega
    · exact max_eq_left h1
  rw [hmax]
  have := Int.zpow_log_le_self (b := 2) (r := |q|) (by norm_num) (abs_pos.2 h)
  simpa using this

theorem fexp_mono {a b : ℚ} (ha : a ≠ 0) (h : |a| ≤ |b|) :
    max (Int.log 2 |a|) (-126) ≤ max (Int.log 2 |b|) (-126) :=
  max_le_max (Int.log_mono_right (abs_pos.2 ha) h) (le_refl _)

theorem float32_abs_le {q : ℚ} (h : q ≠ 0) :
    |float32 q| ≤ 2 ^ (max (Int.log 2 |q|) (-126) + 1) := by
  rw [float32_of_ne h]
  generalize he : max (Int.log 2 |q|) (-126) = e
  have hlt := abs_lt_zpow_fexp q
  rw [he] at hlt
  have hu : (0 : ℚ) < 2 ^ (e - 23) := zpow_pos (by norm_num) _
  have hsplit : (2 : ℚ) ^ (e + 1) = 2 ^ 24 * 2 ^ (e - 23) := by
    rw [show e + 1 = 24 + (e - 23) by ring, zpow_add₀ (by norm_num)]
    norm_num
  have hdiv : |q / 2 ^ (e - 23)| < 2 ^ 24 := by
    rw [abs_div, abs_of_pos hu, div_lt_iff₀ hu, ← hsplit]
    exact hlt
  rw [abs_lt] at hdiv
  have h1 : roundHalfEven (q / 2 ^ (e - 23)) ≤ 2 ^ 24 := by
    have := roundHalfEven_mono (le_of_lt hdiv.2)
    rw [show ((2 : ℚ) ^ 24) = (((2 ^ 24 : ℤ)) : ℚ) by norm_num, roundHalfEven_intCast] at this
    exact this
  have h2 : -(2 ^ 24) ≤ roundHalfEven (q / 2 ^ (e - 23)) := by
    have := roundHalfEven_mono (le_of_lt hdiv.1)
    rw [show (-(2 : ℚ) ^ 24) = (((-(2 ^ 24) : ℤ)) : ℚ) by norm_num, roundHalfEven_intCast] at this
    exact this
  rw [abs_mul, abs_of_pos hu, hsplit]
  apply mul_le_mul_of_nonneg_right _ (le_of_lt hu)
  rw [abs_le]
  constructor
  · have : ((-(2 ^ 24) : ℤ) : ℚ) ≤ (roundHalfEven (q / 2 ^ (e - 23)) : ℚ) := Int.cast_le.2 h2
    norm_num at this ⊢
    exact this
  · have : (roundHalfEven (q / 2 ^ (e - 23)) : ℚ) ≤ ((2 ^ 24 : ℤ) : ℚ) := Int.cast_le.2 h1
    norm_num at this ⊢
    exact this

theorem float32_le_abs {q : ℚ} (h : q ≠ 0) (he : -126 < max (Int.log 2 |q|) (-126)) :
    2 ^ (max (Int.log 2 |q|) (-126)) ≤ |float32 q| := by
  have hle := zpow_fexp_le_abs h he
  rw [float32_of_ne h]
  generalize max (Int.log 2 |q|) (-126) = e at hle
  have hu : (0 : ℚ) < 2 ^ (e - 23) := zpow_pos (by norm_num) _
  have hsplit : (2 : ℚ) ^ e = 2 ^ 23 * 2 ^ (e - 23) := by
    rw [show e = 23 + (e - 23) by ring, zpow_add₀ (by norm_num)]
    norm_num
  have hdiv : 2 ^ 23 ≤ |q / 2 ^ (e - 23)| := by
    rw [abs_div, abs_of_pos hu, le_div_iff₀ hu, ← hsplit]
    exact hle
  rw [abs_mul, abs_of_pos hu]
  conv_lhs => rw [hsplit]
  apply mul_le_mul_of_nonneg_right _ (le_of_lt hu)
  rw [le_abs] at hdiv ⊢
  rcases hdiv with h1 | h1
  · left
    have := roundHalfEven_mono h1
    rw [show ((2 : ℚ) ^ 23) = (((2 ^ 23 : ℤ)) : ℚ) by norm_num, roundHalfEven_intCast] at this
    have : ((2 ^ 23 : ℤ) : ℚ) ≤ (roundHalfEven (q / 2 ^ (e - 23)) : ℚ) := Int.cast_le.2 this
    norm_num at this ⊢
    exact this
  · right
    have h2 : q / 2 ^ (e - 23) ≤ -(2 ^ 23) := by linarith
    have := roundHalfEven_mono h2
    rw [show (-(2 : ℚ) ^ 23) = (((-(2 ^ 23) : ℤ)) : ℚ) by norm_num, roundHalfEven_intCast] at this
    have : (roundHalfEven (q / 2 ^ (e - 23)) : ℚ) ≤ ((-(2 ^ 23) : ℤ) : ℚ) := Int.cast_le.2 this
    norm_num at this ⊢
    linarith

theorem float32_nonneg {q : ℚ} (h : 0 ≤ q) : 0 ≤ float32 q := by
  by_cases h0 : q = 0
  · rw [h0, float32_zero]
  · rw [float32_of_ne h0]
    have hu : (0 : ℚ) < 2 ^ (max (Int.log 2 |q|) (-126) - 23) := zpow_pos (by norm_num) _
    apply mul_nonneg _ (le_of_lt hu)
    have := roundHalfEven_mono (div_nonneg h (le_of_lt hu))
    rw [show (0 : ℚ) = ((0 : ℤ) : ℚ) by norm_num, roundHalfEven_intCast] at this
    exact_mod_cast this

theorem float32_nonpos {q : ℚ} (h : q ≤ 0) : float32 q ≤ 0 := by
  by_cases h0 : q = 0
  · rw [h0, float32_zero]
  · rw [float32_of_ne h0]
    have hu : (0 : ℚ) < 2 ^ (max (Int.log 2 |q|) (-126) - 23) := zpow_pos (by norm_num) _
    apply mul_nonpos_of_nonpos_of_nonneg _ (le_of_lt hu)
    have := roundHalfEven_mono (div_nonpos_of_nonpos_of_nonneg h (le_of_lt hu))
    rw [show (0 : ℚ) = ((0 : ℤ) : ℚ) by norm_num, roundHalfEven_intCast] at this
    exact_mod_cast this

theorem float32_mono {a b : ℚ} (h : a ≤ b) : float32 a ≤ float32 b := by
  rcases lt_trichotomy a 0 with ha | ha | ha
  · rcases lt_or_le b 0 with hb | hb
    · have ha0 : a ≠ 0 := ne_of_lt ha
      have hb0 : b ≠ 0 := ne_of_lt hb
      have habs : |b| ≤ |a| := by
        rw [abs_of_neg ha, abs_of_neg hb]; linarith
      have hexp := fexp_mono hb0 habs
      rcases eq_or_lt_of_le hexp with he | he
      · rw [float32_of_ne ha0, float32_of_ne hb0, he]
        have hu : (0 : ℚ) < 2 ^ (max (Int.log 2 |a|) (-126) - 23) := zpow_pos (by norm_num) _
        apply mul_le_mul_of_nonneg_right _ (le_of_lt hu)
        exact_mod_cast roundHalfEven_mono (div_le_div_of_nonneg_right h (le_of_lt hu))
      · have h1 := float32_abs_le hb0
        have h2 := float32_le_abs ha0 (lt_of_le_of_lt (le_max_right _ _) he)
        have h3 : (2 : ℚ) ^ (max (Int.log 2 |b|) (-126) + 1) ≤
            2 ^ (max (Int.log 2 |a|) (-126)) :=
          zpow_le_zpow_right₀ (by norm_num) (by omega)
        rw [abs_of_nonpos (float32_nonpos (le_of_lt hb))] at h1
        rw [abs_of_nonpos (float32_nonpos (le_of_lt ha))] at h2
        linarith
    · exact le_trans (float32_nonpos (le_of_lt ha)) (float32_nonneg hb)
  · rw [ha, float32_zero]
    exact float32_nonneg (by rw [← ha]; exact h)
  · have hb : 0 < b := lt_of_lt_of_le ha h
    have ha0 : a ≠ 0 := ne_of_gt ha
    have hb0 : b ≠ 0 := ne_of_gt hb
    have habs : |a| ≤ |b| := by
      rw [abs_of_pos ha, abs_of_pos hb]; exact h
    have hexp := fexp_mono ha0 habs
    rcases eq_or_lt_of_le hexp with he | he
    · rw [float32_of_ne ha0, float32_of_ne hb0, he]
      have hu : (0 : ℚ) < 2 ^ (max (Int.log 2 |b|) (-126) - 23) := zpow_pos (by norm_num) _
      apply mul_le_mul_of_nonneg_right _ (le_of_lt hu)
      exact_mod_cast roundHalfEven_mono (div_le_div_of_nonneg_right h (le_of_lt hu))
    · have h1 := float32_abs_le ha0
      have h2 := float32_le_abs hb0 (lt_of_le_of_lt (le_max_right _ _) he)
      have h3 : (2 : ℚ) ^ (max (Int.log 2 |a|) (-126) + 1) ≤
          2 ^ (max (Int.log 2 |b|) (-126)) :=
        zpow_le_zpow_right₀ (by norm_num) (by omega)
      rw [abs_of_nonneg (float32_nonneg (le_of_lt ha))] at h1
      rw [abs_of_nonneg (float32_nonneg (le_of_lt hb))] at h2
      linarith

theorem float32_idem (q : ℚ) : float32 (float32 q) = float32 q := by
  by_cases h0 : q = 0
  · rw [h0, float32_zero, float32_zero]
  · have hle := float32_abs_le h0
    rw [float32_of_ne h0] at hle ⊢
    generalize hE : max (Int.log 2 |q|) (-126) = e at hle
    have he : -126 ≤ e := by rw [← hE]; exact le_max_right _ _
    generalize roundHalfEven (q / 2 ^ (e - 23)) = r at hle
    have hu : (0 : ℚ) < 2 ^ (e - 23) := zpow_pos (by norm_num) _
    have hsplit : (2 : ℚ) ^ (e + 1) = 2 ^ 24 * 2 ^ (e - 23) := by
      rw [show e + 1 = 24 + (e - 23) by ring, zpow_add₀ (by norm_num)]
      norm_num
    rw [abs_mul, abs_of_pos hu, hsplit] at hle
    have hr : |(r : ℚ)| ≤ 2 ^ 24 := le_of_mul_le_mul_right hle hu
    have hrz : |r| ≤ 2 ^ 24 := by
      have : ((|r| : ℤ) : ℚ) ≤ ((2 ^ 24 : ℤ) : ℚ) := by
        rw [Int.cast_abs]; norm_num at hr ⊢; exact hr
      exact Int.cast_le.1 this
    rcases lt_or_eq_of_le hrz with hlt | heq
    · exact float32_repr r (e - 23) hlt (by omega)
    · have hcases : r = 2 ^ 24 ∨ r = -(2 ^ 24) := by
        rcases abs_choice r with h | h
        · left; rw [← h]; exact heq
        · right; rw [h] at heq; omega
      have h2 : (2 : ℚ) ^ (e - 22) = 2 * 2 ^ (e - 23) := by
        rw [show e - 22 = 1 + (e - 23) by ring, zpow_add₀ (by norm_num)]
        norm_num
      rcases hcases with h | h
      · have := float32_repr (2 ^ 23) (e - 22) (by norm_num) (by omega)
        have hv : ((r : ℤ) : ℚ) * 2 ^ (e - 23) = ((2 ^ 23 : ℤ) : ℚ) * 2 ^ (e - 22) := by
          rw [h, h2]; push_cast; ring
        rw [hv]; exact this
      · have := float32_repr (-(2 ^ 23)) (e - 22) (by norm_num) (by omega)
        have hv : ((r : ℤ) : ℚ) * 2 ^ (e - 23) = ((-(2 ^ 23) : ℤ) : ℚ) * 2 ^ (e - 22) := by
          rw [h, h2]; push_cast; ring
        rw [hv]; exact this

theorem le_float32_add {r c : ℚ} (hr : float32 r = r) (hc : 0 ≤ c) : r ≤ float32 (r + c) := by
  have := float32_mono (show r ≤ r + c by linarith)
  rw [hr] at this
  exact this

theorem float32_one : float32 1 = 1 := by
  have := float32_intCast 1 (by norm_num)
  simpa using this

/-! ## Automatic placement -/

theorem overlapLoop_cons (th : Metrics) (data : NodeData) (size : fyne.Size)
    (a : NodeData) (l : List NodeData) (p : fyne.Position) :
    overlapLoop th data size (a :: l) p =
      if a.ID ≠ data.ID then
        if ((decide (p.X < float32 (a.Position.X + (MinSize th (th.titleLabelHeight a) a).Width)) &&
              decide (float32 (p.X + size.Width) > a.Position.X)) &&
            (decide (p.Y < float32 (a.Position.Y + (MinSize th (th.titleLabelHeight a) a).Height)) &&
              decide (float32 (p.Y + size.Height) > a.Position.Y))) = true then
          ⟨float32 (p.X + nodeSpacing), float32 (p.Y + nodeSpacing)⟩
        else overlapLoop th data size l p
      else overlapLoop th data size l p := rfl

theorem overlapTest_iff (p : fyne.Position) (s : fyne.Size) (q : fyne.Position) (t : fyne.Size) :
    OverlapTest p s q t ↔
      ((decide (p.X < float32 (q.X + t.Width)) && decide (float32 (p.X + s.Width) > q.X)) &&
        (decide (p.Y < float32 (q.Y + t.Height)) && decide (float32 (p.Y + s.Height) > q.Y))) =
        true := by
  simp [OverlapTest]

theorem boxesOverlap_iff (p : fyne.Position) (s : fyne.Size) (q : fyne.Position) (t : fyne.Size) :
    BoxesOverlap p s q t ↔
      ((decide (p.X < q.X + t.Width) && decide (p.X + s.Width > q.X)) &&
        (decide (p.Y < q.Y + t.Height) && decide (p.Y + s.Height > q.Y))) = true := by
  simp [BoxesOverlap]

theorem overlapLoop_of_none (th : Metrics) (data : NodeData) (size : fyne.Size)
    (p : fyne.Position) :
    ∀ (l : List NodeData),
      (∀ e ∈ l, e.ID ≠ data.ID →
        ¬ OverlapTest p size e.Position (MinSize th (th.titleLabelHeight e) e)) →
      overlapLoop th data size l p = p := by
  intro l
  induction l with
  | nil => intro _; rfl
  | cons a l ih =>
    intro h
    have ih1 := ih (fun e he => h e (List.mem_cons_of_mem _ he))
    rw [overlapLoop_cons]
    by_cases ha : a.ID ≠ data.ID
    · have hno := h a (List.mem_cons_self _ _) ha
      rw [if_pos ha, if_neg (fun hc => hno ((overlapTest_iff _ _ _ _).2 hc))]
      exact ih1
    · rw [if_neg ha]
      exact ih1

theorem overlapLoop_of_some (th : Metrics) (data : NodeData) (size : fyne.Size)
    (p : fyne.Position) :
    ∀ (l : List NodeData),
      (∃ e ∈ l, e.ID ≠ data.ID ∧
        OverlapTest p size e.Position (MinSize th (th.titleLabelHeight e) e)) →
      overlapLoop th data size l p = ⟨float32 (p.X + nodeSpacing), float32 (p.Y + nodeSpacing)⟩ := by
  intro l
  induction l with
  | nil => rintro ⟨e, he, _⟩; simp at he
  | cons a l ih =>
    rintro ⟨e, he, hid, hov⟩
    rw [overlapLoop_cons]
    by_cases ha : a.ID ≠ data.ID
    · rw [if_pos ha]
      by_cases hova : OverlapTest p size a.Position (MinSize th (th.titleLabelHeight a) a)
      · rw [if_pos ((overlapTest_iff _ _ _ _).1 hova)]
      · rw [if_neg (fun hc => hova ((overlapTest_iff _ _ _ _).2 hc))]
        rcases List.mem_cons.1 he with h1 | h1
        · subst h1; exact absurd hov hova
        · exact ih ⟨e, h1, hid, hov⟩
    · rw [if_neg ha]
      rcases List.mem_cons.1 he with h1 | h1
      · subst h1; exact absurd hid ha
      · exact ih ⟨e, h1, hid, hov⟩

theorem addNode_of_parent (th : Metrics) (dc : DialogCanvas) (data parent : NodeData)
    (hpar : data.ParentID ≠ "") (hmap : dc.nodeMap data.ParentID = some parent) :
    (dc.AddNode th data).2.Position =
      overlapLoop th data (MinSize th none data) dc.nodes
        (candidatePosition th dc data parent) := by
  simp [DialogCanvas.AddNode, placement, hpar, hmap]

theorem minSize_myTheme (titleLabel : Option ℚ) (d : NodeData) (h : d.Expanded = false) :
    MinSize myTheme titleLabel d = ⟨308, 110⟩ := by
  simp only [MinSize, h, myTheme, nodeWidthCollapsed, nodeHeightCollapsed]
  norm_num [float32_ofNat]

/-- C10 (as amended): when `AddNode` places a node whose parent is on the
canvas and the overlap loop does not nudge it (the assigned position is the
candidate, and a nudge would have changed it), the overlap test of the loop,
in `float32` arithmetic, fails for every node of another id that is already
placed. So the new position differs from the position of every such node of
the same size whose coordinates grow in `float32` when the width and the
height are added to them; and when the sums of the test are exact, the box of
the new node overlaps the box of that node nowhere. -/
theorem C10_unnudged_child_overlaps_nothing (th : Metrics) (dc : DialogCanvas)
    (data parent : NodeData) (hpar : data.ParentID ≠ "")
    (hmap : dc.nodeMap data.ParentID = some parent)
    (hkept : (dc.AddNode th data).2.Position = candidatePosition th dc data parent)
    (hmove : float32 ((candidatePosition th dc data parent).X + nodeSpacing) ≠
        (candidatePosition th dc data parent).X ∨
      float32 ((candidatePosition th dc data parent).Y + nodeSpacing) ≠
        (candidatePosition th dc data parent).Y) :
    ∀ e ∈ dc.nodes, e.ID ≠ data.ID →
      ¬ OverlapTest (dc.AddNode th data).2.Position (MinSize th none data) e.Position
          (MinSize th (th.titleLabelHeight e) e) ∧
        (MinSize th (th.titleLabelHeight e) e = MinSize th none data →
          e.Position.X < float32 (e.Position.X + (MinSize th none data).Width) →
          e.Position.Y < float32 (e.Position.Y + (MinSize th none data).Height) →
          (dc.AddNode th data).2.Position ≠ e.Position) ∧
        (float32 (e.Position.X + (MinSize th (th.titleLabelHeight e) e).Width) =
            e.Position.X + (MinSize th (th.titleLabelHeight e) e).Width →
          float32 (e.Position.Y + (MinSize th (th.titleLabelHeight e) e).Height) =
            e.Position.Y + (MinSize th (th.titleLabelHeight e) e).Height →
          float32 ((dc.AddNode th data).2.Position.X + (MinSize th none data).Width) =
            (dc.AddNode th data).2.Position.X + (MinSize th none data).Width →
          float32 ((dc.AddNode th data).2.Position.Y + (MinSize th none data).Height) =
            (dc.AddNode th data).2.Position.Y + (MinSize th none data).Height →
          ¬ BoxesOverlap (dc.AddNode th data).2.Position (MinSize th none data) e.Position
            (MinSize th (th.titleLabelHeight e) e)) := by
  intro e he hid
  have hpos := addNode_of_parent th dc data parent hpar hmap
  have hno : ¬ OverlapTest (candidatePosition th dc data parent) (MinSize th none data)
      e.Position (MinSize th (th.titleLabelHeight e) e) := by
    intro hov
    have hn := overlapLoop_of_some th data (MinSize th none data)
      (candidatePosition th dc data parent) dc.nodes ⟨e, he, hid, hov⟩
    rw [← hpos, hkept] at hn
    rcases hmove with hm | hm
    · exact hm (congrArg fyne.Position.X hn).symm
    · exact hm (congrArg fyne.Position.Y hn).symm
  rw [hkept]
  refine ⟨hno, ?_, ?_⟩
  · intro hsize hx hy hp
    apply hno
    rw [hsize, hp]
    exact ⟨⟨hx, hx⟩, ⟨hy, hy⟩⟩
  · intro h1 h2 h3 h4 hb
    apply hno
    unfold OverlapTest
    rw [h1, h2, h3, h4]
    exact hb

theorem canvasA_nodes :
    (addAll myTheme NewDialogCanvas [node "A" ""]).nodes =
      [{ node "A" "" with Position := ⟨50, 200⟩ }] := by
  simp [addAll, DialogCanvas.AddNode, placement, node, NewDialogCanvas, gridPosition, fyne.NewPos]

theorem canvasA_nodeMap :
    (addAll myTheme NewDialogCanvas [node "A" ""]).nodeMap (node "B" "A").ParentID =
      some { node "A" "" with Position := ⟨50, 200⟩ } := by
  simp [addAll, DialogCanvas.AddNode, placement, node, NewDialogCanvas,
    DialogCanvas.nodeMap, nodeDataMap, gridPosition, fyne.NewPos]

theorem canvasA_candidate :
    candidatePosition myTheme (addAll myTheme NewDialogCanvas [node "A" ""]) (node "B" "A")
      { node "A" "" with Position := ⟨50, 200⟩ } = ⟨398, 200⟩ := by
  rw [candidatePosition, canvasA_nodes]
  simp [minSize_myTheme, fyne.NewPos, nodeSpacing, node]
  norm_num [float32_ofNat, float32_zero]

theorem canvasABC_addChild :
    ((addAll myTheme NewDialogCanvas [node "A" ""]).AddNode myTheme (node "B" "A")).2.Position =
      candidatePosition myTheme (addAll myTheme NewDialogCanvas [node "A" ""]) (node "B" "A")
        { node "A" "" with Position := ⟨50, 200⟩ } := by
  rw [addNode_of_parent myTheme _ (node "B" "A") _ (by decide) canvasA_nodeMap, canvasA_candidate,
    canvasA_nodes]
  simp [overlapLoop, minSize_myTheme, node]
  norm_num [float32_ofNat]

/-- C10, an instance: the child B of the root A keeps its candidate position
(398, 200), which a nudge would have changed, and the overlap test fails for
A. -/
theorem C10_unnudged_child_overlaps_nothing_witness :
    (node "B" "A").ParentID ≠ "" ∧
      ((addAll myTheme NewDialogCanvas [node "A" ""]).AddNode myTheme (node "B" "A")).2.Position =
        ⟨398, 200⟩ ∧
      ∀ e ∈ (addAll myTheme NewDialogCanvas [node "A" ""]).nodes, e.ID ≠ (node "B" "A").ID →
        ¬ OverlapTest
            ((addAll myTheme NewDialogCanvas [node "A" ""]).AddNode myTheme (node "B" "A")).2.Position
            (MinSize myTheme none (node "B" "A")) e.Position
            (MinSize myTheme (myTheme.titleLabelHeight e) e) :=
  ⟨by decide, by rw [canvasABC_addChild, canvasA_candidate],
    fun e he hid =>
      (C10_unnudged_child_overlaps_nothing myTheme (addAll myTheme NewDialogCanvas [node "A" ""])
        (node "B" "A") { node "A" "" with Position := ⟨50, 200⟩ } (by decide) canvasA_nodeMap
        canvasABC_addChild
        (Or.inl (by rw [canvasA_candidate]; norm_num [float32_ofNat, nodeSpacing])) e he hid).1⟩

theorem canvasRootsAB_nodes :
    canvasRootsAB.nodes =
      [{ node "A" "" with Position := ⟨50, 200⟩ }, { node "B" "" with Position := ⟨290, 200⟩ }] := by
  simp [canvasRootsAB, addAll, DialogCanvas.AddNode, placement, node, NewDialogCanvas,
    gridPosition, fyne.NewPos]
  norm_num

theorem canvasNudge_nodes :
    canvasNudge.nodes.map (fun n => (n.ID, n.Position)) =
      [("A", ⟨50, 200⟩), ("B1", ⟨398, 200⟩), ("B2", ⟨398, 330⟩), ("B3", ⟨398, 460⟩),
        ("B4", ⟨398, 590⟩), ("R5", ⟨50, 330⟩), ("Q", ⟨438, 370⟩), ("cQ", ⟨786, 370⟩)] := by
  simp [canvasNudge, addAll, DialogCanvas.AddNode, placement, node, NewDialogCanvas,
    DialogCanvas.nodeMap, nodeDataMap, gridPosition, fyne.NewPos, candidatePosition, overlapLoop,
    minSize_myTheme, nodeSpacing]
  norm_num [float32_ofNat, float32_zero, float32_one]

/-- C10, the claim as stated fails. After the roots A and B are added and A is
removed, the root C is placed at (290, 200), exactly where B stands, both
boxes being 308 wide and 110 high. Without any removal, too: on the canvas
`canvasNudge` the candidate of a new child of B2 overlaps the node cQ and the
single nudge moves it to (786, 370), exactly where cQ stands. -/
theorem C10_counterexample :
    (canvasRootsAB.RemoveNodeAndDescendants "A").map
        (fun r => (r.1, r.2.nodes.map (fun n => (n.ID, n.Position)),
          (r.2.AddNode myTheme (node "C" "")).2.Position)) =
        some (["A"], [("B", ⟨290, 200⟩)], ⟨290, 200⟩) ∧
      MinSize myTheme none (node "C" "") = ⟨308, 110⟩ ∧
      MinSize myTheme (myTheme.titleLabelHeight (node "B" "")) (node "B" "") = ⟨308, 110⟩ ∧
      (canvasNudge.nodes.map (fun n => (n.ID, n.Position))).getLast? =
        some ("cQ", ⟨786, 370⟩) ∧
      (canvasNudge.AddNode myTheme (node "cP" "B2")).2.Position = ⟨786, 370⟩ := by
  refine ⟨?_, minSize_myTheme _ _ rfl, minSize_myTheme _ _ rfl, ?_, ?_⟩
  · have h : canvasRootsAB.RemoveNodeAndDescendants "A" =
        some (["A"], ⟨[{ node "B" "" with Position := ⟨290, 200⟩ }], ""⟩) := by
      have hn := canvasRootsAB_nodes
      have hs : canvasRootsAB.selectedBranchSourceID = "" := by
        simp [canvasRootsAB, addAll, DialogCanvas.AddNode, NewDialogCanvas]
      have hc : canvasRootsAB = ⟨[{ node "A" "" with Position := ⟨50, 200⟩ },
          { node "B" "" with Position := ⟨290, 200⟩ }], ""⟩ := by
        cases hcan : canvasRootsAB with
        | mk nodes sel =>
          rw [hcan] at hn hs
          simp only at hn hs
          rw [hn, hs]
      rw [hc]
      simp [DialogCanvas.RemoveNodeAndDescendants, collectDescendants, removeLoop, node]
    rw [h]
    simp [DialogCanvas.AddNode, placement, node, gridPosition, fyne.NewPos]
    norm_num
  · rw [canvasNudge_nodes]
    rfl
  · simp [canvasNudge, addAll, DialogCanvas.AddNode, placement, node, NewDialogCanvas,
      DialogCanvas.nodeMap, nodeDataMap, gridPosition, fyne.NewPos, candidatePosition, overlapLoop,
      minSize_myTheme, nodeSpacing]
    norm_num [float32_ofNat, float32_zero, float32_one]

/-! ## Invariants of the store -/

theorem markBranchSource_ID (p i : String) (d : NodeData) :
    (markBranchSource p i d).ID = d.ID := by
  simp only [markBranchSource]
  split <;> rfl

theorem markBranchSource_ParentID (p i : String) (d : NodeData) :
    (markBranchSource p i d).ParentID = d.ParentID := by
  simp only [markBranchSource]
  split <;> rfl

theorem linksOf_map_mark (p i : String) (l : List NodeData) :
    linksOf (l.map (markBranchSource p i)) = linksOf l := by
  unfold linksOf
  rw [List.map_map]
  apply List.map_congr_left
  intro n _
  simp [markBranchSource_ID, markBranchSource_ParentID]

theorem linksOf_append (l1 l2 : List NodeData) :
    linksOf (l1 ++ l2) = linksOf l1 ++ linksOf l2 := by
  simp [linksOf]

theorem present_iff_links (l : List NodeData) (i : String) :
    Present l i ↔ i ∈ (linksOf l).map Prod.fst := by
  simp [Present, linksOf]

theorem parentLink_iff_links (l : List NodeData) (c p : String) :
    ParentLink l c p ↔ (c, p) ∈ linksOf l := by
  simp [ParentLink, linksOf]

theorem present_congr {l1 l2 : List NodeData} (h : linksOf l1 = linksOf l2) (i : String) :
    Present l1 i ↔ Present l2 i := by
  rw [present_iff_links, present_iff_links, h]

theorem parentsPresent_congr {l1 l2 : List NodeData} (h : linksOf l1 = linksOf l2)
    (hp : ParentsPresent l1) : ParentsPresent l2 := by
  intro n hn hne
  have hmem : (n.ID, n.ParentID) ∈ linksOf l1 := by
    rw [h]; exact List.mem_map_of_mem _ hn
  obtain ⟨m, hm, hmeq⟩ := List.mem_map.1 hmem
  have h1 : m.ParentID = n.ParentID := (Prod.ext_iff.1 hmeq).2
  have := hp m hm (by rw [h1]; exact hne)
  rw [h1] at this
  exact (present_congr h _).1 this

theorem validForest_congr {l1 l2 : List NodeData} (h : linksOf l1 = linksOf l2)
    (hv : ValidForest l1) : ValidForest l2 := by
  obtain ⟨hu, hp, ha⟩ := hv
  refine ⟨?_, parentsPresent_congr h hp, ?_⟩
  · have e1 : l1.map (fun n => n.ID) = (linksOf l1).map Prod.fst := by simp [linksOf]
    have e2 : l2.map (fun n => n.ID) = (linksOf l2).map Prod.fst := by simp [linksOf]
    unfold UniqueIDs at hu ⊢
    rw [e2, ← h, ← e1]
    exact hu
  · have hrel : ∀ c p, PresentParentLink l2 c p → PresentParentLink l1 c p := by
      rintro c p ⟨hne, hl, hpr⟩
      exact ⟨hne, by rw [parentLink_iff_links, h, ← parentLink_iff_links]; exact hl,
        (present_congr h p).2 hpr⟩
    intro x hx
    exact ha x (Relation.TransGen.mono hrel hx)

theorem parentsPresent_append {l : List NodeData} {d : NodeData} (hp : ParentsPresent l)
    (hpar : d.ParentID = "" ∨ Present l d.ParentID) : ParentsPresent (l ++ [d]) := by
  have hmono : ∀ i, Present l i → Present (l ++ [d]) i := by
    rintro i ⟨m, hm, hmi⟩
    exact ⟨m, List.mem_append_left _ hm, hmi⟩
  intro n hn hne
  rcases List.mem_append.1 hn with h | h
  · exact hmono _ (hp n h hne)
  · have : n = d := by simpa using h
    subst this
    rcases hpar with h0 | h0
    · exact absurd h0 hne
    · exact hmono _ h0

theorem validForest_append {l : List NodeData} {d : NodeData} (hv : ValidForest l)
    (hfresh : ¬ Present l d.ID) (hpar : d.ParentID = "" ∨ Present l d.ParentID) :
    ValidForest (l ++ [d]) := by
  obtain ⟨hu, hp, ha⟩ := hv
  refine ⟨?_, parentsPresent_append hp hpar, ?_⟩
  · unfold UniqueIDs at hu ⊢
    rw [List.map_append, List.map_singleton]
    refine List.Nodup.append hu (List.nodup_singleton _) ?_
    intro i hi1 hi2
    have : i = d.ID := by simpa using hi2
    subst this
    obtain ⟨m, hm, hmi⟩ := List.mem_map.1 hi1
    exact hfresh ⟨m, hm, hmi⟩
  · have target_ne : ∀ c p, PresentParentLink (l ++ [d]) c p → p ≠ d.ID := by
      rintro c p ⟨hne, ⟨n, hn, _, hnp⟩, _⟩ heq
      have hpres : Present l p := by
        rcases List.mem_append.1 hn with h | h
        · have := hp n h (by rw [hnp]; exact hne)
          rwa [hnp] at this
        · have hnd : n = d := by simpa using h
          subst hnd
          rcases hpar with h0 | h0
          · exact absurd (hnp.symm.trans h0) hne
          · rwa [hnp] at h0
      rw [heq] at hpres
      exact hfresh hpres
    have old_link : ∀ c p, PresentParentLink (l ++ [d]) c p → c ≠ d.ID →
        PresentParentLink l c p := by
      rintro c p ⟨hne, ⟨n, hn, hnc, hnp⟩, _⟩ hc
      have hnl : n ∈ l := by
        rcases List.mem_append.1 hn with h | h
        · exact h
        · have hnd : n = d := by simpa using h
          subst hnd
          exact absurd hnc.symm hc
      refine ⟨hne, ⟨n, hnl, hnc, hnp⟩, ?_⟩
      have := hp n hnl (by rw [hnp]; exact hne)
      rwa [hnp] at this
    have key : ∀ a b, Relation.TransGen (PresentParentLink (l ++ [d])) a b → a ≠ d.ID →
        Relation.TransGen (PresentParentLink l) a b := by
      intro a b hab
      induction hab using Relation.TransGen.head_induction_on with
      | base h => intro hne; exact Relation.TransGen.single (old_link _ _ h hne)
      | ih h _ ih =>
        intro hne
        exact Relation.TransGen.head (old_link _ _ h hne) (ih (target_ne _ _ h))
    intro x hx
    have hxne : x ≠ d.ID := by
      cases hx with
      | single h => exact target_ne _ _ h
      | tail _ h => exact target_ne _ _ h
    exact ha x (key x x hx hxne)

theorem parentsPresent_filter {l : List NodeData} (w : List String) (hp : ParentsPresent l)
    (hcl : ∀ n ∈ l, n.ParentID ∈ w → n.ID ∈ w) :
    ParentsPresent (l.filter (fun n => decide (n.ID ∉ w))) := by
  intro n hn hne
  obtain ⟨hnl, hnw⟩ := List.mem_filter.1 hn
  have hnw1 : n.ID ∉ w := by simpa using hnw
  obtain ⟨m, hm, hmi⟩ := hp n hnl hne
  refine ⟨m, List.mem_filter.2 ⟨hm, ?_⟩, hmi⟩
  have : m.ID ∉ w := by
    rw [hmi]
    exact fun h => hnw1 (hcl n hnl h)
  simpa using this

theorem validForest_filter {l : List NodeData} (w : List String) (hv : ValidForest l)
    (hcl : ∀ n ∈ l, n.ParentID ∈ w → n.ID ∈ w) :
    ValidForest (l.filter (fun n => decide (n.ID ∉ w))) := by
  obtain ⟨hu, hp, ha⟩ := hv
  refine ⟨?_, parentsPresent_filter w hp hcl, ?_⟩
  · exact List.Nodup.sublist (List.Sublist.map _ (List.filter_sublist _)) hu
  · have hrel : ∀ c p, PresentParentLink (l.filter (fun n => decide (n.ID ∉ w))) c p →
        PresentParentLink l c p := by
      rintro c p ⟨hne, ⟨n, hn, hnc, hnp⟩, ⟨m, hm, hmi⟩⟩
      exact ⟨hne, ⟨n, (List.mem_filter.1 hn).1, hnc, hnp⟩, ⟨m, (List.mem_filter.1 hm).1, hmi⟩⟩
    intro x hx
    exact ha x (Relation.TransGen.mono hrel hx)

theorem descendant_closed (l : List NodeData) (x : String) (w : List String)
    (hw : ∀ y, y ∈ w ↔ DescendantOrSelf l x y) :
    ∀ n ∈ l, n.ParentID ∈ w → n.ID ∈ w := by
  intro n hn hpw
  rw [hw] at hpw ⊢
  exact Relation.ReflTransGen.head ⟨n, hn, rfl, rfl⟩ hpw

/-- The effect of `requestNodeDeletion` on a state whose canvas and store hold
the same data: both keep the nodes outside the closure of `x`, unchanged. -/
theorem requestNodeDeletion_spec (a : App) (x : String)
    (hsync : a.dialogCanvas.nodes = a.nodes) :
    ∃ w : List String, (∀ y, y ∈ w ↔ DescendantOrSelf a.nodes x y) ∧
      a.dialogCanvas.RemoveNodeAndDescendants x =
        some ((a.nodes.filter (fun n => decide (n.ID ∈ w))).map (fun n => n.ID),
          { a.dialogCanvas with nodes := a.nodes.filter (fun n => decide (n.ID ∉ w)) }) ∧
      a.requestNodeDeletion x =
        some { a with
          nodes := a.nodes.filter (fun n => decide (n.ID ∉ w)),
          dialogCanvas :=
            { a.dialogCanvas with nodes := a.nodes.filter (fun n => decide (n.ID ∉ w)) } } := by
  obtain ⟨w, hw, heq⟩ := remove_spec a.dialogCanvas x
  rw [hsync] at hw heq
  refine ⟨w, hw, heq, ?_⟩
  have hcl := descendant_closed a.nodes x w hw
  set D := (a.nodes.filter (fun n => decide (n.ID ∈ w))).map (fun n => n.ID) with hD
  have hDw : ∀ i, i ∈ D → i ∈ w := by
    intro i hi
    obtain ⟨n, hn, rfl⟩ := List.mem_map.1 hi
    simpa using (List.mem_filter.1 hn).2
  have hkeep : ∀ n ∈ a.nodes.filter (fun n => decide (n.ID ∉ w)),
      clearDeletedParent D n = n := by
    intro n hn
    obtain ⟨hnl, hnw⟩ := List.mem_filter.1 hn
    have hnw1 : n.ID ∉ w := by simpa using hnw
    have : n.ParentID ∉ D := fun h => hnw1 (hcl n hnl (hDw _ h))
    simp [clearDeletedParent, this]
  have hfilter : a.nodes.filter (fun n => decide (n.ID ∉ D)) =
      a.nodes.filter (fun n => decide (n.ID ∉ w)) := by
    apply List.filter_congr
    intro n hn
    have : n.ID ∈ D ↔ n.ID ∈ w := by
      constructor
      · exact hDw _
      · intro h
        exact List.mem_map.2 ⟨n, List.mem_filter.2 ⟨hn, by simpa using h⟩, rfl⟩
    simp [this]
  have hupd : updateAppDataAfterDeletion a.nodes D =
      a.nodes.filter (fun n => decide (n.ID ∉ w)) := by
    unfold updateAppDataAfterDeletion
    by_cases h0 : D.length = 0
    · have hnil : D = [] := List.length_eq_zero.1 h0
      rw [if_pos h0, ← hfilter, hnil]
      simp
    · rw [if_neg h0, updateLoop_eq, hfilter, List.map_congr_left hkeep, List.map_id']
  unfold App.requestNodeDeletion
  rw [heq]
  simp only [hupd, List.map_congr_left hkeep, List.map_id']

theorem addNode_nodes (th : Metrics) (a : App) (data : NodeData) :
    (a.addNode th data).nodes =
      (a.nodes ++ [{ data with Position := placement th a.dialogCanvas data }]).map
        (markBranchSource a.dialogCanvas.selectedBranchSourceID data.ID) := rfl

theorem addNode_canvas_nodes (th : Metrics) (a : App) (data : NodeData) :
    (a.addNode th data).dialogCanvas.nodes =
      (a.dialogCanvas.nodes ++ [{ data with Position := placement th a.dialogCanvas data }]).map
        (markBranchSource a.dialogCanvas.selectedBranchSourceID data.ID) := rfl

theorem addNode_links (th : Metrics) (a : App) (data : NodeData) :
    linksOf (a.addNode th data).nodes = linksOf (a.nodes ++ [data]) := by
  rw [addNode_nodes, linksOf_map_mark, linksOf_append, linksOf_append]
  rfl

theorem addNode_sync (th : Metrics) (a : App) (data : NodeData)
    (hsync : a.dialogCanvas.nodes = a.nodes) :
    (a.addNode th data).dialogCanvas.nodes = (a.addNode th data).nodes := by
  rw [addNode_nodes, addNode_canvas_nodes, hsync]

theorem acyclic_nil : Acyclic ([] : List NodeData) := by
  have hnone : ∀ c p, ¬ PresentParentLink ([] : List NodeData) c p := by
    rintro c p ⟨_, ⟨n, hn, _⟩, _⟩
    simp at hn
  intro x hx
  cases hx with
  | single h => exact hnone _ _ h
  | tail _ h => exact hnone _ _ h

theorem acyclic_congr {l1 l2 : List NodeData} (h : linksOf l1 = linksOf l2)
    (ha : Acyclic l1) : Acyclic l2 := by
  have hrel : ∀ c p, PresentParentLink l2 c p → PresentParentLink l1 c p := by
    rintro c p ⟨hne, hl, hpr⟩
    exact ⟨hne, by rw [parentLink_iff_links, h, ← parentLink_iff_links]; exact hl,
      (present_congr h p).2 hpr⟩
  intro x hx
  exact ha x (Relation.TransGen.mono hrel hx)

theorem acyclic_filter {l : List NodeData} (p : NodeData → Bool) (ha : Acyclic l) :
    Acyclic (l.filter p) := by
  have hrel : ∀ c q, PresentParentLink (l.filter p) c q → PresentParentLink l c q := by
    rintro c q ⟨hne, ⟨n, hn, hnc, hnp⟩, ⟨m, hm, hmi⟩⟩
    exact ⟨hne, ⟨n, (List.mem_filter.1 hn).1, hnc, hnp⟩, ⟨m, (List.mem_filter.1 hm).1, hmi⟩⟩
  intro x hx
  exact ha x (Relation.TransGen.mono hrel hx)

/-- Appending a node whose id no node names as parent, itself included, adds
no cycle: no parent link enters the new id, so every chain of links of the
longer list that starts elsewhere is a chain of the shorter one. -/
theorem acyclic_append_unnamed {l : List NodeData} {d : NodeData} (ha : Acyclic l)
    (hun : ∀ m ∈ l, m.ParentID ≠ d.ID) (hself : d.ParentID ≠ d.ID) :
    Acyclic (l ++ [d]) := by
  have hin : ∀ c p, PresentParentLink (l ++ [d]) c p → p ≠ d.ID := by
    rintro c p ⟨_, ⟨n, hn, _, hnp⟩, _⟩ hp
    rcases List.mem_append.1 hn with h | h
    · exact hun n h (hnp.trans hp)
    · simp only [List.mem_singleton] at h
      rw [h] at hnp
      exact hself (hnp.trans hp)
  have hold : ∀ c p, PresentParentLink (l ++ [d]) c p → c ≠ d.ID → PresentParentLink l c p := by
    intro c p hcp hc
    have hp := hin c p hcp
    obtain ⟨hne, ⟨n, hn, hnc, hnp⟩, ⟨m, hm, hmi⟩⟩ := hcp
    refine ⟨hne, ⟨n, ?_, hnc, hnp⟩, ⟨m, ?_, hmi⟩⟩
    · rcases List.mem_append.1 hn with h | h
      · exact h
      · simp only [List.mem_singleton] at h
        rw [h] at hnc
        exact absurd hnc.symm hc
    · rcases List.mem_append.1 hm with h | h
      · exact h
      · simp only [List.mem_singleton] at h
        rw [h] at hmi
        exact absurd hmi.symm hp
  have key : ∀ x y, Relation.TransGen (PresentParentLink (l ++ [d])) x y →
      y ≠ d.ID ∧ (x ≠ d.ID → Relation.TransGen (PresentParentLink l) x y) := by
    intro x y hxy
    induction hxy with
    | single h => exact ⟨hin _ _ h, fun hx => Relation.TransGen.single (hold _ _ h hx)⟩
    | tail _ h ih =>
      exact ⟨hin _ _ h, fun hx => Relation.TransGen.tail (ih.2 hx) (hold _ _ h ih.1)⟩
  intro x hx
  have hk := key x x hx
  exact ha x (hk.2 hk.1)

theorem unnamedAdd_invariant (th : Metrics) (a : App) (h : ReachableByUnnamedAdd th a) :
    a.dialogCanvas.nodes = a.nodes ∧ Acyclic a.nodes := by
  induction h with
  | init => exact ⟨rfl, acyclic_nil⟩
  | @add a data _ _ hun hself ih =>
    exact ⟨addNode_sync th a data ih.1,
      acyclic_congr (addNode_links th a data).symm (acyclic_append_unnamed ih.2 hun hself)⟩
  | @delete a b x _ hdel ih =>
    obtain ⟨w, _, _, hreq⟩ := requestNodeDeletion_spec a x ih.1
    rw [hreq] at hdel
    have hb : b = { a with
        nodes := a.nodes.filter (fun n => decide (n.ID ∉ w)),
        dialogCanvas :=
          { a.dialogCanvas with nodes := a.nodes.filter (fun n => decide (n.ID ∉ w)) } } :=
      (Option.some.inj hdel).symm
    rw [hb]
    exact ⟨rfl, acyclic_filter _ ih.2⟩

/-- C8 (as amended): in every state reachable from the empty store by add
calls for a node whose id is not already present, is not yet named as parent
id by a node of the store and is not its own parent id (the parent id is not
validated otherwise and may name no node), and by subtree deletions, the
parent relation restricted to the ids present in the store has no cycle. -/
theorem C8_unnamed_adds_keep_acyclic (th : Metrics) (a : App)
    (h : ReachableByUnnamedAdd th a) : Acyclic a.nodes :=
  (unnamedAdd_invariant th a h).2

theorem some_getD_of_isSome {α : Type} (o : Option α) (d : α) (h : o.isSome = true) :
    o = some (o.getD d) := by
  cases o with
  | none => simp at h
  | some v => rfl

theorem reachable_appAB : ReachableByUnnamedAdd myTheme appAB := by
  refine ReachableByUnnamedAdd.add _ (ReachableByUnnamedAdd.add _ ReachableByUnnamedAdd.init ?_ ?_
    ?_) ?_ ?_ ?_
  · unfold Present; decide
  · decide
  · decide
  · unfold Present; decide
  · decide
  · decide

theorem reachable_appDangling : ReachableByUnnamedAdd myTheme appDangling := by
  have hdel : (NewMainApp.addNode myTheme (node "n1" "")).requestNodeDeletion "n1" =
      some (((NewMainApp.addNode myTheme (node "n1" "")).requestNodeDeletion "n1").getD
        NewMainApp) := some_getD_of_isSome _ _ (by decide)
  refine ReachableByUnnamedAdd.add _ (ReachableByUnnamedAdd.delete "n1"
    (ReachableByUnnamedAdd.add _ ReachableByUnnamedAdd.init ?_ ?_ ?_) hdel) ?_ ?_ ?_
  · unfold Present; decide
  · decide
  · decide
  · unfold Present; decide
  · decide
  · decide

/-- C8, two instances: the store holding the root A and its child B, and the
store holding only n2, whose parent id "n1" names a node that was deleted
before n2 was added, are reached by such adds and deletions, and have no
cycle. -/
theorem C8_unnamed_adds_keep_acyclic_witness :
    (ReachableByUnnamedAdd myTheme appAB ∧ linksOf appAB.nodes = [("A", ""), ("B", "A")] ∧
      Acyclic appAB.nodes) ∧
    (ReachableByUnnamedAdd myTheme appDangling ∧ linksOf appDangling.nodes = [("n2", "n1")] ∧
      ¬ Present appDangling.nodes "n1" ∧ Acyclic appDangling.nodes) :=
  ⟨⟨reachable_appAB, by decide, C8_unnamed_adds_keep_acyclic myTheme appAB reachable_appAB⟩,
    ⟨reachable_appDangling, by decide, by unfold Present; decide,
      C8_unnamed_adds_keep_acyclic myTheme appDangling reachable_appDangling⟩⟩

/-- C8, the claim as stated fails: adding A with parent id "B" and then B with
parent id "A", each id being new when it is added, reaches a store in which
A and B are each other's parent. -/
theorem C8_counterexample :
    ReachableByAdd myTheme cyclicApp ∧ linksOf cyclicApp.nodes = [("A", "B"), ("B", "A")] ∧
      ¬ Acyclic cyclicApp.nodes := by
  have hlinks : linksOf cyclicApp.nodes = [("A", "B"), ("B", "A")] := by decide
  refine ⟨?_, hlinks, ?_⟩
  · refine ReachableByAdd.add _ (ReachableByAdd.add _ ReachableByAdd.init ?_) ?_
    · unfold Present; decide
    · unfold Present; decide
  · intro hac
    have hAB : PresentParentLink cyclicApp.nodes "A" "B" :=
      ⟨by decide, by rw [parentLink_iff_links, hlinks]; decide,
        by rw [present_iff_links, hlinks]; decide⟩
    have hBA : PresentParentLink cyclicApp.nodes "B" "A" :=
      ⟨by decide, by rw [parentLink_iff_links, hlinks]; decide,
        by rw [present_iff_links, hlinks]; decide⟩
    exact hac "A" (Relation.TransGen.head hAB (Relation.TransGen.single hBA))

theorem handleSend_spec (th : Metrics) (fuel : Nat) (a b : App) (geminiClient : GeminiClient)
    (currentQuestion newProjectID nodeID now : String)
    (h : a.handleSend th fuel geminiClient currentQuestion newProjectID nodeID now = some b) :
    b = a ∨ ∃ (a1 : App) (data : NodeData), a1.nodes = a.nodes ∧
      a1.dialogCanvas = a.dialogCanvas ∧ data.ParentID = a.dialogCanvas.GetBranchSource ∧
      b = a1.addNode th data := by
  unfold App.handleSend at h
  by_cases hq : currentQuestion = ""
  · rw [if_pos hq] at h
    exact Or.inl (Option.some.inj h).symm
  · rw [if_neg hq] at h
    right
    simp only at h
    split at h
    · exact absurd h (by simp)
    · rename_i conversationHistory _
      by_cases hnew : a.currentProjectID = ""
      · simp only [hnew, decide_True, if_true] at h
        refine ⟨_, _, ?_, ?_, ?_, (Option.some.inj h).symm⟩ <;> rfl
      · simp only [hnew, decide_False, Bool.false_eq_true, if_false] at h
        refine ⟨_, _, ?_, ?_, ?_, (Option.some.inj h).symm⟩ <;> rfl

theorem textLines_ne_nil (s : List Char) : textLines s ≠ [] := by
  cases s with
  | nil => simp [textLines]
  | cons c cs =>
    unfold textLines
    split
    · simp
    · split <;> simp

theorem exists_textLines_cons (s : List Char) : ∃ t ts, textLines s = t :: ts := by
  cases h : textLines s with
  | nil => exact absurd h (textLines_ne_nil s)
  | cons t ts => exact ⟨t, ts, rfl⟩

theorem rawLines_append_lf (s rest : List Char) :
    rawLines (s ++ '\n' :: rest) = textLines s ++ rawLines rest := by
  induction s with
  | nil => simp [rawLines, textLines]
  | cons c cs ih =>
    by_cases hc : c = '\n'
    · simp [rawLines, textLines, hc, ih]
    · obtain ⟨l, ls, hl⟩ := exists_textLines_cons cs
      simp [rawLines, textLines, hc, ih, hl]

theorem rawLines_eq_nil_iff (s : List Char) : rawLines s = [] ↔ s = [] := by
  constructor
  · intro h
    cases s with
    | nil => rfl
    | cons c cs =>
      exfalso
      unfold rawLines at h
      split at h
      · simp at h
      · split at h <;> simp at h
  · rintro rfl; rfl

theorem textLines_eq_rawLines (s : List Char) :
    textLines s = rawLines s ∨ textLines s = rawLines s ++ [[]] := by
  induction s with
  | nil => right; rfl
  | cons c cs ih =>
    by_cases hc : c = '\n'
    · simp only [rawLines, textLines, hc, if_true]
      rcases ih with h | h
      · left; rw [h]
      · right; rw [h]; rfl
    · obtain ⟨t, ts, ht⟩ := exists_textLines_cons cs
      rw [ht] at ih
      cases hr : rawLines cs with
      | nil =>
        rw [hr] at ih
        rcases ih with h | h
        · exact absurd h (by simp)
        · left
          simp only [List.nil_append, List.cons.injEq] at h
          simp [rawLines, textLines, hc, hr, ht, h.1, h.2]
      | cons r rs =>
        rw [hr] at ih
        rcases ih with h | h
        · left
          simp only [List.cons.injEq] at h
          simp [rawLines, textLines, hc, hr, ht, h.1, h.2]
        · right
          simp only [List.cons_append, List.cons.injEq] at h
          simp [rawLines, textLines, hc, hr, ht, h.1, h.2]

theorem rawLines_subset (s : List Char) : ∀ l ∈ rawLines s, l ∈ textLines s := by
  intro l hl
  rcases textLines_eq_rawLines s with h | h
  · rw [h]; exact hl
  · rw [h]; exact List.mem_append_left _ hl

theorem joinLines_cons (x : List Char) {l : List (List Char)} (hl : l ≠ []) :
    joinLines (x :: l) = x ++ '\n' :: joinLines l := by
  cases l with
  | nil => exact absurd rfl hl
  | cons m rest => rfl

theorem joinLines_append {l1 l2 : List (List Char)} (h1 : l1 ≠ []) (h2 : l2 ≠ []) :
    joinLines (l1 ++ l2) = joinLines l1 ++ '\n' :: joinLines l2 := by
  induction l1 with
  | nil => exact absurd rfl h1
  | cons x l ih =>
    cases l with
    | nil => simp [joinLines, joinLines_cons x h2]
    | cons m rest =>
      have hne : (m :: rest) ++ l2 ≠ [] := by simp
      rw [List.cons_append, joinLines_cons x hne, ih (by simp), joinLines_cons x (by simp)]
      simp

theorem joinLines_textLines (s : List Char) : joinLines (textLines s) = s := by
  induction s with
  | nil => rfl
  | cons c cs ih =>
    obtain ⟨t, ts, ht⟩ := exists_textLines_cons cs
    rw [ht] at ih
    by_cases hc : c = '\n'
    · simp only [textLines, hc, if_true, ht]
      rw [joinLines_cons [] (by simp), ih]
      rfl
    · simp only [textLines, hc, if_false, ht]
      cases ts with
      | nil =>
        simp only [joinLines] at ih ⊢
        rw [ih]
      | cons m rest =>
        rw [joinLines_cons _ (by simp)] at ih ⊢
        rw [← ih]
        rfl

theorem joinLines_rawLines (s : List Char) :
    joinLines (rawLines s) = s ∨ joinLines (rawLines s) ++ ['\n'] = s := by
  have hj := joinLines_textLines s
  rcases textLines_eq_rawLines s with h | h
  · left; rw [← h]; exact hj
  · by_cases hr : rawLines s = []
    · left
      have := (rawLines_eq_nil_iff s).1 hr
      subst this
      rfl
    · right
      rw [h, joinLines_append hr (by simp)] at hj
      exact hj

theorem mem_of_mem_textLines (s : List Char) :
    ∀ l ∈ textLines s, ∀ c ∈ l, c ∈ s := by
  induction s with
  | nil => intro l hl c hc; simp [textLines] at hl; subst hl; simp at hc
  | cons d ds ih =>
    intro l hl c hc
    obtain ⟨t, ts, ht⟩ := exists_textLines_cons ds
    by_cases hd : d = '\n'
    · simp only [textLines, hd, if_true, List.mem_cons] at hl
      rcases hl with h | h
      · subst h; simp at hc
      · exact List.mem_cons_of_mem _ (ih l h c hc)
    · simp only [textLines, hd, if_false, ht, List.mem_cons] at hl
      rw [ht] at ih
      rcases hl with h | h
      · subst h
        rcases List.mem_cons.1 hc with h1 | h1
        · rw [h1]; exact List.mem_cons_self _ _
        · exact List.mem_cons_of_mem _ (ih t (List.mem_cons_self _ _) c h1)
      · exact List.mem_cons_of_mem _ (ih l (List.mem_cons_of_mem _ h) c hc)
theorem dropCR_of_not_mem {l : List Char} (h : '\r' ∉ l) : dropCR l = l := by
  unfold dropCR
  rw [if_neg]
  intro hlast
  exact h (List.mem_of_mem_getLast? hlast)

theorem scanTokens_of_short (ls : List (List Char))
    (h : ∀ l ∈ ls, byteLength l < MaxScanTokenSize ∧ '\r' ∉ l) :
    scanTokens ls = (ls.map String.mk, false) := by
  induction ls with
  | nil => rfl
  | cons l ls ih =>
    have hl := h l (List.mem_cons_self _ _)
    have ih1 := ih (fun x hx => h x (List.mem_cons_of_mem _ hx))
    simp [scanTokens, hl.1, dropCR_of_not_mem hl.2, ih1]

theorem parseLine_question {l : List Char} (hl : PlainLine l) (st : ParseState)
    (hq : st.readingQuestion = true) :
    parseLine st ⟨l⟩ = { st with questionLines := st.questionLines ++ [⟨l⟩] } := by
  simp [parseLine, hl.2.2.1, hl.2.2.2.1, hl.2.2.2.2, hq]

theorem parseLine_answer {l : List Char} (hl : PlainLine l) (st : ParseState)
    (hq : st.readingQuestion = false) (ha : st.readingAnswer = true) :
    parseLine st ⟨l⟩ = { st with answerLines := st.answerLines ++ [⟨l⟩] } := by
  simp [parseLine, hl.2.2.1, hl.2.2.2.1, hl.2.2.2.2, hq, ha]

theorem foldl_parseLine_question (ls : List (List Char)) (h : ∀ l ∈ ls, PlainLine l) :
    ∀ (st : ParseState), st.readingQuestion = true →
      (ls.map String.mk).foldl parseLine st =
        { st with questionLines := st.questionLines ++ ls.map String.mk } := by
  induction ls with
  | nil => intro st _; simp
  | cons l ls ih =>
    intro st hq
    rw [List.map_cons, List.foldl_cons, parseLine_question (h l (List.mem_cons_self _ _)) st hq,
      ih (fun x hx => h x (List.mem_cons_of_mem _ hx))
        { st with questionLines := st.questionLines ++ [⟨l⟩] } hq]
    simp

theorem foldl_parseLine_answer (ls : List (List Char)) (h : ∀ l ∈ ls, PlainLine l) :
    ∀ (st : ParseState), st.readingQuestion = false → st.readingAnswer = true →
      (ls.map String.mk).foldl parseLine st =
        { st with answerLines := st.answerLines ++ ls.map String.mk } := by
  induction ls with
  | nil => intro st _ _; simp
  | cons l ls ih =>
    intro st hq ha
    rw [List.map_cons, List.foldl_cons,
      parseLine_answer (h l (List.mem_cons_self _ _)) st hq ha,
      ih (fun x hx => h x (List.mem_cons_of_mem _ hx))
        { st with answerLines := st.answerLines ++ [⟨l⟩] } hq ha]
    simp

theorem join_data (ls : List (List Char)) :
    (strings.Join (ls.map String.mk) "\n").data = joinLines ls := by
  induction ls with
  | nil => rfl
  | cons l ls ih =>
    cases ls with
    | nil => rfl
    | cons m rest =>
      simp only [List.map_cons, strings.Join, String.data_append, joinLines] at ih ⊢
      rw [ih]
      simp

theorem trim_cons_space {c : Char} (hc : unicode.IsSpace c = true) (l : List Char) :
    ((c :: l).dropWhile unicode.IsSpace).rdropWhile unicode.IsSpace =
      (l.dropWhile unicode.IsSpace).rdropWhile unicode.IsSpace := by
  rw [List.dropWhile_cons_of_pos hc]

theorem trim_append_space {c : Char} (hc : unicode.IsSpace c = true) (l : List Char) :
    ((l ++ [c]).dropWhile unicode.IsSpace).rdropWhile unicode.IsSpace =
      (l.dropWhile unicode.IsSpace).rdropWhile unicode.IsSpace := by
  induction l with
  | nil => simp [List.dropWhile_cons_of_pos hc]
  | cons d ds ih =>
    by_cases hd : unicode.IsSpace d = true
    · rw [List.cons_append, List.dropWhile_cons_of_pos hd, List.dropWhile_cons_of_pos hd, ih]
    · rw [List.cons_append, List.dropWhile_cons_of_neg hd, List.dropWhile_cons_of_neg hd,
        ← List.cons_append, List.rdropWhile_concat_pos _ _ _ hc]

theorem lf_isSpace : unicode.IsSpace '\n' = true := by decide

theorem parseLine_questionMarker (st : ParseState) :
    parseLine st "# Question" =
      { st with
        readingQuestion := true,
        readingAnswer := false,
        questionLines := if st.questionLines.length > 0 then [] else st.questionLines } := by
  have h : strings.HasPrefix "# Question" "# Question" = true := by decide
  simp [parseLine, h]

theorem parseLine_answerMarker (st : ParseState) :
    parseLine st "# Answer" =
      { st with
        readingQuestion := false,
        readingAnswer := true,
        answerLines := if st.answerLines.length > 0 then [] else st.answerLines } := by
  have h1 : strings.HasPrefix "# Answer" "# Question" = false := by decide
  have h2 : strings.HasPrefix "# Answer" "# Answer" = true := by decide
  simp [parseLine, h1, h2]

theorem parseLine_rule (st : ParseState) :
    parseLine st "---" = if st.readingQuestion then { st with readingQuestion := false } else st := by
  have h1 : strings.HasPrefix "---" "# Question" = false := by decide
  have h2 : strings.HasPrefix "---" "# Answer" = false := by decide
  have h3 : strings.HasPrefix "---" "---" = true := by decide
  simp [parseLine, h1, h2, h3]

theorem plainLine_nil : PlainLine [] :=
  ⟨by decide, by simp, by decide, by decide, by decide⟩

theorem parseLine_empty_idle (st : ParseState) (hq : st.readingQuestion = false)
    (ha : st.readingAnswer = false) : parseLine st "" = st := by
  have h1 : strings.HasPrefix "" "# Question" = false := by decide
  have h2 : strings.HasPrefix "" "# Answer" = false := by decide
  have h3 : strings.HasPrefix "" "---" = false := by decide
  simp [parseLine, h1, h2, h3, hq, ha]

/-- The raw lines of the content document of a question `Q` and an answer
`A`. -/
theorem rawLines_document (Q A : List Char) :
    rawLines (("# Question\n\n".data ++ Q) ++ "\n\n---\n\n# Answer\n\n".data ++ A) =
      ["# Question".data, []] ++ textLines Q ++
        [[], "---".data, [], "# Answer".data, []] ++ rawLines A := by
  have hsplit : ("# Question\n\n".data ++ Q) ++ "\n\n---\n\n# Answer\n\n".data ++ A =
      "# Question".data ++ '\n' :: ([] ++ '\n' :: (Q ++ '\n' :: ([] ++ '\n' ::
        ("---".data ++ '\n' :: ([] ++ '\n' :: ("# Answer".data ++ '\n' ::
          ([] ++ '\n' :: A))))))) := by
    simp
  have h1 : textLines "# Question".data = ["# Question".data] := by decide
  have h2 : textLines [] = [[]] := rfl
  have h3 : textLines "---".data = ["---".data] := by decide
  have h4 : textLines "# Answer".data = ["# Answer".data] := by decide
  rw [hsplit]
  repeat rw [rawLines_append_lf]
  rw [h1, h2, h3, h4]
  simp

/-- The state in which the scanning loop of `parseMarkdown` ends on the
content document of a question and an answer whose lines are plain. -/
theorem parse_document_state (Q A : List Char) (hQ : ∀ l ∈ textLines Q, PlainLine l)
    (hA : ∀ l ∈ textLines A, PlainLine l) :
    scanTokens (rawLines (("# Question\n\n".data ++ Q) ++ "\n\n---\n\n# Answer\n\n".data ++ A)) =
        (["# Question", ""] ++ (textLines Q).map String.mk ++ ["", "---", "", "# Answer", ""] ++
          (rawLines A).map String.mk, false) ∧
      (["# Question", ""] ++ (textLines Q).map String.mk ++ ["", "---", "", "# Answer", ""] ++
          (rawLines A).map String.mk).foldl parseLine ⟨[], [], false, false⟩ =
        ⟨[""] ++ (textLines Q).map String.mk ++ [""], [""] ++ (rawLines A).map String.mk,
          false, true⟩ := by
  have hRA : ∀ l ∈ rawLines A, PlainLine l := fun l hl => hA l (rawLines_subset A l hl)
  constructor
  · rw [rawLines_document, scanTokens_of_short]
    · simp only [List.map_append, List.map_cons, List.map_nil]
    · intro l hl
      simp only [List.mem_append, List.mem_cons, List.mem_singleton, List.not_mem_nil,
        or_false] at hl
      rcases hl with ((((h | h) | h) | (h | h | h | h | h)) | h)
      · subst h; exact ⟨by decide, by decide⟩
      · subst h; exact ⟨by decide, by decide⟩
      · exact ⟨(hQ l h).1, (hQ l h).2.1⟩
      · subst h; exact ⟨by decide, by decide⟩
      · subst h; exact ⟨by decide, by decide⟩
      · subst h; exact ⟨by decide, by decide⟩
      · subst h; exact ⟨by decide, by decide⟩
      · subst h; exact ⟨by decide, by decide⟩
      · exact ⟨(hRA l h).1, (hRA l h).2.1⟩
  · have e0 : ("" : String) = String.mk [] := rfl
    generalize hQs : (textLines Q).map String.mk = Qs at *
    have s1 : List.foldl parseLine ⟨[], [], false, false⟩ ["# Question", ""] =
        ⟨[""], [], true, false⟩ := by decide
    have s2 : List.foldl parseLine ⟨[""], [], true, false⟩ Qs = ⟨[""] ++ Qs, [], true, false⟩ := by
      rw [← hQs]
      exact foldl_parseLine_question _ hQ _ rfl
    have a1 : parseLine ⟨[""] ++ Qs, [], true, false⟩ "" =
        ⟨[""] ++ Qs ++ [""], [], true, false⟩ := by
      rw [e0, parseLine_question plainLine_nil _ rfl]
    have a2 : parseLine ⟨[""] ++ Qs ++ [""], [], true, false⟩ "---" =
        ⟨[""] ++ Qs ++ [""], [], false, false⟩ := by
      rw [parseLine_rule]
      rfl
    have a3 : parseLine ⟨[""] ++ Qs ++ [""], [], false, false⟩ "" =
        ⟨[""] ++ Qs ++ [""], [], false, false⟩ := parseLine_empty_idle _ rfl rfl
    have a4 : parseLine ⟨[""] ++ Qs ++ [""], [], false, false⟩ "# Answer" =
        ⟨[""] ++ Qs ++ [""], [], false, true⟩ := by
      rw [parseLine_answerMarker]
      rfl
    have a5 : parseLine ⟨[""] ++ Qs ++ [""], [], false, true⟩ "" =
        ⟨[""] ++ Qs ++ [""], [""], false, true⟩ := by
      rw [e0, parseLine_answer plainLine_nil _ rfl rfl]
      rfl
    have s3 : List.foldl parseLine ⟨[""] ++ Qs ++ [""], [""], false, true⟩
        ((rawLines A).map String.mk) =
        ⟨[""] ++ Qs ++ [""], [""] ++ (rawLines A).map String.mk, false, true⟩ :=
      foldl_parseLine_answer _ hRA _ rfl rfl
    rw [List.foldl_append, List.foldl_append, List.foldl_append, s1, s2]
    simp only [List.foldl_cons, List.foldl_nil]
    rw [a1, a2, a3, a4, a5, s3]
theorem trim_question_lines (Q : List Char) :
    (strings.TrimSpace (strings.Join ([""] ++ (textLines Q).map String.mk ++ [""]) "\n")) =
      strings.TrimSpace ⟨Q⟩ := by
  have e : [""] ++ (textLines Q).map String.mk ++ [""] =
      (([] :: textLines Q) ++ [[]]).map String.mk := by
    simp
  unfold strings.TrimSpace
  rw [e, join_data, joinLines_append (by simp) (by simp),
    joinLines_cons [] (textLines_ne_nil Q), joinLines_textLines]
  congr 1
  show ((('\n' :: Q) ++ ['\n']).dropWhile unicode.IsSpace).rdropWhile unicode.IsSpace = _
  rw [trim_append_space lf_isSpace, trim_cons_space lf_isSpace]

theorem trim_answer_lines (A : List Char) :
    (strings.TrimSpace (strings.Join ([""] ++ (rawLines A).map String.mk) "\n")) =
      strings.TrimSpace ⟨A⟩ := by
  have e : [""] ++ (rawLines A).map String.mk = ([] :: rawLines A).map String.mk := by
    simp
  unfold strings.TrimSpace
  rw [e, join_data]
  congr 1
  by_cases hr : rawLines A = []
  · have hA : A = [] := (rawLines_eq_nil_iff A).1 hr
    subst hA
    rfl
  · rw [joinLines_cons [] hr]
    show (('\n' :: joinLines (rawLines A)).dropWhile unicode.IsSpace).rdropWhile unicode.IsSpace = _
    rw [trim_cons_space lf_isSpace]
    rcases joinLines_rawLines A with h | h
    · rw [h]
    · conv_rhs => rw [← h]
      rw [trim_append_space lf_isSpace]

/-- The content document of a question and an answer whose lines are plain is
read back as the question and the answer without their leading and trailing
white space. -/
theorem parseMarkdown_mdContent (q a : String) (hq : PlainText q) (ha : PlainText a) :
    parseMarkdown (.ok (mdContent q a)) = .ok (strings.TrimSpace q, strings.TrimSpace a) := by
  have hdata : (mdContent q a).data =
      ("# Question\n\n".data ++ q.data) ++ "\n\n---\n\n# Answer\n\n".data ++ a.data := by
    simp [mdContent, String.data_append]
  obtain ⟨h1, h2⟩ := parse_document_state q.data a.data hq ha
  unfold parseMarkdown
  simp only [hdata, h1, h2, Bool.false_eq_true, if_false]
  rw [trim_question_lines, trim_answer_lines]

/-- C3 (as amended): for a question and an answer all of whose lines are plain
(shorter than the scanner's limit, without carriage return, not beginning with
"# Question", "# Answer" or "---"), writing the content document in the format
of `saveData` and reading it back with `parseMarkdown` returns the question
and the answer with their leading and trailing white space removed, and so
exactly the same question and answer when they have none. -/
theorem C3_roundtrip_up_to_trim (q a : String) (hq : PlainText q) (ha : PlainText a) :
    parseMarkdown (.ok (mdContent q a)) = .ok (strings.TrimSpace q, strings.TrimSpace a) ∧
      (strings.TrimSpace q = q → strings.TrimSpace a = a →
        parseMarkdown (.ok (mdContent q a)) = .ok (q, a)) := by
  have h := parseMarkdown_mdContent q a hq ha
  refine ⟨h, ?_⟩
  intro h1 h2
  rw [h, h1, h2]

/-- C3, an instance: a two-line question and an answer are read back
unchanged. -/
theorem C3_roundtrip_up_to_trim_witness :
    PlainText "What is Lean?\nAnd Mathlib?" ∧ PlainText "A prover." ∧
      parseMarkdown (.ok (mdContent "What is Lean?\nAnd Mathlib?" "A prover.")) =
        .ok ("What is Lean?\nAnd Mathlib?", "A prover.") :=
  ⟨by unfold PlainText PlainLine; decide, by unfold PlainText PlainLine; decide,
    (C3_roundtrip_up_to_trim "What is Lean?\nAnd Mathlib?" "A prover."
      (by unfold PlainText PlainLine; decide) (by unfold PlainText PlainLine; decide)).2
      (by decide) (by decide)⟩

/-- C3, the claim as stated fails: a question with a leading blank is read
back without it, an answer line "---" is dropped, and an answer line
"# Answer" discards the answer lines before it. -/
theorem C3_counterexample :
    parseMarkdown (.ok (mdContent " q" "a")) = .ok ("q", "a") ∧
      parseMarkdown (.ok (mdContent "q" "a\n---\nb")) = .ok ("q", "a\nb") ∧
      parseMarkdown (.ok (mdContent "q" "a\n# Answer\nb")) = .ok ("q", "b") := by
  refine ⟨?_, ?_, ?_⟩ <;> rfl

/-! ## Placement on the grid -/

theorem canvasParentChild_links :
    canvasParentChild.nodes.map (fun n => (n.ID, n.ParentID)) = [("A", ""), ("B", "A")] := by
  decide

theorem installNodes_source (th : Metrics) (l : List NodeData) :
    ∀ (acc : DialogCanvas × List NodeData),
      (l.foldl
        (fun acc nodeData =>
          let r := acc.1.AddNode th nodeData
          (r.1, acc.2 ++ [r.2])) acc).1.selectedBranchSourceID =
        acc.1.selectedBranchSourceID := by
  induction l with
  | nil => intro acc; rfl
  | cons n l ih =>
    intro acc
    rw [List.foldl_cons, ih]
    rfl

theorem loadProjectData_source (th : Metrics) (a : App) (projectID : String)
    (index : IndexFile) (readFile : String → Except String String) :
    (loadProjectData th a projectID index readFile).dialogCanvas.GetBranchSource =
      a.dialogCanvas.GetBranchSource := by
  unfold loadProjectData
  by_cases hp : projectID = ""
  · simp [hp, App.clearCurrentProjectState, DialogCanvas.Clear, DialogCanvas.GetBranchSource]
  · cases index with
    | notExist =>
      simp [hp, App.clearCurrentProjectState, DialogCanvas.Clear, DialogCanvas.GetBranchSource]
    | unreadable e =>
      simp [hp, App.clearCurrentProjectState, DialogCanvas.Clear, DialogCanvas.GetBranchSource]
    | malformed e =>
      simp [hp, App.clearCurrentProjectState, DialogCanvas.Clear, DialogCanvas.GetBranchSource]
    | parsed tree =>
      simp only [hp, if_false, DialogCanvas.GetBranchSource, installNodes]
      rw [installNodes_source]
      rfl

/-- C12 (the code on every input): `DialogCanvas.Clear`,
`clearCurrentProjectState` and `loadProjectData` leave the selected branch
source as it was; after a question was sent, which selects its node n1, a new
project and a load both still answer "n1" to `GetBranchSource`. -/
theorem C12_selection_survives_clear (th : Metrics) (a : App) (projectID : String)
    (index : IndexFile) (readFile : String → Except String String) :
    a.dialogCanvas.Clear.GetBranchSource = a.dialogCanvas.GetBranchSource ∧
      a.clearCurrentProjectState.dialogCanvas.GetBranchSource = a.dialogCanvas.GetBranchSource ∧
      (loadProjectData th a projectID index readFile).dialogCanvas.GetBranchSource =
        a.dialogCanvas.GetBranchSource ∧
      afterFirstSend.dialogCanvas.GetBranchSource = "n1" ∧
      afterFirstSend.newProject.dialogCanvas.GetBranchSource = "n1" ∧
      (loadProjectData myTheme afterFirstSend "p1" (.parsed indexOfB) readQA).dialogCanvas.GetBranchSource
        = "n1" := by
  have h0 : afterFirstSend.dialogCanvas.GetBranchSource = "n1" := by decide
  refine ⟨rfl, rfl, loadProjectData_source th a projectID index readFile, h0, ?_, ?_⟩
  · exact h0
  · rw [loadProjectData_source]
    exact h0

/-- C16: when the structural index does not exist, cannot be read or cannot
be parsed, `loadProjectData` leaves the project in the reset state, whatever
was open before: no node in the store nor on the canvas, and an empty project
id and name. In the instance, a project with one node is open when the load
fails. -/
theorem C16_failed_load_resets_state (th : Metrics) (a : App) (projectID err : String)
    (readFile : String → Except String String) :
    ResetToEmpty (loadProjectData th a projectID .notExist readFile) ∧
      ResetToEmpty (loadProjectData th a projectID (.unreadable err) readFile) ∧
      ResetToEmpty (loadProjectData th a projectID (.malformed err) readFile) ∧
      afterFirstSend.nodes.length = 1 ∧ afterFirstSend.currentProjectID = "p1" ∧
      ResetToEmpty (loadProjectData myTheme afterFirstSend "p2" (.malformed "yaml: bad") readQA) := by
  have h : ∀ (th : Metrics) (a : App) (projectID : String) (index : IndexFile)
      (readFile : String → Except String String),
      index = IndexFile.notExist ∨ index = IndexFile.unreadable err ∨
        index = IndexFile.malformed err →
      ResetToEmpty (loadProjectData th a projectID index readFile) := by
    intro th a projectID index readFile hindex
    unfold ResetToEmpty loadProjectData
    by_cases hp : projectID = ""
    · simp [hp, App.clearCurrentProjectState, DialogCanvas.Clear]
    · rcases hindex with h | h | h <;> subst h <;>
        simp [hp, App.clearCurrentProjectState, DialogCanvas.Clear]
  refine ⟨h _ _ _ _ _ (Or.inl rfl), h _ _ _ _ _ (Or.inr (Or.inl rfl)),
    h _ _ _ _ _ (Or.inr (Or.inr rfl)), by decide, by decide, ?_⟩
  simp [ResetToEmpty, loadProjectData, App.clearCurrentProjectState, DialogCanvas.Clear]

/-! ## Truncation of titles -/

theorem truncateText_eq (s : String) (maxLen : Nat) :
    TruncateText s maxLen =
      if s.data.length > maxLen then
        if maxLen > 3 then ⟨s.data.take (maxLen - 3)⟩ ++ "..." else ⟨s.data.take maxLen⟩
      else s := rfl

theorem truncateText_length_le (s : String) (maxLen : Nat) :
    (TruncateText s maxLen).length ≤ maxLen := by
  have hlen : s.length = s.data.length := rfl
  rw [truncateText_eq]
  by_cases h : s.data.length > maxLen
  · by_cases h3 : maxLen > 3
    · rw [if_pos h, if_pos h3, String.length_append]
      show (s.data.take (maxLen - 3)).length + 3 ≤ maxLen
      rw [List.length_take]
      omega
    · rw [if_pos h, if_neg h3]
      show (s.data.take maxLen).length ≤ maxLen
      rw [List.length_take]
      omega
  · rw [if_neg h, hlen]
    omega

/-- C19: `TruncateText s maxLen` has at most `maxLen` runes; it is `s` when
`s` has at most `maxLen` runes, and otherwise the first `maxLen - 3` runes of
`s` followed by "..." when `maxLen > 3`, or the first `maxLen` runes of `s`
when `maxLen ≤ 3`. -/
theorem C19_truncateText (s : String) (maxLen : Nat) :
    (TruncateText s maxLen).length ≤ maxLen ∧
      (s.length ≤ maxLen → TruncateText s maxLen = s) ∧
      (maxLen < s.length → 3 < maxLen →
        TruncateText s maxLen = ⟨s.data.take (maxLen - 3)⟩ ++ "...") ∧
      (maxLen < s.length → maxLen ≤ 3 → TruncateText s maxLen = ⟨s.data.take maxLen⟩) := by
  have hlen : s.length = s.data.length := rfl
  refine ⟨truncateText_length_le s maxLen, ?_, ?_, ?_⟩
  · intro h
    rw [hlen] at h
    rw [truncateText_eq, if_neg (by omega)]
  · intro h h3
    rw [hlen] at h
    rw [truncateText_eq, if_pos h, if_pos h3]
  · intro h h3
    rw [hlen] at h
    rw [truncateText_eq, if_pos h, if_neg (by omega)]

/-! ## The node that a sent question produces -/

theorem markBranchSource_texts (p i : String) (d : NodeData) :
    (markBranchSource p i d).Title = d.Title ∧ (markBranchSource p i d).Question = d.Question ∧
      (markBranchSource p i d).Answer = d.Answer := by
  simp only [markBranchSource]
  split <;> exact ⟨rfl, rfl, rfl⟩

theorem addNode_last (th : Metrics) (a : App) (data : NodeData) :
    ∃ n, (a.addNode th data).nodes.getLast? = some n ∧
      (a.addNode th data).nodes.length = a.nodes.length + 1 ∧
      n.ID = data.ID ∧ n.ParentID = data.ParentID ∧ n.Title = data.Title ∧
      n.Question = data.Question ∧ n.Answer = data.Answer := by
  refine ⟨markBranchSource a.dialogCanvas.selectedBranchSourceID data.ID
    { data with Position := placement th a.dialogCanvas data }, ?_, ?_, ?_, ?_, ?_, ?_, ?_⟩
  · rw [addNode_nodes, List.map_append]
    simp
  · rw [addNode_nodes]
    simp
  · rw [markBranchSource_ID]
  · rw [markBranchSource_ParentID]
  · rw [(markBranchSource_texts _ _ _).1]
  · rw [(markBranchSource_texts _ _ _).2.1]
  · rw [(markBranchSource_texts _ _ _).2.2]

/-- The node that `handleSend` produces for a non-empty question once the
history of the branch source has been built. -/
theorem handleSend_produces (th : Metrics) (fuel : Nat) (a : App) (geminiClient : GeminiClient)
    (currentQuestion newProjectID nodeID now conversationHistory : String)
    (hq : currentQuestion ≠ "")
    (hhist : (if a.dialogCanvas.GetBranchSource ≠ "" then
        getConversationHistory fuel a.nodes a.dialogCanvas.GetBranchSource else some "") =
      some conversationHistory) :
    ∃ b n, a.handleSend th fuel geminiClient currentQuestion newProjectID nodeID now = some b ∧
      b.nodes.getLast? = some n ∧ b.nodes.length = a.nodes.length + 1 ∧
      n.ID = nodeID ∧ n.ParentID = a.dialogCanvas.GetBranchSource ∧
      n.Question = currentQuestion ∧
      n.Title = (titleAndContent (answerTextOf geminiClient
        (fullPrompt conversationHistory currentQuestion) currentQuestion)).1 ∧
      n.Answer = (titleAndContent (answerTextOf geminiClient
        (fullPrompt conversationHistory currentQuestion) currentQuestion)).2 := by
  unfold App.handleSend
  rw [if_neg hq]
  simp only [hhist]
  by_cases hnew : a.currentProjectID = ""
  · simp only [hnew, decide_True, if_true]
    obtain ⟨n, h1, h2, h3, h4, h5, h6, h7⟩ := addNode_last th
      { a with
        currentProjectID := newProjectID,
        currentProjectName :=
          if (titleAndContent (answerTextOf geminiClient
            (fullPrompt conversationHistory currentQuestion) currentQuestion)).1 = "" then
            "New Project - " ++ now
          else (titleAndContent (answerTextOf geminiClient
            (fullPrompt conversationHistory currentQuestion) currentQuestion)).1 }
      { ID := nodeID,
        Title := (titleAndContent (answerTextOf geminiClient
          (fullPrompt conversationHistory currentQuestion) currentQuestion)).1,
        Question := currentQuestion,
        Answer := (titleAndContent (answerTextOf geminiClient
          (fullPrompt conversationHistory currentQuestion) currentQuestion)).2,
        Position := ⟨0, 0⟩, Expanded := false, ParentID := a.dialogCanvas.GetBranchSource,
        IsBranchSource := false }
    exact ⟨_, n, rfl, h1, h2, h3, h4, h6, h5, h7⟩
  · simp only [hnew, decide_False, Bool.false_eq_true, if_false]
    obtain ⟨n, h1, h2, h3, h4, h5, h6, h7⟩ := addNode_last th a
      { ID := nodeID,
        Title := (titleAndContent (answerTextOf geminiClient
          (fullPrompt conversationHistory currentQuestion) currentQuestion)).1,
        Question := currentQuestion,
        Answer := (titleAndContent (answerTextOf geminiClient
          (fullPrompt conversationHistory currentQuestion) currentQuestion)).2,
        Position := ⟨0, 0⟩, Expanded := false, ParentID := a.dialogCanvas.GetBranchSource,
        IsBranchSource := false }
    exact ⟨_, n, rfl, h1, h2, h3, h4, h6, h5, h7⟩

theorem string_length_pos_of_ne {s : String} (h : s ≠ "") : 1 ≤ s.length := by
  have hlen : s.length = s.data.length := rfl
  rw [hlen]
  cases hd : s.data with
  | nil =>
    exfalso
    apply h
    exact String.ext hd
  | cons c cs => simp

theorem titleAndContent_title_bounds (answerText : String) :
    1 ≤ (titleAndContent answerText).1.length ∧
      (titleAndContent answerText).1.length ≤ nodeTitleMaxLength * 2 := by
  obtain ⟨X, hX⟩ : ∃ X : String, (titleAndContent answerText).1 =
      if TruncateText X (nodeTitleMaxLength * 2) = "" then "無題のノード"
      else TruncateText X (nodeTitleMaxLength * 2) := ⟨_, rfl⟩
  rw [hX]
  by_cases h : TruncateText X (nodeTitleMaxLength * 2) = ""
  · rw [if_pos h]
    exact ⟨by decide, by decide⟩
  · rw [if_neg h]
    exact ⟨string_length_pos_of_ne h, truncateText_length_le _ _⟩

/-- C18: for every response text, the title that `handleSend` derives has at
least 1 and at most 50 (`nodeTitleMaxLength * 2`) runes, and so has the title
of the node it produces for a non-empty question. -/
theorem C18_title_bounded_nonempty (answerText : String) (th : Metrics) (fuel : Nat) (a b : App)
    (geminiClient : GeminiClient) (currentQuestion newProjectID nodeID now : String) :
    1 ≤ (titleAndContent answerText).1.length ∧
      (titleAndContent answerText).1.length ≤ 50 ∧
      (currentQuestion ≠ "" →
        a.handleSend th fuel geminiClient currentQuestion newProjectID nodeID now = some b →
        ∃ n, b.nodes.getLast? = some n ∧ 1 ≤ n.Title.length ∧ n.Title.length ≤ 50) ∧
      (titleAndContent "").1 = "無題のノード" := by
  refine ⟨(titleAndContent_title_bounds answerText).1,
    (titleAndContent_title_bounds answerText).2, ?_, by decide⟩
  intro hq hsend
  have hsome : ∃ hist, (if a.dialogCanvas.GetBranchSource ≠ "" then
      getConversationHistory fuel a.nodes a.dialogCanvas.GetBranchSource else some "") =
      some hist := by
    cases hh : (if a.dialogCanvas.GetBranchSource ≠ "" then
      getConversationHistory fuel a.nodes a.dialogCanvas.GetBranchSource else some "") with
    | some hist => exact ⟨hist, rfl⟩
    | none =>
      exfalso
      unfold App.handleSend at hsend
      rw [if_neg hq] at hsend
      simp only [hh] at hsend
      exact absurd hsend (by simp)
  obtain ⟨hist, hh⟩ := hsome
  obtain ⟨b1, n, h1, h2, _, _, _, _, h7, _⟩ :=
    handleSend_produces th fuel a geminiClient currentQuestion newProjectID nodeID now hist hq hh
  rw [h1] at hsend
  have hb : b1 = b := Option.some.inj hsend
  subst hb
  refine ⟨n, h2, ?_, ?_⟩
  · rw [h7]; exact (titleAndContent_title_bounds _).1
  · rw [h7]; exact (titleAndContent_title_bounds _).2

/-! ## Termination of the subtree traversal -/

theorem collect_nodup (nodes : List NodeData) :
    ∀ (fuel : Nat) (v : List String) (cur : String) (w : List String),
      collectDescendants nodes fuel v cur = some w → v.Nodup → w.Nodup := by
  intro fuel
  induction fuel with
  | zero => intro v cur w h; simp [collectDescendants] at h
  | succ fuel ih =>
    intro v cur w h hv
    by_cases hmem : cur ∈ v
    · simp only [collectDescendants, hmem, if_true, Option.some.injEq] at h
      rw [← h]; exact hv
    · simp only [collectDescendants, hmem, if_false] at h
      have loop : ∀ (l : List NodeData) (v0 w0 : List String),
          l.foldlM
            (fun visited nWidget =>
              if nWidget.ParentID = cur then collectDescendants nodes fuel visited nWidget.ID
              else some visited) v0 = some w0 → v0.Nodup → w0.Nodup := by
        intro l
        induction l with
        | nil =>
          intro v0 w0 h0 hv0
          simp only [List.foldlM_nil, pure, Option.some.injEq] at h0
          rw [← h0]; exact hv0
        | cons n l ihl =>
          intro v0 w0 h0 hv0
          rw [foldlM_option_cons] at h0
          by_cases hp : n.ParentID = cur
          · simp only [hp, if_true] at h0
            cases hc : collectDescendants nodes fuel v0 n.ID with
            | none => rw [hc] at h0; simp at h0
            | some v1 =>
              rw [hc] at h0
              exact ihl v1 w0 (by simpa using h0) (ih v0 n.ID v1 hc hv0)
          · simp only [hp, if_false] at h0
            exact ihl v0 w0 (by simpa using h0) hv0
      exact loop nodes (cur :: v) w h (List.nodup_cons.2 ⟨hmem, hv⟩)

/-- C15: for every node list, whatever its parent links (cycles and
self-parents included), and every start id, the traversal of
`RemoveNodeAndDescendants` ends: the visited set is returned with each id in it
once, it is the closure of the start id, and the returned list holds the id of
each removed node once, in the order of the canvas (so without repetition when
the ids of the nodes are unique). In the instances, the two-node cycle A, B
and the self-parent S are removed entirely. -/
theorem C15_traversal_cycle_safe (dc : DialogCanvas) (x : String) :
    (∃ visited removed dc1,
      collectDescendants dc.nodes (dc.nodes.length + 2) [] x = some visited ∧
      visited.Nodup ∧ (∀ y, y ∈ visited ↔ DescendantOrSelf dc.nodes x y) ∧
      dc.RemoveNodeAndDescendants x = some (removed, dc1) ∧
      removed = (dc.nodes.filter (fun n => decide (n.ID ∈ visited))).map (fun n => n.ID) ∧
      dc1.nodes = dc.nodes.filter (fun n => decide (n.ID ∉ visited)) ∧
      removed.length + dc1.nodes.length = dc.nodes.length ∧
      (UniqueIDs dc.nodes → removed.Nodup)) ∧
    (cyclicApp.dialogCanvas.RemoveNodeAndDescendants "A").map
        (fun r => (r.1, r.2.nodes.map (fun n => n.ID))) = some (["A", "B"], []) ∧
    (DialogCanvas.mk [node "S" "S"] "").RemoveNodeAndDescendants "S" = some (["S"], ⟨[], ""⟩) := by
  refine ⟨?_, by decide, by decide⟩
  obtain ⟨w, hw, hspec⟩ := collect_top dc.nodes x
  have hx : x ∈ w := (hspec x).2 Relation.ReflTransGen.refl
  have hne : w.length ≠ 0 := by
    intro h
    rw [List.length_eq_zero] at h
    rw [h] at hx
    simp at hx
  refine ⟨w, (dc.nodes.filter (fun n => decide (n.ID ∈ w))).map (fun n => n.ID),
    { dc with nodes := dc.nodes.filter (fun n => decide (n.ID ∉ w)) },
    hw, collect_nodup dc.nodes _ [] x w hw List.nodup_nil, hspec, ?_, rfl, rfl, ?_, ?_⟩
  · simp [DialogCanvas.RemoveNodeAndDescendants, hw, hne, removeLoop_eq]
  · rw [List.length_map]
    have := List.length_eq_length_filter_add (l := dc.nodes) (fun n => decide (n.ID ∈ w))
    simp only [Bool.not_eq_true', decide_eq_false_iff_not] at this
    simp only [decide_not]
    rw [this]
  · intro hu
    exact List.Nodup.sublist (List.Sublist.map _ (List.filter_sublist _)) hu

/-! ## Content documents that cannot be read -/

theorem loadNodeTexts_eq_map (projectID : String) (readFile : String → Except String String)
    (nodes : List NodeData) :
    loadNodeTexts projectID readFile nodes =
      nodes.map (fun node =>
        match parseMarkdown (readFile (mdPath projectID node.ID)) with
        | .ok (q, ans) => { node with Question := q, Answer := ans }
        | .error errMd =>
          { node with
            Question := "(質問読み込みエラー)",
            Answer := "Markdownファイル '" ++ mdPath projectID node.ID ++
              "' の読み込みに失敗しました: " ++ errMd }) := by
  unfold loadNodeTexts
  have gen : ∀ (l acc : List NodeData),
      l.foldl
        (fun loadedNodes node =>
          let path := mdPath projectID node.ID
          match parseMarkdown (readFile path) with
          | .ok (q, ans) => loadedNodes ++ [{ node with Question := q, Answer := ans }]
          | .error errMd =>
            loadedNodes ++ [{ node with
              Question := "(質問読み込みエラー)",
              Answer := "Markdownファイル '" ++ path ++ "' の読み込みに失敗しました: " ++ errMd }])
        acc =
      acc ++ l.map (fun node =>
        match parseMarkdown (readFile (mdPath projectID node.ID)) with
        | .ok (q, ans) => { node with Question := q, Answer := ans }
        | .error errMd =>
          { node with
            Question := "(質問読み込みエラー)",
            Answer := "Markdownファイル '" ++ mdPath projectID node.ID ++
              "' の読み込みに失敗しました: " ++ errMd }) := by
    intro l
    induction l with
    | nil => intro acc; simp
    | cons n l ih =>
      intro acc
      rw [List.foldl_cons, ih, List.map_cons]
      cases hpm : parseMarkdown (readFile (mdPath projectID n.ID)) with
      | error e => simp [hpm]
      | ok r => obtain ⟨q, ans⟩ := r; simp [hpm]
  simpa using gen nodes []

theorem installNodes_texts (th : Metrics) (l : List NodeData) :
    ∀ (acc : DialogCanvas × List NodeData),
      (l.foldl
        (fun acc nodeData =>
          let r := acc.1.AddNode th nodeData
          (r.1, acc.2 ++ [r.2])) acc).2.map
          (fun n => (n.ID, n.ParentID, n.Question, n.Answer)) =
        acc.2.map (fun n => (n.ID, n.ParentID, n.Question, n.Answer)) ++
          l.map (fun n => (n.ID, n.ParentID, n.Question, n.Answer)) := by
  induction l with
  | nil => intro acc; simp
  | cons n l ih =>
    intro acc
    rw [List.foldl_cons, ih]
    simp [DialogCanvas.AddNode]

theorem loadProjectData_texts (th : Metrics) (a : App) (projectID : String) (tree : TreeData)
    (readFile : String → Except String String) (hp : projectID ≠ "") :
    (loadProjectData th a projectID (.parsed tree) readFile).nodes.map
        (fun n => (n.ID, n.ParentID, n.Question, n.Answer)) =
      (loadNodeTexts projectID readFile tree.Nodes).map
        (fun n => (n.ID, n.ParentID, n.Question, n.Answer)) := by
  simp only [loadProjectData, hp, if_false, installNodes]
  rw [installNodes_texts]
  rfl

theorem foldl_parseLine_no_markers (ls : List String)
    (h : ∀ line ∈ ls, strings.HasPrefix line "# Question" = false ∧
      strings.HasPrefix line "# Answer" = false) :
    ls.foldl parseLine ⟨[], [], false, false⟩ = ⟨[], [], false, false⟩ := by
  induction ls with
  | nil => rfl
  | cons l ls ih =>
    have hl := h l (List.mem_cons_self _ _)
    have step : parseLine ⟨[], [], false, false⟩ l = ⟨[], [], false, false⟩ := by
      simp [parseLine, hl.1, hl.2]
    rw [List.foldl_cons, step]
    exact ih (fun x hx => h x (List.mem_cons_of_mem _ hx))

theorem scanTokens_tooLong_iff (ls : List (List Char)) :
    (scanTokens ls).2 = true ↔ ∃ l ∈ ls, MaxScanTokenSize ≤ byteLength l := by
  induction ls with
  | nil => simp [scanTokens]
  | cons l ls ih =>
    by_cases hl : byteLength l < MaxScanTokenSize
    · simp only [scanTokens, hl, if_true, ih, List.mem_cons]
      constructor
      · rintro ⟨x, hx, hlen⟩
        exact ⟨x, Or.inr hx, hlen⟩
      · rintro ⟨x, hx | hx, hlen⟩
        · rw [hx] at hlen; omega
        · exact ⟨x, hx, hlen⟩
    · simp only [scanTokens, hl, if_false, true_iff]
      exact ⟨l, List.mem_cons_self _ _, by omega⟩

theorem scanTokens_of_all_short (ls : List (List Char))
    (h : ∀ l ∈ ls, byteLength l < MaxScanTokenSize) :
    scanTokens ls = (ls.map (fun l => String.mk (dropCR l)), false) := by
  induction ls with
  | nil => rfl
  | cons l ls ih =>
    have hl := h l (List.mem_cons_self _ _)
    have ih1 := ih (fun x hx => h x (List.mem_cons_of_mem _ hx))
    simp [scanTokens, hl, ih1]

theorem parseMarkdown_no_markers (content : String)
    (hs : ∀ raw ∈ rawLines content.data, byteLength raw < MaxScanTokenSize)
    (h : ∀ raw ∈ rawLines content.data,
      strings.HasPrefix ⟨dropCR raw⟩ "# Question" = false ∧
        strings.HasPrefix ⟨dropCR raw⟩ "# Answer" = false) :
    parseMarkdown (.ok content) = .ok ("", "") := by
  have hlines : ∀ line ∈ (rawLines content.data).map (fun l => String.mk (dropCR l)),
      strings.HasPrefix line "# Question" = false ∧ strings.HasPrefix line "# Answer" = false := by
    intro line hline
    obtain ⟨raw, hraw, rfl⟩ := List.mem_map.1 hline
    exact h raw hraw
  simp only [parseMarkdown, scanTokens_of_all_short _ hs, foldl_parseLine_no_markers _ hlines]
  rfl

theorem parseMarkdown_error_iff (content : String) :
    (∃ e, parseMarkdown (.ok content) = .error e) ↔
      ∃ raw ∈ rawLines content.data, MaxScanTokenSize ≤ byteLength raw := by
  rw [← scanTokens_tooLong_iff]
  simp only [parseMarkdown]
  cases hs : (scanTokens (rawLines content.data)).2 <;> simp

theorem parseMarkdown_error_text (content e : String)
    (h : parseMarkdown (.ok content) = .error e) : e = ErrTooLong := by
  simp only [parseMarkdown] at h
  cases hs : (scanTokens (rawLines content.data)).2
  · rw [hs] at h; simp at h
  · rw [hs] at h
    simp only [if_true, Except.error.injEq] at h
    exact h.symm

theorem rawLines_replicate_x (n : Nat) :
    rawLines (List.replicate (n + 1) 'x') = [List.replicate (n + 1) 'x'] := by
  induction n with
  | zero => rfl
  | succ n ih =>
    rw [List.replicate_succ, rawLines, if_neg (by decide), ih]

theorem byteLength_replicate_x (n : Nat) : byteLength (List.replicate n 'x') = n := by
  induction n with
  | zero => rfl
  | succ n ih =>
    have h : byteLength ('x' :: List.replicate n 'x') = byteLength (List.replicate n 'x') + 1 := rfl
    rw [List.replicate_succ, h, ih]

theorem dropCR_replicate_x (n : Nat) :
    dropCR (List.replicate n 'x') = List.replicate n 'x' := by
  apply dropCR_of_not_mem
  intro h
  have := List.eq_of_mem_replicate h
  exact absurd this (by decide)

theorem parseMarkdown_longLine :
    parseMarkdown (.ok ⟨List.replicate 65536 'x'⟩) = .error ErrTooLong := by
  have hr : rawLines (List.replicate 65536 'x') = [List.replicate 65536 'x'] :=
    rawLines_replicate_x 65535
  have hb : MaxScanTokenSize ≤ byteLength (List.replicate 65536 'x') := by
    rw [byteLength_replicate_x]; decide
  obtain ⟨e, he⟩ := (parseMarkdown_error_iff ⟨List.replicate 65536 'x'⟩).2
    ⟨List.replicate 65536 'x', by rw [hr]; exact List.mem_singleton.2 rfl, hb⟩
  rw [he, parseMarkdown_error_text _ e he]

theorem parseMarkdown_longestLine :
    parseMarkdown (.ok ⟨List.replicate 65535 'x'⟩) = .ok ("", "") := by
  have hr : rawLines (List.replicate 65535 'x') = [List.replicate 65535 'x'] :=
    rawLines_replicate_x 65534
  have hp : ∀ n : Nat, strings.HasPrefix ⟨List.replicate (n + 1) 'x'⟩ "# Question" = false ∧
      strings.HasPrefix ⟨List.replicate (n + 1) 'x'⟩ "# Answer" = false := by
    intro n
    constructor <;> rfl
  apply parseMarkdown_no_markers
  · intro raw hraw
    rw [hr] at hraw
    rw [List.mem_singleton.1 hraw, byteLength_replicate_x]
    decide
  · intro raw hraw
    rw [hr] at hraw
    rw [List.mem_singleton.1 hraw, dropCR_replicate_x]
    exact hp 65534

/-- C13 (as amended): when the index was read, `loadProjectData` loads every
listed node, in the order of the index, with its own identifier and parent;
the node gets the placeholder question and the message naming its document
exactly when `parseMarkdown` reports an error for that document, and otherwise
the texts parsed from it. `parseMarkdown` reports an error when the document
cannot be opened or read and, for a document that was read, exactly when one
of its lines has 65536 bytes or more, the limit of the scanner, the error then
being "bufio.Scanner: token too long": a line of 65536 letters is an error
and a line of 65535 letters is not. A document without the section markers is
not an error: it yields the empty question and the empty answer. -/
theorem C13_unreadable_document_gets_placeholder (th : Metrics) (a : App) (projectID : String)
    (tree : TreeData) (readFile : String → Except String String) (hp : projectID ≠ "") :
    (loadProjectData th a projectID (.parsed tree) readFile).nodes.length = tree.Nodes.length ∧
    (∀ (i : Nat) (node : NodeData), tree.Nodes[i]? = some node →
      ∃ n, (loadProjectData th a projectID (.parsed tree) readFile).nodes[i]? = some n ∧
        n.ID = node.ID ∧ n.ParentID = node.ParentID ∧
        (∀ e, parseMarkdown (readFile (mdPath projectID node.ID)) = .error e →
          n.Question = "(質問読み込みエラー)" ∧
          n.Answer = "Markdownファイル '" ++ mdPath projectID node.ID ++
            "' の読み込みに失敗しました: " ++ e) ∧
        (∀ q ans, parseMarkdown (readFile (mdPath projectID node.ID)) = .ok (q, ans) →
          n.Question = q ∧ n.Answer = ans)) ∧
    (∀ e, parseMarkdown (.error e) = .error e) ∧
    (∀ content, (∃ e, parseMarkdown (.ok content) = .error e) ↔
      ∃ raw ∈ rawLines content.data, MaxScanTokenSize ≤ byteLength raw) ∧
    (∀ content e, parseMarkdown (.ok content) = .error e → e = "bufio.Scanner: token too long") ∧
    MaxScanTokenSize = 65536 ∧
    parseMarkdown (.ok ⟨List.replicate 65536 'x'⟩) = .error "bufio.Scanner: token too long" ∧
    parseMarkdown (.ok ⟨List.replicate 65535 'x'⟩) = .ok ("", "") ∧
    (∀ content, (∀ raw ∈ rawLines content.data, byteLength raw < MaxScanTokenSize) →
      (∀ raw ∈ rawLines content.data,
        strings.HasPrefix ⟨dropCR raw⟩ "# Question" = false ∧
          strings.HasPrefix ⟨dropCR raw⟩ "# Answer" = false) →
      parseMarkdown (.ok content) = .ok ("", "")) := by
  have hmap := loadProjectData_texts th a projectID tree readFile hp
  rw [loadNodeTexts_eq_map, List.map_map] at hmap
  refine ⟨?_, ?_, fun _ => rfl, parseMarkdown_error_iff, parseMarkdown_error_text, rfl,
    parseMarkdown_longLine, parseMarkdown_longestLine, parseMarkdown_no_markers⟩
  · have := congrArg List.length hmap
    simpa using this
  · intro i node hi
    have h1 := congrArg (fun l => l[i]?) hmap
    simp only [List.getElem?_map, hi, Option.map_some', Function.comp] at h1
    cases hn : (loadProjectData th a projectID (.parsed tree) readFile).nodes[i]? with
    | none => rw [hn] at h1; simp at h1
    | some n =>
      rw [hn] at h1
      simp only [Option.map_some', Option.some.injEq] at h1
      refine ⟨n, rfl, ?_⟩
      cases hpm : parseMarkdown (readFile (mdPath projectID node.ID)) with
      | error e =>
        rw [hpm] at h1
        simp only [Prod.mk.injEq] at h1
        refine ⟨h1.1, h1.2.1, ?_, ?_⟩
        · intro e1 he1
          cases he1
          exact ⟨h1.2.2.1, h1.2.2.2⟩
        · intro q ans hq
          cases hq
      | ok r =>
        obtain ⟨q, ans⟩ := r
        rw [hpm] at h1
        simp only [Prod.mk.injEq] at h1
        refine ⟨h1.1, h1.2.1, ?_, ?_⟩
        · intro e1 he1
          cases he1
        · intro q1 ans1 hq
          cases hq
          exact ⟨h1.2.2.1, h1.2.2.2⟩

/-- C13, two instances with the index that lists A and B, the document of B
holding the question "q" and the answer "a". When the document of A is
missing, A is loaded with the placeholder question and B with its own texts.
When the document of A holds a line of 65536 letters, A is loaded with the
placeholder question and the message of the scanner's error. -/
theorem C13_unreadable_document_gets_placeholder_witness :
    "p1" ≠ "" ∧
      (∃ n, (loadProjectData myTheme NewMainApp "p1" (.parsed indexOfAB) readWithoutA).nodes[0]?
          = some n ∧ n.ID = "A" ∧ n.Question = "(質問読み込みエラー)") ∧
      (∃ n, (loadProjectData myTheme NewMainApp "p1" (.parsed indexOfAB) readWithoutA).nodes[1]?
          = some n ∧ n.ID = "B" ∧ n.Question = "q" ∧ n.Answer = "a") ∧
      (∃ n, (loadProjectData myTheme NewMainApp "p1" (.parsed indexOfAB) readLongLineA).nodes[0]?
          = some n ∧ n.ID = "A" ∧ n.Question = "(質問読み込みエラー)" ∧
          n.Answer = "Markdownファイル '" ++ mdPath "p1" "A" ++
            "' の読み込みに失敗しました: " ++ "bufio.Scanner: token too long") ∧
      (∃ n, (loadProjectData myTheme NewMainApp "p1" (.parsed indexOfAB) readLongLineA).nodes[1]?
          = some n ∧ n.ID = "B" ∧ n.Question = "q" ∧ n.Answer = "a") := by
  have h := (C13_unreadable_document_gets_placeholder myTheme NewMainApp "p1" indexOfAB
    readWithoutA (by decide)).2.1
  have hl := (C13_unreadable_document_gets_placeholder myTheme NewMainApp "p1" indexOfAB
    readLongLineA (by decide)).2.1
  have hlong : parseMarkdown (readLongLineA (mdPath "p1" (node "A" "").ID)) =
      .error "bufio.Scanner: token too long" := by
    have hr : readLongLineA (mdPath "p1" (node "A" "").ID) =
        .ok ⟨List.replicate 65536 'x'⟩ := by
      unfold readLongLineA
      rw [if_pos (by decide)]
    rw [hr]
    exact parseMarkdown_longLine
  refine ⟨by decide, ?_, ?_, ?_, ?_⟩
  · obtain ⟨n, hn, hid, _, herr, _⟩ := h 0 (node "A" "") rfl
    exact ⟨n, hn, hid, (herr _ rfl).1⟩
  · obtain ⟨n, hn, hid, _, _, hok⟩ := h 1 (node "B" "A") rfl
    exact ⟨n, hn, hid, hok "q" "a" rfl⟩
  · obtain ⟨n, hn, hid, _, herr, _⟩ := hl 0 (node "A" "") rfl
    exact ⟨n, hn, hid, (herr _ hlong).1, (herr _ hlong).2⟩
  · obtain ⟨n, hn, hid, _, _, hok⟩ := hl 1 (node "B" "A") rfl
    exact ⟨n, hn, hid, hok "q" "a" rfl⟩

/-- C13, the claim as stated fails: the content document of the listed node A
holds the line "hello" and neither section marker; `parseMarkdown` reports no
error for it, and A is loaded with the empty question and the empty answer,
not with the placeholder pair. -/
theorem C13_counterexample :
    parseMarkdown (readHello (mdPath "p1" "A")) = .ok ("", "") ∧
      (loadProjectData myTheme NewMainApp "p1" (.parsed ⟨[node "A" ""], "My project"⟩)
          readHello).nodes.map (fun n => (n.ID, n.ParentID, n.Question, n.Answer)) =
        [("A", "", "", "")] ∧
      ("" : String) ≠ "(質問読み込みエラー)" := by
  refine ⟨rfl, ?_, by decide⟩
  rw [loadProjectData_texts _ _ _ _ _ (by decide), loadNodeTexts_eq_map]
  rfl

/-! ## The ancestor walk with dangling parent pointers -/

theorem nodeDataMap_some {nodes : List NodeData} {k : String} {n : NodeData}
    (h : nodeDataMap nodes k = some n) : n ∈ nodes ∧ n.ID = k := by
  induction nodes using List.reverseRecOn with
  | nil => simp [nodeDataMap_nil] at h
  | append_singleton l x ih =>
    rw [nodeDataMap_append] at h
    by_cases hk : k = x.ID
    · rw [if_pos hk] at h
      cases h
      exact ⟨by simp, hk.symm⟩
    · rw [if_neg hk] at h
      exact ⟨List.mem_append_left _ (ih h).1, (ih h).2⟩

theorem nodeDataMap_none {nodes : List NodeData} {k : String}
    (h : nodeDataMap nodes k = none) : ¬ Present nodes k := by
  induction nodes using List.reverseRecOn with
  | nil => rintro ⟨n, hn, _⟩; simp at hn
  | append_singleton l x ih =>
    rw [nodeDataMap_append] at h
    by_cases hk : k = x.ID
    · rw [if_pos hk] at h
      cases h
    · rw [if_neg hk] at h
      rintro ⟨n, hn, hid⟩
      rcases List.mem_append.1 hn with hm | hm
      · exact ih h ⟨n, hm, hid⟩
      · simp only [List.mem_singleton] at hm
        subst hm
        exact hk hid.symm

theorem walk_or_path (nodes : List NodeData) :
    ∀ (k : Nat) (id : String),
      (∃ chain, WalkChain nodes id chain ∧ chain.length ≤ k ∧
        ∀ (fuel : Nat) (parts : List String), chain.length + 1 ≤ fuel →
          historyLoop (nodeDataMap nodes) fuel id parts =
            some (parts ++ chain.reverse.flatMap historyPartsOf)) ∨
      (id ≠ "" ∧ Present nodes id ∧
        ∃ path : List String, path.length = k ∧
          List.Chain (PresentParentLink nodes) id path ∧ ∀ s ∈ path, Present nodes s) := by
  intro k
  induction k with
  | zero =>
    intro id
    by_cases hid : id = ""
    · refine Or.inl ⟨[], WalkChain.stop (Or.inl hid), le_refl _, ?_⟩
      intro fuel parts hfuel
      obtain ⟨f, rfl⟩ : ∃ f, fuel = f + 1 := ⟨fuel - 1, by simp at hfuel; omega⟩
      simp [historyLoop, hid]
    · cases hm : nodeDataMap nodes id with
      | none =>
        refine Or.inl ⟨[], WalkChain.stop (Or.inr (nodeDataMap_none hm)), le_refl _, ?_⟩
        intro fuel parts hfuel
        obtain ⟨f, rfl⟩ : ∃ f, fuel = f + 1 := ⟨fuel - 1, by simp at hfuel; omega⟩
        simp [historyLoop, hid, hm]
      | some n =>
        have hn := nodeDataMap_some hm
        exact Or.inr ⟨hid, ⟨n, hn.1, hn.2⟩, [], rfl, List.Chain.nil, by simp⟩
  | succ k ih =>
    intro id
    by_cases hid : id = ""
    · refine Or.inl ⟨[], WalkChain.stop (Or.inl hid), Nat.zero_le _, ?_⟩
      intro fuel parts hfuel
      obtain ⟨f, rfl⟩ : ∃ f, fuel = f + 1 := ⟨fuel - 1, by simp at hfuel; omega⟩
      simp [historyLoop, hid]
    · cases hm : nodeDataMap nodes id with
      | none =>
        refine Or.inl ⟨[], WalkChain.stop (Or.inr (nodeDataMap_none hm)), Nat.zero_le _, ?_⟩
        intro fuel parts hfuel
        obtain ⟨f, rfl⟩ : ∃ f, fuel = f + 1 := ⟨fuel - 1, by simp at hfuel; omega⟩
        simp [historyLoop, hid, hm]
      | some n =>
        have hn := nodeDataMap_some hm
        rcases ih n.ParentID with ⟨chain, hw, hlen, hloop⟩ | ⟨hpne, hpres, path, hplen, hch, hall⟩
        · refine Or.inl ⟨chain ++ [n], WalkChain.step hid hn.1 hn.2 hw, by simp; omega, ?_⟩
          intro fuel parts hfuel
          obtain ⟨f, rfl⟩ : ∃ f, fuel = f + 1 := ⟨fuel - 1, by simp at hfuel; omega⟩
          rw [historyLoop]
          simp only [ne_eq, hid, not_false_eq_true, if_true, hm]
          rw [hloop f _ (by simp at hfuel; omega)]
          simp [historyPartsOf]
        · refine Or.inr ⟨hid, ⟨n, hn.1, hn.2⟩, n.ParentID :: path, by simp [hplen], ?_, ?_⟩
          · exact List.Chain.cons ⟨hpne, ⟨n, hn.1, hn.2, rfl⟩, hpres⟩ hch
          · intro s hs
            rcases List.mem_cons.1 hs with h | h
            · rw [h]; exact hpres
            · exact hall s h

theorem walkChain_props {nodes : List NodeData} {id : String} {chain : List NodeData}
    (h : WalkChain nodes id chain) :
    (∀ n ∈ chain, n ∈ nodes) ∧
      (chain = [] ↔ id = "" ∨ ¬ Present nodes id) ∧
      (∀ n, chain.getLast? = some n → n.ID = id) ∧
      (∀ r, chain.head? = some r → r.ParentID = "" ∨ ¬ Present nodes r.ParentID) ∧
      List.Chain' (fun a b => b.ParentID = a.ID) chain := by
  induction h with
  | @stop id hstop =>
    exact ⟨by simp, by simp [hstop], by simp, by simp, List.chain'_nil⟩
  | @step id n chain hid hn hnid hw ih =>
    obtain ⟨hmem, hnil, hlast, hhead, hch⟩ := ih
    refine ⟨?_, ?_, ?_, ?_, ?_⟩
    · intro m hm
      rcases List.mem_append.1 hm with h | h
      · exact hmem m h
      · simp only [List.mem_singleton] at h
        rw [h]; exact hn
    · constructor
      · intro h; simp at h
      · rintro (h | h)
        · exact absurd h hid
        · exact absurd ⟨n, hn, hnid⟩ h
    · intro m hm
      rw [List.getLast?_concat] at hm
      cases hm
      exact hnid
    · intro r hr
      cases chain with
      | nil =>
        simp only [List.nil_append, List.head?_cons, Option.some.injEq] at hr
        rw [← hr]
        exact hnil.1 rfl
      | cons c rest =>
        simp only [List.cons_append, List.head?_cons, Option.some.injEq] at hr
        exact hhead r (by simp [hr])
    · rw [List.chain'_append]
      refine ⟨hch, List.chain'_singleton _, ?_⟩
      intro a ha b hb
      simp only [List.head?_cons, Option.mem_def, Option.some.injEq] at hb
      rw [← hb]
      exact (hlast a ha).symm

theorem renderExchanges_nil : renderExchanges [] = "" := rfl

theorem buildHistory_walk (chain : List NodeData) :
    buildHistory (chain.reverse.flatMap historyPartsOf) = renderExchanges chain := by
  induction chain using List.reverseRecOn with
  | nil => rfl
  | append_singleton c n _ => exact buildHistory_chain c n

theorem acyclic_talkDangling : Acyclic talkDangling := by
  apply acyclic_of_rank (fun s => if s = "B" then 0 else 1)
  rintro c p ⟨hp, ⟨n, hn, rfl, rfl⟩, hpres⟩
  simp only [talkDangling, List.mem_cons, List.mem_singleton, List.not_mem_nil, or_false] at hn
  rcases hn with rfl | rfl
  · exfalso
    obtain ⟨m, hm, hmid⟩ := hpres
    simp only [talkDangling, List.mem_cons, List.mem_singleton, List.not_mem_nil, or_false] at hm
    rcases hm with rfl | rfl
    · exact absurd hmid (by decide)
    · exact absurd hmid (by decide)
  · decide

/-- C14: in a store whose parent links between present nodes contain no
cycle, the ancestor walk of `getConversationHistory` from any id returns, also
when a parent pointer is dangling: there is a list `chain` of nodes of the
store, at most as many as the store holds, that starts with a node whose
parent id is empty or names no present node, continues from each node to a
child of it, and ends with the node of the target id (it is empty exactly when
the target id is empty or absent); as soon as the fuel covers the chain,
`getConversationHistory` returns the text of the exchanges of exactly that
chain. -/
theorem C14_walk_ends_at_dangling_parent (nodes : List NodeData) (target : String)
    (hac : Acyclic nodes) :
    ∃ chain, WalkChain nodes target chain ∧ chain.length ≤ nodes.length ∧
      (∀ n ∈ chain, n ∈ nodes) ∧
      (chain = [] ↔ target = "" ∨ ¬ Present nodes target) ∧
      (∀ n, chain.getLast? = some n → n.ID = target) ∧
      (∀ r, chain.head? = some r → r.ParentID = "" ∨ ¬ Present nodes r.ParentID) ∧
      List.Chain' (fun a b => b.ParentID = a.ID) chain ∧
      ∀ fuel, chain.length + 1 ≤ fuel →
        getConversationHistory fuel nodes target = some (renderExchanges chain) := by
  rcases walk_or_path nodes nodes.length target with
    ⟨chain, hw, hlen, hloop⟩ | ⟨_, hpres, path, hplen, hch, hall⟩
  · obtain ⟨h1, h2, h3, h4, h5⟩ := walkChain_props hw
    refine ⟨chain, hw, hlen, h1, h2, h3, h4, h5, ?_⟩
    intro fuel hfuel
    unfold getConversationHistory
    rw [hloop fuel [] hfuel]
    simp only [List.nil_append, Option.map_some']
    rw [buildHistory_walk]
  · exfalso
    have hsub : (target :: path) ⊆ nodes.map (fun n => n.ID) := by
      intro s hs
      rcases List.mem_cons.1 hs with h | h
      · obtain ⟨m, hm, hmid⟩ := hpres
        rw [h, ← hmid]
        exact List.mem_map_of_mem _ hm
      · obtain ⟨m, hm, rfl⟩ := hall s h
        exact List.mem_map_of_mem _ hm
    have hnd : ¬ (target :: path).Nodup := by
      intro h
      have := List.Subperm.length_le (List.Nodup.subperm h hsub)
      simp only [List.length_map, List.length_cons] at this
      omega
    obtain ⟨x, hx⟩ := cycle_of_chain_not_nodup (target :: path) hch hnd
    exact hac x hx

/-- C14, an instance: in the store where B names the absent parent Z and C is
the child of B, the history of C is the exchange of B followed by that of C. -/
theorem C14_walk_ends_at_dangling_parent_witness :
    Acyclic talkDangling ∧ ¬ Present talkDangling "Z" ∧
      getConversationHistory 3 talkDangling "C" =
        some "User: qb\n\nAI: ab\n\nUser: qc\n\nAI: ac\n" ∧
      ∃ chain, WalkChain talkDangling "C" chain ∧ chain.length ≤ talkDangling.length ∧
        (∀ n ∈ chain, n ∈ talkDangling) ∧
        (chain = [] ↔ "C" = "" ∨ ¬ Present talkDangling "C") ∧
        (∀ n, chain.getLast? = some n → n.ID = "C") ∧
        (∀ r, chain.head? = some r → r.ParentID = "" ∨ ¬ Present talkDangling r.ParentID) ∧
        List.Chain' (fun a b => b.ParentID = a.ID) chain ∧
        ∀ fuel, chain.length + 1 ≤ fuel →
          getConversationHistory fuel talkDangling "C" = some (renderExchanges chain) :=
  ⟨acyclic_talkDangling, by unfold Present; decide, by decide,
    C14_walk_ends_at_dangling_parent talkDangling "C" acyclic_talkDangling⟩

/-! ## Placement of a child next to its parent -/

theorem candidatePosition_eq (th : Metrics) (dc : DialogCanvas) (data parent : NodeData) :
    candidatePosition th dc data parent =
      ⟨float32 (float32 (parent.Position.X + (MinSize th (th.titleLabelHeight parent) parent).Width)
          + 40),
        float32 (float32 (float32 (parent.Position.Y +
            float32 (float32 ((dc.nodes.filter (fun n => n.ParentID = data.ParentID)).length : ℚ) *
              float32 ((MinSize th none data).Height + 20))) -
          float32 ((MinSize th (th.titleLabelHeight parent) parent).Height / 2)) +
          float32 ((MinSize th none data).Height / 2))⟩ := by
  simp only [candidatePosition, fyne.NewPos, nodeSpacing]
  norm_num

theorem float32_add_ge {r c : ℚ} (hc : 0 ≤ c) : float32 r ≤ float32 (float32 r + c) :=
  le_float32_add (float32_idem r) hc

/-- C21 (as amended): for a new node whose parent is on the canvas, `AddNode`
computes the candidate in `float32` arithmetic, every operation rounded:
x = (parent.x + parent.width) + 40 and
y = ((parent.y + k·(h + 20)) − parent.height/2) + h/2, with k the number of
nodes on the canvas that have the same parent id and h the height of the new
node. The assigned position is the candidate when the overlap test of the loop
holds for no existing node of another id, and the candidate moved by (40, 40),
rounded, when the test holds for some existing node of another id; every
existing node is of another id when the id of the new node is not on the
canvas. The x coordinate is never below the right edge of the parent as
`float32` gives it. When the sums are exact the candidate is the one of the
exact formulas, and the node is to the right of the right edge of the
parent. -/
theorem C21_child_placement (th : Metrics) (dc : DialogCanvas) (data parent : NodeData)
    (hpar : data.ParentID ≠ "") (hmap : dc.nodeMap data.ParentID = some parent) :
    candidatePosition th dc data parent =
      ⟨float32 (float32 (parent.Position.X + (MinSize th (th.titleLabelHeight parent) parent).Width)
          + 40),
        float32 (float32 (float32 (parent.Position.Y +
            float32 (float32 ((dc.nodes.filter (fun n => n.ParentID = data.ParentID)).length : ℚ) *
              float32 ((MinSize th none data).Height + 20))) -
          float32 ((MinSize th (th.titleLabelHeight parent) parent).Height / 2)) +
          float32 ((MinSize th none data).Height / 2))⟩ ∧
    ((∀ e ∈ dc.nodes, e.ID ≠ data.ID →
        ¬ OverlapTest (candidatePosition th dc data parent) (MinSize th none data) e.Position
          (MinSize th (th.titleLabelHeight e) e)) →
      (dc.AddNode th data).2.Position = candidatePosition th dc data parent) ∧
    ((∃ e ∈ dc.nodes, e.ID ≠ data.ID ∧
        OverlapTest (candidatePosition th dc data parent) (MinSize th none data) e.Position
          (MinSize th (th.titleLabelHeight e) e)) →
      (dc.AddNode th data).2.Position =
        ⟨float32 ((candidatePosition th dc data parent).X + 40),
          float32 ((candidatePosition th dc data parent).Y + 40)⟩) ∧
    (¬ Present dc.nodes data.ID →
      ((∀ e ∈ dc.nodes,
          ¬ OverlapTest (candidatePosition th dc data parent) (MinSize th none data) e.Position
            (MinSize th (th.titleLabelHeight e) e)) →
        (dc.AddNode th data).2.Position = candidatePosition th dc data parent) ∧
      ((∃ e ∈ dc.nodes,
          OverlapTest (candidatePosition th dc data parent) (MinSize th none data) e.Position
            (MinSize th (th.titleLabelHeight e) e)) →
        (dc.AddNode th data).2.Position =
          ⟨float32 ((candidatePosition th dc data parent).X + 40),
            float32 ((candidatePosition th dc data parent).Y + 40)⟩)) ∧
    float32 (parent.Position.X + (MinSize th (th.titleLabelHeight parent) parent).Width) ≤
      (dc.AddNode th data).2.Position.X ∧
    (float32 (parent.Position.X + (MinSize th (th.titleLabelHeight parent) parent).Width) =
        parent.Position.X + (MinSize th (th.titleLabelHeight parent) parent).Width →
      float32 (parent.Position.X + (MinSize th (th.titleLabelHeight parent) parent).Width + 40) =
        parent.Position.X + (MinSize th (th.titleLabelHeight parent) parent).Width + 40 →
      (candidatePosition th dc data parent).X =
          parent.Position.X + (MinSize th (th.titleLabelHeight parent) parent).Width + 40 ∧
        (float32
            (parent.Position.X + (MinSize th (th.titleLabelHeight parent) parent).Width + 40 + 40) =
          parent.Position.X + (MinSize th (th.titleLabelHeight parent) parent).Width + 40 + 40 →
          parent.Position.X + (MinSize th (th.titleLabelHeight parent) parent).Width <
            (dc.AddNode th data).2.Position.X)) ∧
    (∀ k h ph : ℚ,
      k = ((dc.nodes.filter (fun n => n.ParentID = data.ParentID)).length : ℚ) →
      h = (MinSize th none data).Height →
      ph = (MinSize th (th.titleLabelHeight parent) parent).Height →
      float32 k = k → float32 (h + 20) = h + 20 → float32 (k * (h + 20)) = k * (h + 20) →
      float32 (parent.Position.Y + k * (h + 20)) = parent.Position.Y + k * (h + 20) →
      float32 (ph / 2) = ph / 2 →
      float32 (parent.Position.Y + k * (h + 20) - ph / 2) =
        parent.Position.Y + k * (h + 20) - ph / 2 →
      float32 (h / 2) = h / 2 →
      float32 (parent.Position.Y + k * (h + 20) - ph / 2 + h / 2) =
        parent.Position.Y + k * (h + 20) - ph / 2 + h / 2 →
      (candidatePosition th dc data parent).Y =
        parent.Position.Y + k * (h + 20) - ph / 2 + h / 2) := by
  have hpos := addNode_of_parent th dc data parent hpar hmap
  have hnone : (∀ e ∈ dc.nodes, e.ID ≠ data.ID →
        ¬ OverlapTest (candidatePosition th dc data parent) (MinSize th none data) e.Position
          (MinSize th (th.titleLabelHeight e) e)) →
      (dc.AddNode th data).2.Position = candidatePosition th dc data parent := by
    intro h
    rw [hpos]
    exact overlapLoop_of_none th data _ _ dc.nodes h
  have hsome : (∃ e ∈ dc.nodes, e.ID ≠ data.ID ∧
        OverlapTest (candidatePosition th dc data parent) (MinSize th none data) e.Position
          (MinSize th (th.titleLabelHeight e) e)) →
      (dc.AddNode th data).2.Position =
        ⟨float32 ((candidatePosition th dc data parent).X + 40),
          float32 ((candidatePosition th dc data parent).Y + 40)⟩ := by
    intro h
    rw [hpos]
    exact overlapLoop_of_some th data _ _ dc.nodes h
  have hcx : (candidatePosition th dc data parent).X =
      float32 (float32 (parent.Position.X + (MinSize th (th.titleLabelHeight parent) parent).Width)
        + 40) := by
    rw [candidatePosition_eq]
  have hcases : (dc.AddNode th data).2.Position = candidatePosition th dc data parent ∨
      (dc.AddNode th data).2.Position =
        ⟨float32 ((candidatePosition th dc data parent).X + 40),
          float32 ((candidatePosition th dc data parent).Y + 40)⟩ := by
    by_cases h : ∃ e ∈ dc.nodes, e.ID ≠ data.ID ∧
        OverlapTest (candidatePosition th dc data parent) (MinSize th none data) e.Position
          (MinSize th (th.titleLabelHeight e) e)
    · exact Or.inr (hsome h)
    · exact Or.inl (hnone (fun e he hid hov => h ⟨e, he, hid, hov⟩))
  refine ⟨candidatePosition_eq th dc data parent, hnone, hsome, ?_, ?_, ?_, ?_⟩
  · intro hfresh
    have hne : ∀ e ∈ dc.nodes, e.ID ≠ data.ID := fun e he hid => hfresh ⟨e, he, hid⟩
    refine ⟨fun h => hnone (fun e he _ => h e he), ?_⟩
    rintro ⟨e, he, hov⟩
    exact hsome ⟨e, he, hne e he, hov⟩
  · have h1 : float32 (parent.Position.X + (MinSize th (th.titleLabelHeight parent) parent).Width)
        ≤ (candidatePosition th dc data parent).X := by
      rw [hcx]
      exact float32_add_ge (by norm_num)
    rcases hcases with h | h
    · rw [h]; exact h1
    · rw [h]
      show _ ≤ float32 ((candidatePosition th dc data parent).X + 40)
      refine le_trans h1 ?_
      rw [hcx]
      exact float32_add_ge (by norm_num)
  · intro hx1 hx2
    have hcx2 : (candidatePosition th dc data parent).X =
        parent.Position.X + (MinSize th (th.titleLabelHeight parent) parent).Width + 40 := by
      rw [hcx, hx1, hx2]
    refine ⟨hcx2, ?_⟩
    intro hx3
    rcases hcases with h | h
    · rw [h, hcx2]; linarith
    · rw [h]
      show _ < float32 ((candidatePosition th dc data parent).X + 40)
      rw [hcx2, hx3]
      linarith
  · intro k h ph hk hh hph e1 e2 e3 e4 e5 e6 e7 e8
    rw [candidatePosition_eq]
    show float32 (float32 (float32 (parent.Position.Y +
            float32 (float32 ((dc.nodes.filter (fun n => n.ParentID = data.ParentID)).length : ℚ) *
              float32 ((MinSize th none data).Height + 20))) -
          float32 ((MinSize th (th.titleLabelHeight parent) parent).Height / 2)) +
          float32 ((MinSize th none data).Height / 2)) = _
    rw [← hk, ← hh, ← hph, e1, e2, e3, e4, e5, e6, e7, e8]

/-- C21, an instance: the first child B of the root A, which stands at
(50, 200) and is 308 wide, gets the candidate (398, 200), keeps it, and is to
the right of the edge x = 358 of A. -/
theorem C21_child_placement_witness :
    (node "B" "A").ParentID ≠ "" ∧
      candidatePosition myTheme (addAll myTheme NewDialogCanvas [node "A" ""]) (node "B" "A")
        { node "A" "" with Position := ⟨50, 200⟩ } = ⟨398, 200⟩ ∧
      ((addAll myTheme NewDialogCanvas [node "A" ""]).AddNode myTheme (node "B" "A")).2.Position =
        ⟨398, 200⟩ ∧
      (50 : ℚ) + 308 <
        ((addAll myTheme NewDialogCanvas [node "A" ""]).AddNode myTheme (node "B" "A")).2.Position.X := by
  have h := C21_child_placement myTheme (addAll myTheme NewDialogCanvas [node "A" ""])
    (node "B" "A") { node "A" "" with Position := ⟨50, 200⟩ } (by decide) canvasA_nodeMap
  have hw : MinSize myTheme (myTheme.titleLabelHeight { node "A" "" with Position := ⟨50, 200⟩ })
      { node "A" "" with Position := ⟨50, 200⟩ } = ⟨308, 110⟩ := minSize_myTheme _ _ rfl
  have h6 := h.2.2.2.2.2.1
  rw [hw] at h6
  have h7 := (h6 (by norm_num [float32_ofNat]) (by norm_num [float32_ofNat])).2
    (by norm_num [float32_ofNat])
  exact ⟨by decide, canvasA_candidate, by rw [canvasABC_addChild, canvasA_candidate], h7⟩

theorem float32_zoomFactor : float32 (11 / 10) = 9227469 / 8388608 := by
  have h := float32_near (11 / 10) 0 9227469 (by norm_num) (by norm_num)
    (by norm_num) (by norm_num) (by norm_num [abs_lt])
  rw [h]
  norm_num

theorem float32_zoomDelta : float32 (8388608 / 9227469) = 7626007 / 8388608 := by
  have h := float32_near (8388608 / 9227469) (-1) 15252014 (by norm_num) (by norm_num)
    (by norm_num) (by norm_num) (by norm_num [abs_lt])
  rw [h]
  norm_num

theorem float32_zoomDragA : float32 (427056407 / 8388608) = 13345513 / 262144 := by
  have h := float32_near (427056407 / 8388608) 5 13345513 (by norm_num) (by norm_num)
    (by norm_num) (by norm_num) (by norm_num [abs_lt])
  rw [h]
  norm_num

theorem float32_zoomDragA_edge : float32 (94085865 / 262144) = 11760733 / 32768 := by
  have h := float32_near (94085865 / 262144) 8 11760733 (by norm_num) (by norm_num)
    (by norm_num) (by norm_num) (by norm_num [abs_lt])
  rw [h]
  norm_num

theorem float32_zoomDragA_child : float32 (13071453 / 32768) = 13071453 / 32768 := by
  have h := float32_repr 13071453 (-15) (by norm_num) (by norm_num)
  have hv : ((13071453 : ℤ) : ℚ) * 2 ^ (-15 : ℤ) = 13071453 / 32768 := by norm_num
  rw [hv] at h
  exact h

theorem float32_farA : float32 1073741874 = 1073741824 := by
  have h := float32_near 1073741874 30 8388608 (by norm_num) (by norm_num)
    (by norm_num) (by norm_num) (by norm_num [abs_lt])
  rw [h]
  norm_num

theorem float32_farA_edge : float32 1073742132 = 1073742080 := by
  have h := float32_near 1073742132 30 8388610 (by norm_num) (by norm_num)
    (by norm_num) (by norm_num) (by norm_num [abs_lt])
  rw [h]
  norm_num

theorem float32_farA_child : float32 1073742120 = 1073742080 := by
  have h := float32_near 1073742120 30 8388610 (by norm_num) (by norm_num)
    (by norm_num) (by norm_num) (by norm_num [abs_lt])
  rw [h]
  norm_num

theorem canvasZoomDragA_nodes :
    canvasZoomDragA.nodes = [{ node "A" "" with Position := ⟨13345513 / 262144, 200⟩ }] := by
  unfold canvasZoomDragA DialogCanvas.Dragged
  rw [canvasA_nodes]
  simp [List.modify, node]
  norm_num [float32_ofNat, float32_zoomFactor, float32_zoomDelta, float32_zoomDragA]

theorem canvasFarA_nodes :
    canvasFarA.nodes = [{ node "A" "" with Position := ⟨1073741824, 200⟩ }] := by
  unfold canvasFarA DialogCanvas.Dragged
  rw [canvasA_nodes]
  simp [List.modify, node]
  norm_num [float32_ofNat, float32_farA]

/-- C21, the claim as stated fails, the positions being `float32` numbers.
The root A, placed at (50, 200) and 308 wide, is dragged to the right by one
pixel at the zoom factor 1.1: its x coordinate becomes 13345513/2^18, about
50.909092. The sum of this coordinate and the width needs more than 24
significant bits and is rounded to 11760733/2^15, so the first child of A is
placed at x = 13071453/2^15, about 398.909088, not at x + 308 + 40, about
398.909092. When A is dragged to x = 2^30, where `float32` numbers are 128
apart, its right edge 2^30 + 308 is rounded to 2^30 + 256 and adding 40
changes nothing: the child is placed at x = 2^30 + 256, to the left of
2^30 + 308. -/
theorem C21_counterexample :
    canvasZoomDragA.nodes.map (fun n => (n.ID, n.Position)) =
        [("A", ⟨13345513 / 262144, 200⟩)] ∧
      (canvasZoomDragA.AddNode myTheme (node "B" "A")).2.Position = ⟨13071453 / 32768, 200⟩ ∧
      (13071453 / 32768 : ℚ) ≠ 13345513 / 262144 + 308 + 40 ∧
      canvasFarA.nodes.map (fun n => (n.ID, n.Position)) = [("A", ⟨1073741824, 200⟩)] ∧
      (canvasFarA.AddNode myTheme (node "B" "A")).2.Position = ⟨1073742080, 200⟩ ∧
      (1073742080 : ℚ) < 1073741824 + 308 := by
  have hmap1 : canvasZoomDragA.nodeMap (node "B" "A").ParentID =
      some { node "A" "" with Position := ⟨13345513 / 262144, 200⟩ } := by
    simp [DialogCanvas.nodeMap, canvasZoomDragA_nodes, nodeDataMap, node]
  have hmap2 : canvasFarA.nodeMap (node "B" "A").ParentID =
      some { node "A" "" with Position := ⟨1073741824, 200⟩ } := by
    simp [DialogCanvas.nodeMap, canvasFarA_nodes, nodeDataMap, node]
  refine ⟨by rw [canvasZoomDragA_nodes]; rfl, ?_, by norm_num, by rw [canvasFarA_nodes]; rfl, ?_,
    by norm_num⟩
  · rw [addNode_of_parent myTheme canvasZoomDragA (node "B" "A") _ (by decide) hmap1,
      candidatePosition_eq, canvasZoomDragA_nodes]
    simp [overlapLoop, minSize_myTheme, node]
    norm_num [float32_ofNat, float32_zero, float32_zoomDragA_edge, float32_zoomDragA_child,
      nodeSpacing]
  · rw [addNode_of_parent myTheme canvasFarA (node "B" "A") _ (by decide) hmap2,
      candidatePosition_eq, canvasFarA_nodes]
    simp [overlapLoop, minSize_myTheme, node]
    norm_num [float32_ofNat, float32_zero, float32_farA_edge, float32_farA_child, nodeSpacing]

/-! ## Truncation of the collapsed answer -/

theorem totalRunes_append (l m : List String) : totalRunes (l ++ m) = totalRunes l + totalRunes m := by
  simp [totalRunes]

theorem totalRunes_singleton (x : String) : totalRunes [x] = x.length := by
  simp [totalRunes]

theorem markLastLine_concat (init : List String) (x : String) :
    markLastLine (init ++ [x]) =
      if ¬ strings.HasSuffix x "..." then init ++ [x ++ "..."] else init ++ [x] := by
  have hlen : (init ++ [x]).length - 1 = init.length := by simp
  have hget : (init ++ [x]).getD init.length "" = x := by
    simp [List.getD_eq_getElem?_getD]
  have hset : (init ++ [x]).set init.length (x ++ "...") = init ++ [x ++ "..."] := by
    simp [List.set_append]
  have hpos : (init ++ [x]).length > 0 := by simp
  simp only [markLastLine, hpos, if_true, hlen, hget, hset]

theorem ellipsis_length (x : String) : (x ++ "...").length = x.length + 3 := by
  rw [String.length_append]
  rfl

theorem ellipsis_no_lf (x : String) (h : '\n' ∉ x.data) : '\n' ∉ (x ++ "...").data := by
  simp only [String.data_append, List.mem_append, not_or]
  exact ⟨h, by decide⟩

theorem ellipsis_ne_empty (x : String) : x ++ "..." ≠ "" := by
  intro h
  have := congrArg String.length h
  rw [ellipsis_length] at this
  simp at this

theorem truncateLoop_spec (maxChars maxLines : Int) (hc : 3 ≤ maxChars) :
    ∀ (runes : List Char) (st : TruncateState),
      '\n' ∉ st.currentLine.data → (∀ l ∈ st.resultLines, '\n' ∉ l.data) →
      (st.resultLines.length : Int) = st.lineCount → st.lineCount < maxLines →
      ((totalRunes st.resultLines + st.currentLine.length : Nat) : Int) = st.charCount →
      st.charCount ≤ maxChars - 3 →
      (∀ l ∈ truncateLoop maxChars maxLines runes st, '\n' ∉ l.data) ∧
        ((truncateLoop maxChars maxLines runes st).length : Int) ≤ maxLines ∧
        ((totalRunes (truncateLoop maxChars maxLines runes st) : Nat) : Int) ≤ maxChars := by
  intro runes
  induction runes with
  | nil =>
    intro st hcur hres hlen hlines htot hchars
    by_cases he : st.currentLine ≠ ""
    · rw [truncateLoop, if_pos he]
      refine ⟨?_, ?_, ?_⟩
      · intro l hl1
        rcases List.mem_append.1 hl1 with h | h
        · exact hres l h
        · simp only [List.mem_singleton] at h
          rw [h]; exact hcur
      · simp only [List.length_append, List.length_singleton]
        push_cast
        omega
      · rw [totalRunes_append, totalRunes_singleton]
        omega
    · rw [truncateLoop, if_neg he]
      refine ⟨hres, by omega, ?_⟩
      have : ((totalRunes st.resultLines : Nat) : Int) ≤
          ((totalRunes st.resultLines + st.currentLine.length : Nat) : Int) := by
        push_cast
        omega
      omega
  | cons r rest ih =>
    intro st hcur hres hlen hlines htot hchars
    rw [truncateLoop]
    by_cases hlim : maxChars > 0 ∧ st.charCount ≥ maxChars - 3
    · rw [if_pos hlim]
      have hcond : st.currentLine ≠ "" ∨ (st.resultLines.length : Int) < maxLines :=
        Or.inr (by omega)
      rw [if_pos hcond]
      simp only [ellipsis_ne_empty, ne_eq, not_false_eq_true, if_true]
      refine ⟨?_, ?_, ?_⟩
      · intro l hl1
        rcases List.mem_append.1 hl1 with h | h
        · exact hres l h
        · simp only [List.mem_singleton] at h
          rw [h]; exact ellipsis_no_lf _ hcur
      · simp only [List.length_append, List.length_singleton]
        push_cast
        omega
      · rw [totalRunes_append, totalRunes_singleton, ellipsis_length]
        push_cast at htot ⊢
        omega
    · rw [if_neg hlim]
      have hlt : st.charCount < maxChars - 3 := by
        by_contra hge
        exact hlim ⟨by omega, by omega⟩
      by_cases hr : r = '\n'
      · rw [if_pos hr]
        by_cases hend : maxLines > 0 ∧ st.lineCount + 1 ≥ maxLines
        · simp only [hend, and_self, if_true]
          rw [markLastLine_concat]
          by_cases hsuf : ¬ strings.HasSuffix st.currentLine "..."
          · rw [if_pos hsuf]
            refine ⟨?_, ?_, ?_⟩
            · intro l hl1
              rcases List.mem_append.1 hl1 with h | h
              · exact hres l h
              · simp only [List.mem_singleton] at h
                rw [h]; exact ellipsis_no_lf _ hcur
            · simp only [List.length_append, List.length_singleton]
              push_cast
              omega
            · rw [totalRunes_append, totalRunes_singleton, ellipsis_length]
              push_cast at htot ⊢
              omega
          · rw [if_neg hsuf]
            refine ⟨?_, ?_, ?_⟩
            · intro l hl1
              rcases List.mem_append.1 hl1 with h | h
              · exact hres l h
              · simp only [List.mem_singleton] at h
                rw [h]; exact hcur
            · simp only [List.length_append, List.length_singleton]
              push_cast
              omega
            · rw [totalRunes_append, totalRunes_singleton]
              omega
        · simp only [hend, if_false]
          apply ih
          · show '\n' ∉ ("" : String).data
            decide
          · intro l hl1
            rcases List.mem_append.1 hl1 with h | h
            · exact hres l h
            · simp only [List.mem_singleton] at h
              rw [h]; exact hcur
          · show (((st.resultLines ++ [st.currentLine]).length : Nat) : Int) = st.lineCount + 1
            simp only [List.length_append, List.length_singleton]
            push_cast
            omega
          · show st.lineCount + 1 < maxLines
            by_contra hge
            exact hend ⟨by omega, by omega⟩
          · show ((totalRunes (st.resultLines ++ [st.currentLine]) + ("" : String).length : Nat) : Int)
              = st.charCount
            rw [totalRunes_append, totalRunes_singleton]
            simpa using htot
          · exact hchars
      · rw [if_neg hr]
        apply ih
        · show '\n' ∉ (st.currentLine ++ String.singleton r).data
          simp only [String.data_append, List.mem_append, not_or]
          refine ⟨hcur, ?_⟩
          show '\n' ∉ [r]
          simp only [List.mem_singleton]
          exact fun h => hr h.symm
        · exact hres
        · exact hlen
        · exact hlines
        · show ((totalRunes st.resultLines + (st.currentLine ++ String.singleton r).length : Nat) : Int)
            = st.charCount + 1
          rw [String.length_append]
          have : (String.singleton r).length = 1 := rfl
          rw [this]
          push_cast at htot ⊢
          omega
        · show st.charCount + 1 ≤ maxChars - 3
          omega

theorem truncateFinish_of_short (maxChars maxLines : Int) (resultLines : List String)
    (h : (resultLines.length : Int) ≤ maxLines) :
    truncateFinish maxChars maxLines resultLines = some resultLines := by
  unfold truncateFinish
  rw [if_neg (by omega)]

theorem join_count_lf : ∀ (lines : List String), (∀ l ∈ lines, '\n' ∉ l.data) →
    (strings.Join lines "\n").data.count '\n' = lines.length - 1 := by
  intro lines
  induction lines with
  | nil => intro _; rfl
  | cons a t ih =>
    intro h
    have ha : a.data.count '\n' = 0 :=
      List.count_eq_zero.2 (h a (List.mem_cons_self _ _))
    cases t with
    | nil => simpa [strings.Join] using ha
    | cons b rest =>
      have ih1 := ih (fun l hl1 => h l (List.mem_cons_of_mem _ hl1))
      simp only [strings.Join, String.data_append, List.count_append, ha, ih1]
      have : ("\n" : String).data.count '\n' = 1 := by decide
      rw [this]
      simp only [List.length_cons]
      omega

theorem join_filter_length : ∀ (lines : List String),
    ((strings.Join lines "\n").data.filter (fun c => c ≠ '\n')).length ≤ totalRunes lines := by
  intro lines
  induction lines with
  | nil => simp [strings.Join, totalRunes]
  | cons a t ih =>
    have hlen : ∀ s : String, (s.data.filter (fun c => c ≠ '\n')).length ≤ s.length :=
      fun s => List.length_filter_le _ _
    cases t with
    | nil =>
      simp only [strings.Join]
      rw [totalRunes_singleton]
      exact hlen a
    | cons b rest =>
      simp only [strings.Join, String.data_append, List.filter_append, List.length_append]
      have h1 := hlen a
      have h2 : (("\n" : String).data.filter (fun c => c ≠ '\n')).length = 0 := by decide
      have h3 : totalRunes (a :: b :: rest) = a.length + totalRunes (b :: rest) := by
        simp [totalRunes]
      rw [h2, h3]
      omega

/-- C22: for every string `s`, every `maxChars ≥ 3` and every `maxLines ≥ 1`,
`TruncateTextWithEllipsis` returns a text (the call does not panic) that holds
fewer than `maxLines` line feeds, so at most `maxLines` lines, and at most
`maxChars` runes other than line feeds, the runes of the ellipsis included. -/
theorem C22_truncateTextWithEllipsis (s : String) (maxChars maxLines : Int)
    (hc : 3 ≤ maxChars) (hl : 1 ≤ maxLines) :
    ∃ r, TruncateTextWithEllipsis s maxChars maxLines = some r ∧
      ((r.data.count '\n' : Nat) : Int) + 1 ≤ maxLines ∧
      (((r.data.filter (fun c => c ≠ '\n')).length : Nat) : Int) ≤ maxChars := by
  obtain ⟨hlf, hlen, htot⟩ := truncateLoop_spec maxChars maxLines hc s.data ⟨[], 0, 0, ""⟩
    (by decide) (by simp) rfl (by show (0 : Int) < maxLines; omega) rfl
    (by show (0 : Int) ≤ maxChars - 3; omega)
  refine ⟨strings.Join (truncateLoop maxChars maxLines s.data ⟨[], 0, 0, ""⟩) "\n", ?_, ?_, ?_⟩
  · unfold TruncateTextWithEllipsis
    rw [truncateFinish_of_short _ _ _ hlen]
    rfl
  · rw [join_count_lf _ hlf]
    omega
  · have := join_filter_length (truncateLoop maxChars maxLines s.data ⟨[], 0, 0, ""⟩)
    omega

/-- C22, an instance with the bounds of the collapsed answer of a node widget
(200 characters, 20 lines), and two evaluated calls. -/
theorem C22_truncateTextWithEllipsis_witness :
    (3 : Int) ≤ 200 ∧ (1 : Int) ≤ 20 ∧
      (∃ r, TruncateTextWithEllipsis "first line\nsecond line" 200 20 = some r ∧
        ((r.data.count '\n' : Nat) : Int) + 1 ≤ 20 ∧
        (((r.data.filter (fun c => c ≠ '\n')).length : Nat) : Int) ≤ 200) ∧
      TruncateTextWithEllipsis "hello world" 8 1 = some "hello..." ∧
      TruncateTextWithEllipsis "ab\ncd\nef" 200 2 = some "ab\ncd..." :=
  ⟨by decide, by decide,
    C22_truncateTextWithEllipsis "first line\nsecond line" 200 20 (by decide) (by decide),
    by decide, by decide⟩

/-! ## The orphan repair after a removal -/

/-- C23: for every canvas, whatever its parent links, and every id `x`,
`RemoveNodeAndDescendants` returns; the ids it returns are those of the nodes
it removed, no surviving node has a parent id among them, and
`updateAppDataAfterDeletion`, given the same node list and the returned ids,
yields exactly the surviving nodes, each unchanged: `clearDeletedParent`
changes none of them. In the instance, with a cycle and a dangling parent, the
removal of C takes C and D and leaves A and B as they are. -/
theorem C23_repair_is_noop (dc : DialogCanvas) (x : String) :
    (∃ removed dc1, dc.RemoveNodeAndDescendants x = some (removed, dc1) ∧
      (∀ r ∈ dc.nodes, r.ID ∈ removed ↔ r ∉ dc1.nodes) ∧
      (∀ n ∈ dc1.nodes, n ∈ dc.nodes ∧ n.ParentID ∉ removed) ∧
      (∀ n ∈ dc1.nodes, clearDeletedParent removed n = n) ∧
      updateAppDataAfterDeletion dc.nodes removed = dc1.nodes) ∧
    canvasTangled.RemoveNodeAndDescendants "C" =
      some (["C", "D"], ⟨[node "A" "B", node "B" "A"], ""⟩) ∧
    updateAppDataAfterDeletion canvasTangled.nodes ["C", "D"] = [node "A" "B", node "B" "A"] := by
  refine ⟨?_, by decide, by decide⟩
  obtain ⟨w, hw, heq⟩ := remove_spec dc x
  have hcl := descendant_closed dc.nodes x w hw
  have hrem : ∀ i, i ∈ (dc.nodes.filter (fun n => decide (n.ID ∈ w))).map (fun n => n.ID) →
      i ∈ w := by
    intro i hi
    obtain ⟨m, hm, rfl⟩ := List.mem_map.1 hi
    simpa using (List.mem_filter.1 hm).2
  have hkeepP : ∀ n ∈ dc.nodes, n.ID ∉ w →
      n.ParentID ∉ (dc.nodes.filter (fun n => decide (n.ID ∈ w))).map (fun n => n.ID) :=
    fun n hn hid hp => hid (hcl n hn (hrem _ hp))
  have hclear : ∀ n ∈ dc.nodes, n.ID ∉ w →
      clearDeletedParent
        ((dc.nodes.filter (fun n => decide (n.ID ∈ w))).map (fun n => n.ID)) n = n := by
    intro n hn hid
    rw [clearDeletedParent_eq, if_neg (hkeepP n hn hid)]
  refine ⟨_, _, heq, ?_, ?_, ?_, ?_⟩
  · intro r hr
    simp only [List.mem_map, List.mem_filter, decide_eq_true_eq, decide_not]
    constructor
    · rintro ⟨m, ⟨_, hmw⟩, hmid⟩ ⟨_, hrw⟩
      rw [hmid] at hmw
      simp [hmw] at hrw
    · intro h
      refine ⟨r, ⟨hr, ?_⟩, rfl⟩
      by_contra hrw
      exact h ⟨hr, by simp [hrw]⟩
  · intro n hn
    have hn1 := List.mem_filter.1 hn
    exact ⟨hn1.1, hkeepP n hn1.1 (by simpa using hn1.2)⟩
  · intro n hn
    have hn1 := List.mem_filter.1 hn
    exact hclear n hn1.1 (by simpa using hn1.2)
  · show updateAppDataAfterDeletion dc.nodes
        ((dc.nodes.filter (fun n => decide (n.ID ∈ w))).map (fun n => n.ID)) =
      dc.nodes.filter (fun n => decide (n.ID ∉ w))
    unfold updateAppDataAfterDeletion
    by_cases h0 : ((dc.nodes.filter (fun n => decide (n.ID ∈ w))).map (fun n => n.ID)).length = 0
    · rw [if_pos h0]
      symm
      rw [List.filter_eq_self]
      intro n hn
      simp only [decide_not, Bool.not_eq_true', decide_eq_false_iff_not]
      intro hnw
      have : n.ID ∈ (dc.nodes.filter (fun n => decide (n.ID ∈ w))).map (fun n => n.ID) :=
        List.mem_map.2 ⟨n, List.mem_filter.2 ⟨hn, by simpa using hnw⟩, rfl⟩
      rw [List.length_eq_zero.1 h0] at this
      simp at this
    · rw [if_neg h0, updateLoop_eq]
      have hfilter : dc.nodes.filter (fun n => decide (n.ID ∉
          (dc.nodes.filter (fun n => decide (n.ID ∈ w))).map (fun n => n.ID))) =
          dc.nodes.filter (fun n => decide (n.ID ∉ w)) := by
        apply List.filter_congr
        intro n hn
        by_cases hnw : n.ID ∈ w
        · have : n.ID ∈ (dc.nodes.filter (fun n => decide (n.ID ∈ w))).map (fun n => n.ID) :=
            List.mem_map.2 ⟨n, List.mem_filter.2 ⟨hn, by simpa using hnw⟩, rfl⟩
          simp [hnw, this]
        · have : n.ID ∉ (dc.nodes.filter (fun n => decide (n.ID ∈ w))).map (fun n => n.ID) :=
            fun h => hnw (hrem _ h)
          simp [hnw, this]
      rw [hfilter]
      conv_rhs => rw [← List.map_id (dc.nodes.filter (fun n => decide (n.ID ∉ w)))]
      apply List.map_congr_left
      intro n hn
      have hn1 := List.mem_filter.1 hn
      rw [hclear n hn1.1 (by simpa using hn1.2)]
      rfl

/-! ## The conditional round trip of the content document -/

theorem trimSpace_of_noOuterSpace (s : String) (h : NoOuterSpace s) :
    strings.TrimSpace s = s := by
  have hs : (⟨s.data⟩ : String) = s := rfl
  unfold strings.TrimSpace
  cases hd : s.data with
  | nil =>
    have : s = ⟨[]⟩ := by rw [← hs, hd]
    rw [this]
    rfl
  | cons c cs =>
    have hc : ¬ unicode.IsSpace c = true := by
      have := h.1 c (by rw [hd]; rfl)
      simp [this]
    rw [List.dropWhile_cons_of_neg hc]
    rcases List.eq_nil_or_concat (c :: cs) with hnil | ⟨init, z, hz⟩
    · simp at hnil
    · have hlast : ¬ unicode.IsSpace z = true := by
        have := h.2 z (by rw [hd, hz]; simp)
        simp [this]
      rw [hz, List.concat_eq_append, List.rdropWhile_concat_neg _ _ _ hlast,
        ← List.concat_eq_append, ← hz, ← hd]

/-- C24: for every question and answer that have no leading or trailing white
space and all of whose lines are plain (shorter than the scanner's limit of
64 KiB, without carriage return, not beginning with "# Question", "# Answer"
or "---"), `parseMarkdown` reads the document
"# Question\n\n" + q + "\n\n---\n\n# Answer\n\n" + a back as exactly (q, a),
without error. -/
theorem C24_conditional_roundtrip (q a : String) (hq : PlainText q) (ha : PlainText a)
    (hqs : NoOuterSpace q) (has : NoOuterSpace a) :
    mdContent q a = "# Question\n\n" ++ q ++ "\n\n---\n\n# Answer\n\n" ++ a ∧
      parseMarkdown (.ok ("# Question\n\n" ++ q ++ "\n\n---\n\n# Answer\n\n" ++ a)) =
        .ok (q, a) := by
  refine ⟨rfl, ?_⟩
  have h := parseMarkdown_mdContent q a hq ha
  rw [trimSpace_of_noOuterSpace q hqs, trimSpace_of_noOuterSpace a has] at h
  exact h

/-- C24, an instance: a question of two paragraphs and an answer with an inner
rule-like line " ---" are read back unchanged. -/
theorem C24_conditional_roundtrip_witness :
    PlainText "Why?\n\nAnd how?" ∧ PlainText "So:\n ---\nthus." ∧
      NoOuterSpace "Why?\n\nAnd how?" ∧ NoOuterSpace "So:\n ---\nthus." ∧
      parseMarkdown
          (.ok ("# Question\n\n" ++ "Why?\n\nAnd how?" ++ "\n\n---\n\n# Answer\n\n" ++
            "So:\n ---\nthus.")) =
        .ok ("Why?\n\nAnd how?", "So:\n ---\nthus.") :=
  ⟨by unfold PlainText PlainLine; decide, by unfold PlainText PlainLine; decide,
    by unfold NoOuterSpace; decide, by unfold NoOuterSpace; decide,
    (C24_conditional_roundtrip "Why?\n\nAnd how?" "So:\n ---\nthus."
      (by unfold PlainText PlainLine; decide) (by unfold PlainText PlainLine; decide)
      (by unfold NoOuterSpace; decide) (by unfold NoOuterSpace; decide)).2⟩

/-! ## The ancestor walk on a cycle -/

theorem historyLoop_self_parent (nodes : List NodeData) (n : NodeData)
    (hmap : nodeDataMap nodes n.ID = some n) (hid : n.ID ≠ "") (hp : n.ParentID = n.ID) :
    ∀ (fuel : Nat) (parts : List String),
      historyLoop (nodeDataMap nodes) fuel n.ID parts = none := by
  intro fuel
  induction fuel with
  | zero => intro parts; rfl
  | succ f ih =>
    intro parts
    rw [historyLoop]
    simp only [ne_eq, hid, not_false_eq_true, if_true, hmap]
    rw [hp]
    exact ih _

/-- C25: the store that holds the single node S, which names itself as
parent, is what `loadProjectData` installs from an index that lists this node,
without any check; on it the ancestor walk started at S is still running after
every number of evaluations of its loop condition (the model returns `none`
exactly then), so `getConversationHistory` never returns, while
`RemoveNodeAndDescendants` returns on the same nodes, and on the canvas as
loaded, with the id S. Without the self link the same walk returns at once. -/
theorem C25_walk_runs_forever_on_self_parent :
    (loadProjectData myTheme NewMainApp "p1" (.parsed indexOfSelfParent) readQA).nodes.map
        (fun n => (n.ID, n.ParentID)) = [("S", "S")] ∧
      (∀ (fuel : Nat) (parts : List String),
        historyLoop (nodeDataMap [node "S" "S"]) fuel "S" parts = none) ∧
      (∀ fuel : Nat, getConversationHistory fuel [node "S" "S"] "S" = none) ∧
      (∀ fuel : Nat,
        getConversationHistory fuel
          (loadProjectData myTheme NewMainApp "p1" (.parsed indexOfSelfParent) readQA).nodes "S" =
          none) ∧
      (DialogCanvas.mk [node "S" "S"] "").RemoveNodeAndDescendants "S" =
        some (["S"], ⟨[], ""⟩) ∧
      (loadProjectData myTheme NewMainApp "p1" (.parsed indexOfSelfParent)
          readQA).dialogCanvas.RemoveNodeAndDescendants "S" = some (["S"], ⟨[], ""⟩) ∧
      getConversationHistory 2 [node "S" ""] "S" = some "User: \n\nAI: \n" := by
  have hcanvas : (loadProjectData myTheme NewMainApp "p1" (.parsed indexOfSelfParent)
      readQA).dialogCanvas = ⟨[⟨"S", "", "q", "a", ⟨50, 200⟩, false, "S", false⟩], ""⟩ := by
    simp [loadProjectData, loadNodeTexts, installNodes, App.clearCurrentProjectState,
      DialogCanvas.Clear, DialogCanvas.AddNode, placement, gridPosition, fyne.NewPos,
      indexOfSelfParent, node, NewMainApp, NewDialogCanvas, DialogCanvas.nodeMap, nodeDataMap]
    have hpm : parseMarkdown (readQA (mdPath "p1" "S")) = .ok ("q", "a") := rfl
    rw [hpm]
    simp
  have hload : (loadProjectData myTheme NewMainApp "p1" (.parsed indexOfSelfParent)
      readQA).nodes = [⟨"S", "", "q", "a", ⟨50, 200⟩, false, "S", false⟩] := by
    simp [loadProjectData, loadNodeTexts, installNodes, App.clearCurrentProjectState,
      DialogCanvas.Clear, DialogCanvas.AddNode, placement, gridPosition, fyne.NewPos,
      indexOfSelfParent, node, NewMainApp, NewDialogCanvas, DialogCanvas.nodeMap, nodeDataMap]
    have hpm : parseMarkdown (readQA (mdPath "p1" "S")) = .ok ("q", "a") := rfl
    rw [hpm]
    simp
  have h1 : ∀ (fuel : Nat) (parts : List String),
      historyLoop (nodeDataMap [node "S" "S"]) fuel "S" parts = none :=
    historyLoop_self_parent [node "S" "S"] (node "S" "S") (by decide) (by decide) rfl
  refine ⟨by rw [hload]; rfl, h1, ?_, ?_, by decide, by rw [hcanvas]; decide, by decide⟩
  · intro fuel
    unfold getConversationHistory
    rw [h1]
    rfl
  · intro fuel
    unfold getConversationHistory
    rw [hload]
    have h2 := historyLoop_self_parent [⟨"S", "", "q", "a", ⟨50, 200⟩, false, "S", false⟩]
      ⟨"S", "", "q", "a", ⟨50, 200⟩, false, "S", false⟩
      (by simp [nodeDataMap]) (by decide) rfl fuel []
    simp only at h2
    rw [h2]
    rfl

/-! ## A failing backend -/

end DialogueMap
